import Mathlib

/-!
# go-wanchain proof-of-stake core: leader selection and fork buffer

A shallow embedding of

* `pos/epochLeader/epoch_leader_selection.go` (probability table, leader draws),
* `core/fork_mem.go` (the bounded fork buffer),

together with the library routines they call (`sort.Search`, `sort.Stable`,
`big.Int` arithmetic), followed by theorems about the embedded code.

Conventions: `*big.Int` values are `Int`, `uint64` values are `Nat` reduced
modulo `2^64` wherever Go arithmetic wraps, `int`/`int64` values are `Int`
wrapped by `wrapInt64`, byte slices are lists of byte values, a Go map is an
association list, and a run-time panic is an `Except.error` carrying a `Fault`.
-/

namespace GoWanchain

/-! ## Go runtime conventions -/

/-- Byte slices: each element is one byte value. -/
abbrev Bytes := List Nat

/-- The modulus of 64-bit machine words. -/
def two64 : Nat := 18446744073709551616

/-- The first value that no longer fits a signed 64-bit integer. -/
def two63 : Nat := 9223372036854775808

/-- Go conversion `int64(x)` / `int(x)` of a `uint64`: the same 64 bits read as two's complement. -/
def toInt64 (x : Nat) : Int :=
  if x % two64 < two63 then ((x % two64 : Nat) : Int) else ((x % two64 : Nat) : Int) - (two64 : Int)

/-- Result of a signed 64-bit operation whose mathematical value is `z`. -/
def wrapInt64 (z : Int) : Int := toInt64 (z % (two64 : Int)).toNat

/-- Unsigned 64-bit subtraction `x - 1`. -/
def u64Pred (x : Nat) : Nat := (x % two64 + two64 - 1) % two64

/-- Unsigned 64-bit addition. -/
def u64Add (x y : Nat) : Nat := (x + y) % two64

/-- Run-time panics of the Go code that the embedding keeps track of. -/
inductive Fault where
  | divisionByZero
  | indexOutOfRange
  | nilDereference
  | outOfFuel
  deriving DecidableEq, Repr

/-! ## `sort.Search` (Go standard library) -/

/-- The loop of `sort.Search`: `for i < j { h := (i+j)/2; if !f(h) { i = h+1 } else { j = h } }`.
The first argument bounds the number of iterations; `j - i` iterations always suffice. -/
def searchLoop (f : Nat → Bool) : Nat → Nat → Nat → Nat
  | 0, i, _ => i
  | fuel + 1, i, j =>
    if i < j then
      if !f ((i + j) / 2) then searchLoop f fuel ((i + j) / 2 + 1) j
      else searchLoop f fuel i ((i + j) / 2)
    else i

/-- Go `sort.Search(n, f)`: `i, j := 0, n`, then the loop, returning `i`. -/
def sortSearch (n : Nat) (f : Nat → Bool) : Nat := searchLoop f n 0 n

/-! ## Proposers and the probability table -/

/-- Go `type Proposer struct { PubSec256, PubBn256 []byte; Probabilities *big.Int }`. -/
structure Proposer where
  PubSec256 : Bytes
  PubBn256 : Bytes
  Probabilities : Int
  deriving DecidableEq, Repr

/-- Go `type ProposerSorter []Proposer`. -/
abbrev ProposerSorter := List Proposer

/-- The closure handed to `sort.Search` by both selections:
`func(i int) bool { return ps[i].Probabilities.Cmp(crBig) > 0 }`. -/
def exceeds (ps : ProposerSorter) (crBig : Int) (i : Nat) : Bool :=
  match ps[i]? with
  | some p => decide (crBig < p.Probabilities)
  | none => false

/-- The draw: `idx := sort.Search(len(ps), func(i int) bool { ... > 0 })`. -/
def drawIdx (ps : ProposerSorter) (crBig : Int) : Nat :=
  sortSearch ps.length (exceeds ps crBig)

/-- The table of the specification example, cumulative weights A=10, B=30, C=100. -/
def tableABC : ProposerSorter :=
  [⟨[65], [], 10⟩, ⟨[66], [], 30⟩, ⟨[67], [], 100⟩]

/-! ## Stakers (`vm.StakerInfo`) and `CalEpochProbabilityStaker` -/

/-- Go `vm.PartnerInfo`, with the fields the selection code reads. -/
structure PartnerInfo where
  Address : Nat
  Amount : Int
  StakeAmount : Int
  Renewal : Bool
  LockEpochs : Nat
  StakingEpoch : Nat
  deriving DecidableEq, Repr

/-- Go `vm.ClientInfo`, with the fields the selection code reads. -/
structure ClientInfo where
  Address : Nat
  Amount : Int
  StakeAmount : Int
  QuitEpoch : Nat
  deriving DecidableEq, Repr

/-- Go `vm.StakerInfo`, with the fields the selection code reads. -/
structure StakerInfo where
  Address : Nat
  PubSec256 : Bytes
  PubBn256 : Bytes
  Amount : Int
  StakeAmount : Int
  LockEpochs : Nat
  StakingEpoch : Nat
  FeeRate : Nat
  Clients : List ClientInfo
  Partners : List PartnerInfo
  deriving DecidableEq, Repr

/-- Go `vm.ClientProbability`. -/
structure ClientProbability where
  Addr : Nat
  Probability : Int
  deriving DecidableEq, Repr

/-- Constants of package `vm` that `CalEpochProbabilityStaker` reads; their declarations
are outside the embedded files, so they are parameters. -/
structure VmParams where
  PSNodeleFeeRate : Nat
  MinValidatorStake : Int
  deriving DecidableEq, Repr

/-- Go errors are values; `none` is the `nil` error. -/
abbrev GoError := Option String

/-- The partner test of both partner loops, in `uint64` arithmetic:
`epochID < staker.Partners[i].StakingEpoch+staker.Partners[i].LockEpochs-1`. -/
def partnerCounted (epochID : Nat) (p : PartnerInfo) : Bool :=
  decide (epochID < u64Pred (u64Add p.StakingEpoch p.LockEpochs))

/-- The client test: `staker.Clients[i].QuitEpoch == 0 || epochID < staker.Clients[i].QuitEpoch-1`. -/
def clientCounted (epochID : Nat) (c : ClientInfo) : Bool :=
  c.QuitEpoch == 0 || decide (epochID < u64Pred c.QuitEpoch)

/-- First loop: `totalAmount` starts at `staker.Amount` and adds the amount of each counted partner. -/
def totalAmount (staker : StakerInfo) (epochID : Nat) : Int :=
  staker.Partners.foldl
    (fun acc p => if partnerCounted epochID p then acc + p.Amount else acc) staker.Amount

/-- Second loop: `totalPartnerProbability` starts at `staker.StakeAmount` and adds the stake
weight of each counted partner. -/
def totalPartnerProbability (staker : StakerInfo) (epochID : Nat) : Int :=
  staker.Partners.foldl
    (fun acc p => if partnerCounted epochID p then acc + p.StakeAmount else acc) staker.StakeAmount

/-- Third loop: adds each counted client to `totalProbability` and appends it to `infors`. -/
def clientLoop (epochID : Nat) :
    List ClientInfo → List ClientProbability × Int → List ClientProbability × Int
  | [], acc => acc
  | c :: rest, (infors, total) =>
    if clientCounted epochID c then
      clientLoop epochID rest (infors ++ [⟨c.Address, c.StakeAmount⟩], total + c.StakeAmount)
    else clientLoop epochID rest (infors, total)

/-- Go `CalEpochProbabilityStaker(staker, epochID) (infors, totalProbability, err)`. -/
def CalEpochProbabilityStaker (vmp : VmParams) (staker : StakerInfo) (epochID : Nat) :
    Except String (List ClientProbability × Int) :=
  if staker.FeeRate ≠ vmp.PSNodeleFeeRate ∧ totalAmount staker epochID < vmp.MinValidatorStake then
    .error "Validator don't have enough amount."
  else if staker.LockEpochs ≠ 0 ∧
      epochID ≥ u64Pred (u64Add staker.StakingEpoch staker.LockEpochs) then
    .error "Validator is exiting"
  else
    let base := totalPartnerProbability staker epochID
    let r := clientLoop epochID staker.Clients ([⟨staker.Address, base⟩], base)
    let probability6 := base * 6
    if r.2 > probability6 then .ok (r.1, probability6) else .ok (r.1, r.2)

/-! ## `createStakerProbabilityArray` -/

/-- The part of `state.StateDB` read by the table builder: the records stored under
`vm.StakersInfoAddr` in iteration order, each as the result of `rlp.DecodeBytes`
(`none` when decoding fails). -/
structure StateDB where
  stakerRecords : List (Option StakerInfo)
  deriving DecidableEq, Repr

/-- The callback of `ForEachStorageByteArray`, run over all records: a record that fails to
decode, or whose staker is rejected, is skipped; every other one is appended. -/
def collectProposers (vmp : VmParams) (epochID : Nat) :
    List (Option StakerInfo) → ProposerSorter → ProposerSorter
  | [], ps => ps
  | none :: rest, ps => collectProposers vmp epochID rest ps
  | some staker :: rest, ps =>
    match CalEpochProbabilityStaker vmp staker epochID with
    | .error _ => collectProposers vmp epochID rest ps
    | .ok (_, p) => collectProposers vmp epochID rest (ps ++ [⟨staker.PubSec256, staker.PubBn256, p⟩])

/-- Go `sort.Stable(ProposerSorter(ps))` with `Less(i, j) = ps[i].Probabilities < ps[j].Probabilities`:
the stable ascending order, computed by insertion. -/
def sortStable (ps : ProposerSorter) : ProposerSorter :=
  ps.insertionSort (fun a b => a.Probabilities ≤ b.Probabilities)

/-- The loop `ps[idx].Probabilities = ps[idx].Probabilities + ps[idx-1].Probabilities` for
`idx ≥ 1`, where `prev` is the already updated value at `idx-1`. -/
def prefixSumFrom (prev : Int) : ProposerSorter → ProposerSorter
  | [] => []
  | p :: rest =>
    { p with Probabilities := p.Probabilities + prev } ::
      prefixSumFrom (p.Probabilities + prev) rest

/-- The whole prefix-sum loop: index 0 is left as it is. -/
def prefixSum : ProposerSorter → ProposerSorter
  | [] => []
  | p :: rest => p :: prefixSumFrom p.Probabilities rest

/-- Go `createStakerProbabilityArray(statedb, epochID) (ProposerSorter, error)`; the first
component is `none` for the `nil` slice. -/
def createStakerProbabilityArray (vmp : VmParams) (statedb : Option StateDB) (epochID : Nat) :
    Option ProposerSorter × GoError :=
  match statedb with
  | none => (none, some "ErrUnknown")
  | some db => (some (prefixSum (sortStable (collectProposers vmp epochID db.stakerRecords []))), none)

/-! ## The two leader selections -/

/-- Constants of packages `posconfig` and `pos`; their declarations are outside the
embedded files, so they are parameters. -/
structure PosConfig where
  EpochLeaderCount : Nat
  RandomProperCount : Nat
  SlotCount : Nat
  SlotTime : Nat
  EpochBaseTime : Nat
  deriving DecidableEq, Repr

/-- Go `new(big.Int).SetBytes(cr)`: the bytes read as a big-endian unsigned integer. -/
def bytesToNat (bs : Bytes) : Nat := bs.foldl (fun acc b => acc * 256 + b) 0

/-- Go `rlp.EncodeToBytes` on a proposer succeeds unless the big integer is negative
(the two byte slices always encode). -/
def rlpEncodable (p : Proposer) : Bool := decide (0 ≤ p.Probabilities)

/-- A local leader database (`posdb.Db`) as the log of its `PutWithIndex(epochId, index, "", val)`
calls, oldest first; the stored value is kept as the proposer that `val` encodes. -/
abbrev LeaderDb := List (Nat × Nat × Proposer)

/-- Go `type Epocher struct`: the two databases the selections write to. -/
structure Epocher where
  rbLeadersDb : LeaderDb
  epochLeadersDb : LeaderDb
  deriving DecidableEq, Repr

/-- The body of the selection loops, from iteration `i` on with `remaining` iterations left:
reduce `cr` modulo `tp`, search, encode, store under `(epochId, i)`, and hash `cr` again.
When encoding fails the iteration ends by `continue`, before `cr` is hashed again. -/
def selectionLoop (keccak256 : Bytes → Bytes) (ps : ProposerSorter) (tp : Int) (epochId : Nat) :
    Nat → Nat → Bytes → LeaderDb → Except Fault LeaderDb
  | 0, _, _, db => .ok db
  | remaining + 1, i, cr, db =>
    if tp = 0 then .error Fault.divisionByZero
    else
      match ps[drawIdx ps ((bytesToNat cr : Int) % tp)]? with
      | none => .error Fault.indexOutOfRange
      | some p =>
        if rlpEncodable p then
          selectionLoop keccak256 ps tp epochId remaining (i + 1) (keccak256 cr)
            (db ++ [(epochId, i, p)])
        else selectionLoop keccak256 ps tp epochId remaining (i + 1) cr db

/-- Go `tp := ps[len(ps)-1].Probabilities` for a non-empty table (0 stands in for the
unreachable empty case). -/
def totalProbabilityOf (ps : ProposerSorter) : Int :=
  match ps.getLast? with
  | some p => p.Probabilities
  | none => 0

/-- The number of epoch-leader draws: `posconfig.EpochLeaderCount`, or, when `GetWhiteInfo`
returns no error, `posconfig.EpochLeaderCount - int(info.WlCount.Uint64())`. The argument
`wl` is `none` when `GetWhiteInfo` fails and the white-list count otherwise. -/
def selectionCount (cfg : PosConfig) (wl : Option Nat) : Int :=
  match wl with
  | none => (cfg.EpochLeaderCount : Int)
  | some w => wrapInt64 ((cfg.EpochLeaderCount : Int) - toInt64 w)

/-- Go `epochLeaderSelection(r, ps, epochId) error`, as the returned error and the new
`epochLeadersDb`; `r` is `none` for a `nil` slice. -/
def epochLeaderSelection (keccak256 : Bytes → Bytes) (cfg : PosConfig) (wl : Option Nat)
    (r : Option Bytes) (ps : ProposerSorter) (epochId : Nat) (db : LeaderDb) :
    Except Fault (GoError × LeaderDb) :=
  match r with
  | none => .ok (some "Invalid Random Proposer Selection", db)
  | some rb =>
    if ps.length = 0 then .ok (some "Invalid Random Proposer Selection", db)
    else
      match selectionLoop keccak256 ps (totalProbabilityOf ps) epochId
          (selectionCount cfg wl).toNat 0 (keccak256 (0 :: rb)) db with
      | .error e => .error e
      | .ok db1 => .ok (none, db1)

/-- Go `randomProposerSelection(r, ps, epochId) error`, as the returned error and the new
`rbLeadersDb`. -/
def randomProposerSelection (keccak256 : Bytes → Bytes) (cfg : PosConfig)
    (r : Option Bytes) (ps : ProposerSorter) (epochId : Nat) (db : LeaderDb) :
    Except Fault (GoError × LeaderDb) :=
  match r with
  | none => .ok (some "Invalid Epoch Proposer Selection", db)
  | some rb =>
    if ps.length = 0 then .ok (some "Invalid Epoch Proposer Selection", db)
    else
      match selectionLoop keccak256 ps (totalProbabilityOf ps) epochId
          cfg.RandomProperCount 0 (keccak256 (1 :: rb)) db with
      | .error e => .error e
      | .ok db1 => .ok (none, db1)

/-- Go `selectLeaders(r, statedb, epochId) error`: the results of the two selections are
not looked at. -/
def selectLeaders (keccak256 : Bytes → Bytes) (vmp : VmParams) (cfg : PosConfig)
    (wl : Option Nat) (r : Option Bytes) (statedb : Option StateDB) (epochId : Nat)
    (e : Epocher) : Except Fault (GoError × Epocher) :=
  match createStakerProbabilityArray vmp statedb epochId with
  | (none, err) => .ok (err, e)
  | (some _, some err) => .ok (some err, e)
  | (some pa, none) =>
    match epochLeaderSelection keccak256 cfg wl r pa epochId e.epochLeadersDb with
    | .error f => .error f
    | .ok (_, db1) =>
      match randomProposerSelection keccak256 cfg r pa epochId e.rbLeadersDb with
      | .error f => .error f
      | .ok (_, db2) => .ok (none, { rbLeadersDb := db2, epochLeadersDb := db1 })

/-- Go `SelectLeadersLoop(epochId) error`. The chain accessors are parameters: `stateAt` is
the result of `blkChain.StateAt(...)` and `getR` is `vm.GetR` (`none` for `nil`). -/
def SelectLeadersLoop (keccak256 : Bytes → Bytes) (vmp : VmParams) (cfg : PosConfig)
    (wl : Option Nat) (stateAt : Except String StateDB) (getR : StateDB → Nat → Option Nat)
    (epochId : Nat) (e : Epocher) : Except Fault (GoError × Epocher) :=
  match stateAt with
  | .error err => .ok (some err, e)
  | .ok stateDb =>
    let epochIdIn := if epochId > 0 then epochId - 1 else epochId
    let rb := match getR stateDb epochIdIn with
      | some v => v
      | none => 1
    selectLeaders keccak256 vmp cfg wl (some (Nat.digits 256 rb).reverse) (some stateDb) epochId e

/-! ## Go maps -/

/-- Go maps as association lists with at most one entry per key in every map built by
`goMapSet` and `goMapDelete` from the empty map. -/
abbrev GoMap (κ : Type) (ν : Type) := List (κ × ν)

/-- Go `m[k]` with the presence flag: the value stored under `k`, if any. -/
def goMapGet {κ ν : Type} [DecidableEq κ] (m : GoMap κ ν) (k : κ) : Option ν :=
  match m with
  | [] => none
  | (k1, v) :: rest => if k1 = k then some v else goMapGet rest k

/-- Go `m[k] = v`: replaces the value of an existing key, adds the key otherwise. -/
def goMapSet {κ ν : Type} [DecidableEq κ] (m : GoMap κ ν) (k : κ) (v : ν) : GoMap κ ν :=
  match m with
  | [] => [(k, v)]
  | (k1, v1) :: rest => if k1 = k then (k, v) :: rest else (k1, v1) :: goMapSet rest k v

/-- Go `delete(m, k)`. -/
def goMapDelete {κ ν : Type} [DecidableEq κ] (m : GoMap κ ν) (k : κ) : GoMap κ ν :=
  m.filter (fun e => decide (e.1 ≠ k))

/-! ## The fork buffer (`core/fork_mem.go`) -/

/-- Block hashes (`common.Hash`), as opaque identifiers. -/
abbrev BlockHash := Nat

/-- The part of `types.Block` that the fork buffer reads: `Hash()`, `ParentHash()`,
`Number()`, and the header fields `Time` and `Difficulty` (non-negative big integers). -/
structure Block where
  Hash : BlockHash
  ParentHash : BlockHash
  Number : Nat
  Time : Nat
  Difficulty : Nat
  deriving DecidableEq, Repr

/-- Go `block.NumberU64()`: the low 64 bits of the number. -/
def Block.NumberU64 (b : Block) : Nat := b.Number % two64

/-- Go `type ForkMemBlockChain struct` without the lock and the two selector interfaces.
The keys of `kBufferedChains` are the decimal strings of block numbers (`Number().Text(10)`),
kept as the numbers they spell. -/
structure ForkMemBlockChain where
  useEpochGenesis : Bool
  ctype : Nat
  kBufferedChains : GoMap Nat (List BlockHash)
  kBufferedBlks : GoMap BlockHash Block
  curMaxBlkNum : Int
  deriving DecidableEq, Repr

/-- Go `NewForkMemBlockChain(ctype)`. -/
def NewForkMemBlockChain (ctype : Nat) : ForkMemBlockChain :=
  { useEpochGenesis := false, ctype := ctype, kBufferedChains := [], kBufferedBlks := [],
    curMaxBlkNum := 0 }

/-- A bucket of the height index, `f.kBufferedChains[big.NewInt(key).Text(10)]`: the `nil`
slice when absent; the decimal string of a negative integer is the key of no bucket. -/
def bucketAt (f : ForkMemBlockChain) (key : Int) : List BlockHash :=
  if key < 0 then []
  else
    match goMapGet f.kBufferedChains key.toNat with
    | some hs => hs
    | none => []

/-- Go `Push(block) error`; the error is always `nil`, so only the new buffer is returned
by `PushState` and `Push` pairs it with the error. -/
def PushState (f : ForkMemBlockChain) (block : Block) : ForkMemBlockChain :=
  let newbn := toInt64 block.NumberU64
  let cur :=
    if f.curMaxBlkNum = 0 then newbn
    else if wrapInt64 (f.curMaxBlkNum + 1) = newbn then newbn
    else f.curMaxBlkNum
  { f with
    curMaxBlkNum := cur
    kBufferedChains :=
      goMapSet f.kBufferedChains block.Number (bucketAt f (block.Number : Int) ++ [block.Hash])
    kBufferedBlks := goMapSet f.kBufferedBlks block.Hash block }

/-- Go `Push(block) error`. -/
def Push (f : ForkMemBlockChain) (block : Block) : GoError × ForkMemBlockChain :=
  (none, PushState f block)

/-- The key that `PopBack` evicts: `blkNumBeforeK := f.curMaxBlkNum - int64(pos.SlotCount)`. -/
def blkNumBeforeK (cfg : PosConfig) (f : ForkMemBlockChain) : Int :=
  wrapInt64 (f.curMaxBlkNum - toInt64 cfg.SlotCount)

/-- Go `PopBack()`. -/
def PopBack (cfg : PosConfig) (f : ForkMemBlockChain) : ForkMemBlockChain :=
  if (f.kBufferedChains.length : Int) > toInt64 cfg.SlotCount then
    if blkNumBeforeK cfg f < 0 then f
    else
      { f with
        kBufferedBlks :=
          (bucketAt f (blkNumBeforeK cfg f)).foldl (fun m bh => goMapDelete m bh) f.kBufferedBlks
        kBufferedChains := goMapDelete f.kBufferedChains (blkNumBeforeK cfg f).toNat }
  else f

/-- Go `calEpochSlotIDFromTime(timeUnix) (epochId, slotId)` in `uint64` arithmetic; a zero
divisor is a run-time panic. -/
def calEpochSlotIDFromTime (cfg : PosConfig) (timeUnix : Nat) : Except Fault (Nat × Nat) :=
  if cfg.EpochBaseTime = 0 then .ok (0, 0)
  else
    let epochTimespan := (cfg.SlotTime * cfg.SlotCount) % two64
    let elapsed := (timeUnix % two64 + two64 - cfg.EpochBaseTime % two64) % two64
    if epochTimespan = 0 then .error Fault.divisionByZero
    else if cfg.SlotTime % two64 = 0 then .error Fault.divisionByZero
    else if cfg.SlotCount % two64 = 0 then .error Fault.divisionByZero
    else .ok (elapsed / epochTimespan, elapsed / (cfg.SlotTime % two64) % (cfg.SlotCount % two64))

/-- Go `GetBlockEpochIdAndSlotId(header) (blkEpochId, blkSlotId, err)`; the inner `Except`
is the Go error, the outer one a panic. -/
def GetBlockEpochIdAndSlotId (cfg : PosConfig) (header : Block) :
    Except Fault (Except String (Nat × Nat)) :=
  let blkTime := header.Time % two64
  let blkTd := header.Difficulty % two64
  let blkEpochId := blkTd / 4294967296
  let blkSlotId := (blkTd % 4294967296) / 256
  match calEpochSlotIDFromTime cfg blkTime with
  | .error e => .error e
  | .ok (calEpochId, _) =>
    if calEpochId ≠ blkEpochId then .ok (.error "epochid and slotid is not match with blk time")
    else .ok (.ok (blkEpochId, blkSlotId))

/-- The tie-break loop of `Maxvalid` over the hashes at the frontier: a candidate whose
epoch check fails is skipped; a candidate with a strictly smaller slot id replaces the
current choice. The state is `(minSid, midSidBlk)`. -/
def tieBreakLoop (cfg : PosConfig) (f : ForkMemBlockChain) :
    List BlockHash → Nat × Option Block → Except Fault (Nat × Option Block)
  | [], st => .ok st
  | hs :: rest, (minSid, mid) =>
    match goMapGet f.kBufferedBlks hs with
    | none => .error Fault.nilDereference
    | some blk =>
      match GetBlockEpochIdAndSlotId cfg blk with
      | .error e => .error e
      | .ok (.error _) => tieBreakLoop cfg f rest (minSid, mid)
      | .ok (.ok (_, sid)) =>
        if sid < minSid then tieBreakLoop cfg f rest (sid, some blk)
        else tieBreakLoop cfg f rest (minSid, mid)

/-- The loop `for ; midSidBlk != nil && int64(midSidBlk.NumberU64()) != workBlkNum;
midSidBlk = f.kBufferedBlks[midSidBlk.ParentHash()] { chainBlks = append(chainBlks, midSidBlk) }`,
returning the final `(midSidBlk, chainBlks)`; the first argument bounds the iterations. -/
def reduceLoop (f : ForkMemBlockChain) (workBlkNum : Int) :
    Nat → Option Block → List Block → Except Fault (Option Block × List Block)
  | _, none, chain => .ok (none, chain)
  | 0, some mid, chain =>
    if toInt64 mid.NumberU64 ≠ workBlkNum then .error Fault.outOfFuel else .ok (some mid, chain)
  | fuel + 1, some mid, chain =>
    if toInt64 mid.NumberU64 ≠ workBlkNum then
      reduceLoop f workBlkNum fuel (goMapGet f.kBufferedBlks mid.ParentHash) (chain ++ [mid])
    else .ok (some mid, chain)

/-- The lockstep loop of `Maxvalid` that looks for the common ancestor; the inner `Except`
is the Go error "can not find common prefix". -/
def commonLoop (f : ForkMemBlockChain) :
    Nat → Block → Block → List Block → Except Fault (Except String (List Block))
  | 0, _, _, _ => .error Fault.outOfFuel
  | fuel + 1, mid, work, chain =>
    if work.NumberU64 = 1 ∨ (work.Hash = mid.Hash ∧ work.NumberU64 = mid.NumberU64) then
      .ok (.ok (chain ++ [mid]))
    else
      match goMapGet f.kBufferedBlks mid.ParentHash with
      | none => .ok (.error "can not find common prefix")
      | some mid1 =>
        match goMapGet f.kBufferedBlks work.ParentHash with
        | none => .ok (.error "can not find common prefix")
        | some work1 => commonLoop f fuel mid1 work1 (chain ++ [mid])

/-- Go `sort.Sort(BlockSorter(chainBlks))`, ascending by `NumberU64()`. The order that
`sort.Sort` gives to blocks of equal number is not specified by Go; insertion keeps them in
their order of arrival, and both agree whenever the numbers are distinct. -/
def sortBlocks (chain : List Block) : List Block :=
  chain.insertionSort (fun a b => a.NumberU64 ≤ b.NumberU64)

/-- Go `Maxvalid(workBlk) (types.Blocks, error)`: the segment (`[]` for the `nil` slice)
and the Go error; `workBlk` is `none` for `nil`, and `fuel` bounds each of the two
parent walks. -/
def Maxvalid (cfg : PosConfig) (fuel : Nat) (f : ForkMemBlockChain) (workBlk : Option Block) :
    Except Fault (List Block × GoError) :=
  match workBlk with
  | none => .ok ([], some "can not get current block in working chain")
  | some work =>
    let workBlkNum := toInt64 work.NumberU64
    if workBlkNum ≥ f.curMaxBlkNum then .ok ([], none)
    else
      let hashs := bucketAt f f.curMaxBlkNum
      match hashs with
      | [] => .error Fault.indexOutOfRange
      | h0 :: _ =>
        let first : Nat × Option Block := (two64 - 1, goMapGet f.kBufferedBlks h0)
        let picked :=
          if hashs.length > 1 then tieBreakLoop cfg f hashs first else .ok first
        match picked with
        | .error e => .error e
        | .ok (_, midSidBlk) =>
          match reduceLoop f workBlkNum fuel midSidBlk [] with
          | .error e => .error e
          | .ok (none, chain) => .ok (sortBlocks chain, none)
          | .ok (some mid, chain) =>
            if mid.Hash ≠ work.Hash then
              match commonLoop f fuel mid work chain with
              | .error e => .error e
              | .ok (.error err) => .ok ([], some err)
              | .ok (.ok chain1) => .ok (sortBlocks chain1, none)
            else .ok (sortBlocks chain, none)

/-! ## Epoch genesis (`GetEpochGenesis`, `VerifyEpochGenesis`) -/

/-- Go `vm.Leader`, with the field that the genesis code reads. -/
structure Leader where
  PubSec256 : Bytes
  PubBn256 : Bytes
  deriving DecidableEq, Repr

/-- Go `types.EpochGenesis`; a slice field is `none` while it is `nil`. -/
structure EpochGenesis where
  ProtocolMagic : Bytes
  EpochId : Nat
  PreEpochLastBlkHash : BlockHash
  RBLeaders : Option (List Bytes)
  SlotLeaders : Option (List Bytes)
  GenesisBlkHash : BlockHash
  deriving DecidableEq, Repr

/-- The bytes of the string "wanchainpos". -/
def protocolMagic : Bytes := [119, 97, 110, 99, 104, 97, 105, 110, 112, 111, 115]

/-- The two selector interfaces of the buffer: `GetRBProposerGroup` and `GetEpochLeadersPK`
(`none` for a `nil` slice; each key as the bytes `crypto.FromECDSAPub` gives). -/
structure Selectors where
  GetRBProposerGroup : Nat → List Leader
  GetEpochLeadersPK : Nat → Option (List Bytes)

/-- The slot-leader list built by both functions: `make([][]byte, 0)` followed by the
encoded keys when `pks != nil`. -/
def slotLeadersOf (sel : Selectors) (epochid : Nat) : Option (List Bytes) :=
  match sel.GetEpochLeadersPK epochid with
  | some pks => some pks
  | none => some []

/-- Go `GetEpochGenesis(epochid, blk)`: the record whose encoding is returned. The function
`encodeHash` stands for `crypto.Keccak256Hash` applied to `json.Marshal` of a record. The
result of `GetRBProposerGroup` is not stored, so `RBLeaders` stays `nil`. -/
def GetEpochGenesis (encodeHash : EpochGenesis → BlockHash) (sel : Selectors) (epochid : Nat)
    (blk : Block) : EpochGenesis :=
  let epGen : EpochGenesis :=
    { ProtocolMagic := protocolMagic, EpochId := epochid, PreEpochLastBlkHash := blk.Hash,
      RBLeaders := none, SlotLeaders := slotLeadersOf sel epochid, GenesisBlkHash := 0 }
  { epGen with GenesisBlkHash := encodeHash epGen }

/-- The record that `VerifyEpochGenesis` rebuilds and hashes. -/
def verifyRecord (sel : Selectors) (epochid : Nat) (lastBlk : Block) : EpochGenesis :=
  { ProtocolMagic := protocolMagic, EpochId := epochid, PreEpochLastBlkHash := lastBlk.Hash,
    RBLeaders := some ((sel.GetRBProposerGroup epochid).map Leader.PubSec256),
    SlotLeaders := slotLeadersOf sel epochid, GenesisBlkHash := 0 }

/-- Go `VerifyEpochGenesis(bc, blk) bool`; `getBlockByNumber` is `bc.GetBlockByNumber`
(`none` for `nil`, whose `Hash()` panics). -/
def VerifyEpochGenesis (encodeHash : EpochGenesis → BlockHash) (cfg : PosConfig)
    (sel : Selectors) (getBlockByNumber : Nat → Option Block) (f : ForkMemBlockChain)
    (blk : Block) : Except Fault Bool :=
  if !f.useEpochGenesis then .ok true
  else
    match GetBlockEpochIdAndSlotId cfg blk with
    | .error e => .error e
    | .ok (.error _) => .ok false
    | .ok (.ok (epochid, _)) =>
      match getBlockByNumber (u64Pred blk.NumberU64) with
      | none => .error Fault.nilDereference
      | some lastBlk => .ok (decide (encodeHash (verifyRecord sel epochid lastBlk) = blk.ParentHash))

/-! ## The slot-leader work flow (`pos/slotleader/workflow.go`) -/

/-- The work stages `slotLeaderSelectionInit`, ..., `slotLeaderSelectionStageFinished`. -/
inductive WorkStage where
  | slotLeaderSelectionInit
  | slotLeaderSelectionStage1
  | slotLeaderSelectionStage2
  | slotLeaderSelectionStage3
  | slotLeaderSelectionStageFinished
  deriving DecidableEq, Repr

/-- The stage windows `pos.Stage1K`, `pos.Stage2K`, `pos.Stage4K`, `pos.Stage5K`; their
declarations are outside the embedded files, so they are parameters. -/
structure StageConfig where
  Stage1K : Nat
  Stage2K : Nat
  Stage4K : Nat
  Stage5K : Nat
  deriving DecidableEq, Repr

/-- The local key `s.key` as the work flow uses it: whether the public key and its
coordinates are present, whether the point is on the curve, and the hex string of the
encoded public key (the key of `epochLeadersMap`). -/
structure LocalKey where
  present : Bool
  onCurve : Bool
  hex : Bytes
  deriving DecidableEq, Repr

/-- Go `SlotLeaderSelection` together with the module-level variables that `Loop` changes:
the retry budget `errorRetry`, the counters behind `ErrorCountAdd` and `WarnCountAdd`, and
the records of what was stored and sent (the alpha database, the stage-1 and stage-2
transactions, the epochs whose security message was produced). -/
structure SlotLeaderSelection where
  key : LocalKey
  workingEpochID : Nat
  workStage : WorkStage
  epochLeadersMap : GoMap Bytes (List Nat)
  caches : List Bytes
  errorRetry : Int
  errorCount : Nat
  warnCount : Nat
  alphaDb : List (Nat × Nat × Nat)
  stage1Sent : List Bytes
  stage2Sent : List Bytes
  securityMsgs : List Nat
  deriving DecidableEq, Repr

/-- The collaborators of one `Loop` call whose code is outside the embedded files, as
functions: the leader group of an epoch (`buildEpochLeaderGroup`), `generateSlotLeadsGroup`,
the random scalar and the commitment of `uleaderselection`, the stage-1 packer, the two
senders, the stage-2 payload builder and `generateSecurityMsg`. -/
structure LoopEnv where
  leaderGroup : Nat → GoMap Bytes (List Nat)
  generateSlotLeadsGroup : Nat → GoError
  randFieldElement : Except String Nat
  generateCommitment : Nat → Except String Bytes
  rlpPackStage1 : Nat → Nat → Bytes → Bytes × GoError
  sendStage1Tx : Bytes → GoError
  buildStage2TxPayload : Nat → Nat → Except String Bytes
  sendStage2Tx : Bytes → GoError
  generateSecurityMsg : Nat → GoError

/-- Modelled from the spec: `getWorkStage(epochID)`, which is outside the embedded files;
the state holds one stage. -/
def getWorkStage (s : SlotLeaderSelection) (_epochID : Nat) : WorkStage := s.workStage

/-- Modelled from the spec: `setWorkStage(epochID, stage)`, which is outside the embedded
files; the state holds one stage. -/
def setWorkStage (s : SlotLeaderSelection) (_epochID : Nat) (stage : WorkStage) :
    SlotLeaderSelection :=
  { s with workStage := stage }

/-- Modelled from the spec: `getWorkingEpochID()`, which is outside the embedded files. -/
def getWorkingEpochID (s : SlotLeaderSelection) : Nat := s.workingEpochID

/-- Modelled from the spec: `setWorkingEpochID(epochID)`, which is outside the embedded
files. -/
def setWorkingEpochID (s : SlotLeaderSelection) (epochID : Nat) : SlotLeaderSelection :=
  { s with workingEpochID := epochID }

/-- Modelled from the spec: `clearData()`, which is outside the embedded files; it clears
all per-epoch local caches. -/
def clearData (s : SlotLeaderSelection) : SlotLeaderSelection :=
  { s with epochLeadersMap := [], caches := [] }

/-- Modelled from the spec: `buildEpochLeaderGroup(epochID)`, which is outside the embedded
files; it fetches this epoch's leader group. -/
def buildEpochLeaderGroup (env : LoopEnv) (s : SlotLeaderSelection) (epochID : Nat) :
    SlotLeaderSelection :=
  { s with epochLeadersMap := env.leaderGroup epochID }

/-- Modelled from the spec: `isLocalPkInCurrentEpochLeaders()`, which is outside the embedded
files; the local public key is among this epoch's leaders. -/
def isLocalPkInCurrentEpochLeaders (s : SlotLeaderSelection) : Bool :=
  (goMapGet s.epochLeadersMap s.key.hex).isSome

/-- Go `checkNewEpochStart(epochID)`. -/
def checkNewEpochStart (s : SlotLeaderSelection) (epochID : Nat) : SlotLeaderSelection :=
  if epochID > getWorkingEpochID s then setWorkStage s epochID WorkStage.slotLeaderSelectionInit
  else s

/-- Go `generateCommitment(publicKey, epochID, selfIndexInEpochLeader) ([]byte, error)`: the
returned pair and the state after the put of alpha. -/
def generateCommitment (env : LoopEnv) (s : SlotLeaderSelection) (epochID : Nat)
    (selfIndexInEpochLeader : Nat) : Except String Bytes × SlotLeaderSelection :=
  if !s.key.present then (.error "Invalid input parameters", s)
  else if !s.key.onCurve then (.error "ErrNotOnCurve", s)
  else
    match env.randFieldElement with
    | .error err => (.error err, s)
    | .ok alpha =>
      match env.generateCommitment alpha with
      | .error err => (.error err, s)
      | .ok commitment =>
        let s1 := { s with alphaDb := s.alphaDb ++ [(epochID, selfIndexInEpochLeader, alpha)] }
        match env.rlpPackStage1 epochID selfIndexInEpochLeader commitment with
        | (_, some err) => (.error err, s1)
        | (buffer, none) => (.ok buffer, s1)

/-- Modelled from the spec: `sendStage1Tx(data) error`, which is outside the embedded files;
it submits the payload, and the transaction is recorded when the sender reports no error. -/
def sendStage1Tx (env : LoopEnv) (s : SlotLeaderSelection) (data : Bytes) :
    GoError × SlotLeaderSelection :=
  match env.sendStage1Tx data with
  | some err => (some err, s)
  | none => (none, { s with stage1Sent := s.stage1Sent ++ [data] })

/-- Modelled from the spec: `sendStage2Tx(data) error`, which is outside the embedded files;
it submits the payload, and the transaction is recorded when the sender reports no error. -/
def sendStage2Tx (env : LoopEnv) (s : SlotLeaderSelection) (data : Bytes) :
    GoError × SlotLeaderSelection :=
  match env.sendStage2Tx data with
  | some err => (some err, s)
  | none => (none, { s with stage2Sent := s.stage2Sent ++ [data] })

/-- The loop of `startStage1Work` over the leader indices of the local key. -/
def stage1Loop (env : LoopEnv) (workingEpochID : Nat) :
    List Nat → SlotLeaderSelection → GoError × SlotLeaderSelection
  | [], s => (none, s)
  | idx :: rest, s =>
    match generateCommitment env s workingEpochID idx with
    | (.error err, s1) => (some err, s1)
    | (.ok data, s1) =>
      match sendStage1Tx env s1 data with
      | (some err, s2) => (some err, s2)
      | (none, s2) => stage1Loop env workingEpochID rest s2

/-- Go `startStage1Work() error`. -/
def startStage1Work (env : LoopEnv) (s : SlotLeaderSelection) : GoError × SlotLeaderSelection :=
  match goMapGet s.epochLeadersMap s.key.hex with
  | some selfPublicKeyIndex => stage1Loop env (getWorkingEpochID s) selfPublicKeyIndex s
  | none => (none, s)

/-- The loop of `startStage2Work` over the leader indices of the local key. -/
def stage2Loop (env : LoopEnv) :
    List Nat → SlotLeaderSelection → GoError × SlotLeaderSelection
  | [], s => (none, s)
  | idx :: rest, s =>
    match env.buildStage2TxPayload (getWorkingEpochID s) idx with
    | .error err => (some err, s)
    | .ok data =>
      match sendStage2Tx env s data with
      | (some err, s1) => (some err, s1)
      | (none, s1) => stage2Loop env rest s1

/-- Go `startStage2Work() error`. -/
def startStage2Work (env : LoopEnv) (s : SlotLeaderSelection) : GoError × SlotLeaderSelection :=
  match goMapGet s.epochLeadersMap s.key.hex with
  | some selfPublicKeyIndex => stage2Loop env selfPublicKeyIndex s
  | none => (none, s)

/-- Modelled from the spec: `ErrorCountAdd()`, which is outside the embedded files; it
increments the shared error counter. -/
def ErrorCountAdd (s : SlotLeaderSelection) : SlotLeaderSelection :=
  { s with errorCount := s.errorCount + 1 }

/-- Modelled from the spec: `WarnCountAdd()`, which is outside the embedded files; it
increments the shared warning counter. -/
def WarnCountAdd (s : SlotLeaderSelection) : SlotLeaderSelection :=
  { s with warnCount := s.warnCount + 1 }

/-- Go `Loop(rc, key, epochInstance, epochID, slotID)`: the state after the call, or the
message of the `panic` of the init stage. -/
def Loop (cfg : StageConfig) (env : LoopEnv) (s0 : SlotLeaderSelection) (key : LocalKey)
    (epochID slotID : Nat) : Except String SlotLeaderSelection :=
  let s := checkNewEpochStart { s0 with key := key } epochID
  match getWorkStage s epochID with
  | .slotLeaderSelectionInit =>
    let s1 := setWorkingEpochID (buildEpochLeaderGroup env (clearData s) epochID) epochID
    match env.generateSlotLeadsGroup epochID with
    | some _ => .error "generateSlotLeadsGroup error"
    | none => .ok (setWorkStage s1 epochID .slotLeaderSelectionStage1)
  | .slotLeaderSelectionStage1 =>
    if slotID > cfg.Stage1K / 2 then
      .ok (setWorkStage s epochID .slotLeaderSelectionStageFinished)
    else
      let s1 :=
        if !isLocalPkInCurrentEpochLeaders s then
          setWorkStage s epochID .slotLeaderSelectionStageFinished
        else s
      match startStage1Work env s1 with
      | (some _, s2) => .ok (ErrorCountAdd s2)
      | (none, s2) => .ok (setWorkStage s2 epochID .slotLeaderSelectionStage2)
  | .slotLeaderSelectionStage2 =>
    if slotID < u64Add cfg.Stage2K 1 then .ok s
    else if slotID > cfg.Stage4K then
      .ok (setWorkStage s epochID .slotLeaderSelectionStageFinished)
    else
      match startStage2Work env s with
      | (some _, s1) => .ok (ErrorCountAdd s1)
      | (none, s1) => .ok (setWorkStage s1 epochID .slotLeaderSelectionStage3)
  | .slotLeaderSelectionStage3 =>
    if slotID < cfg.Stage5K then .ok s
    else
      match env.generateSecurityMsg epochID with
      | some _ =>
        let s1 := WarnCountAdd s
        if s1.errorRetry > 0 then .ok { s1 with errorRetry := s1.errorRetry - 1 }
        else .ok { setWorkStage s1 epochID .slotLeaderSelectionStageFinished with errorRetry := 3 }
      | none =>
        let s1 := { s with securityMsgs := s.securityMsgs ++ [epochID] }
        .ok { setWorkStage s1 epochID .slotLeaderSelectionStageFinished with errorRetry := 3 }
  | .slotLeaderSelectionStageFinished => .ok s

/-! ## Example inputs -/

/-- A snapshot with two no-delegation stakers of weights 20 and 10 (the marker fee rate is
10000 in `exampleVm`). -/
def exampleVm : VmParams := { PSNodeleFeeRate := 10000, MinValidatorStake := 50000 }

/-- A staker without partners and clients that never expires. -/
def soloStaker (addr : Nat) (weight : Int) : StakerInfo :=
  { Address := addr, PubSec256 := [addr], PubBn256 := [addr], Amount := weight,
    StakeAmount := weight, LockEpochs := 0, StakingEpoch := 0, FeeRate := 10000,
    Clients := [], Partners := [] }

/-- Two stakers of weights 20 and 10, in storage order. -/
def exampleDb : StateDB := { stakerRecords := [some (soloStaker 1 20), some (soloStaker 2 10)] }

/-- A staker of own weight 10 with a counted partner of weight 5, a lapsed partner of weight
1000, and clients of weights 100 (active), 7 (active) and 50 (quit). -/
def cappedStaker : StakerInfo :=
  { Address := 1, PubSec256 := [1], PubBn256 := [1], Amount := 60000, StakeAmount := 10,
    LockEpochs := 0, StakingEpoch := 0, FeeRate := 100,
    Clients := [⟨11, 100, 100, 0⟩, ⟨12, 7, 7, 9⟩, ⟨13, 50, 50, 6⟩],
    Partners := [⟨21, 5, 5, false, 10, 3⟩, ⟨22, 1000, 1000, false, 2, 3⟩] }

/-- The target of draw `i` as the specification words it: Keccak256 applied `i + 1` times to
the prefix byte followed by `r`, read as a big-endian integer, modulo the total weight. -/
def drawTarget (keccak256 : Bytes → Bytes) (pre : Nat) (r : Bytes) (total : Int) (i : Nat) : Int :=
  (bytesToNat (keccak256^[i + 1] (pre :: r)) : Int) % total

/-- The database entry of draw `i` as the specification words it: the proposer found by the
draw for `drawTarget`, stored under `(epochId, i)`. -/
def drawEntry (keccak256 : Bytes → Bytes) (pre : Nat) (r : Bytes) (ps : ProposerSorter)
    (epochId : Nat) (i : Nat) : Option (Nat × Nat × Proposer) :=
  (ps[drawIdx ps (drawTarget keccak256 pre r (totalProbabilityOf ps) i)]?).map
    (fun p => (epochId, i, p))

/-- The entries of draws `0 .. n-1` as the specification words them. -/
def drawSequence (keccak256 : Bytes → Bytes) (pre : Nat) (r : Bytes) (ps : ProposerSorter)
    (epochId : Nat) (n : Nat) : LeaderDb :=
  (List.range n).filterMap (drawEntry keccak256 pre r ps epochId)

/-- A stand-in for Keccak256 on example inputs: the byte sum followed by the input. -/
def toyHash (bs : Bytes) : Bytes := bs.sum % 256 :: bs.take 3

/-- A configuration with 3 epoch-leader draws and 2 random-beacon draws. -/
def exampleCfg : PosConfig :=
  { EpochLeaderCount := 3, RandomProperCount := 2, SlotCount := 2, SlotTime := 6,
    EpochBaseTime := 0 }

/-- A snapshot whose only staker has stake weight 0. -/
def zeroWeightDb : StateDB := { stakerRecords := [some (soloStaker 1 0)] }

/-- A snapshot without staker records. -/
def emptyDb : StateDB := { stakerRecords := [] }

/-- An epocher whose two databases are empty. -/
def emptyEpocher : Epocher := { rbLeadersDb := [], epochLeadersDb := [] }

/-- A block of the given hash, parent hash and number (time and difficulty 0). -/
def blockAt (hash parent number : Nat) : Block :=
  { Hash := hash, ParentHash := parent, Number := number, Time := 0, Difficulty := 0 }

/-- The buffer after pushing blocks of heights 1, 2, 3 (hashes 101, 102, 103) and a second
block of height 3 (hash 203). -/
def exampleBuffer : ForkMemBlockChain :=
  PushState (PushState (PushState (PushState (NewForkMemBlockChain 0)
    (blockAt 101 100 1)) (blockAt 102 101 2)) (blockAt 103 102 3)) (blockAt 203 102 3)

/-- A configuration with epoch base time 1000, slots of 6 seconds and 2 slots per epoch. -/
def timedCfg : PosConfig :=
  { EpochLeaderCount := 3, RandomProperCount := 2, SlotCount := 2, SlotTime := 6,
    EpochBaseTime := 1000 }

/-- A header stamped at the epoch base time (computed epoch 0, slot 0) whose difficulty
declares epoch 0 and slot 5. -/
def wrongSlotHeader : Block :=
  { Hash := 301, ParentHash := 300, Number := 3, Time := 1000, Difficulty := 5 * 256 }

/-- The provisional tip of `Maxvalid`, for a working tip below the frontier: the value of
`midSidBlk` when the parent walk starts (`none` for `nil`). -/
def provisionalTip (cfg : PosConfig) (f : ForkMemBlockChain) : Except Fault (Option Block) :=
  match bucketAt f f.curMaxBlkNum with
  | [] => .error Fault.indexOutOfRange
  | h0 :: rest =>
    if (h0 :: rest).length > 1 then
      match tieBreakLoop cfg f (h0 :: rest) (two64 - 1, goMapGet f.kBufferedBlks h0) with
      | .error e => .error e
      | .ok (_, midSidBlk) => .ok midSidBlk
    else .ok (goMapGet f.kBufferedBlks h0)

/-- The rest of `Maxvalid` once the provisional tip is chosen: the parent walk down to the
height of the working tip, the lockstep walk, and the sort. -/
def segmentFrom (fuel : Nat) (f : ForkMemBlockChain) (work : Block) (midSidBlk : Option Block) :
    Except Fault (List Block × GoError) :=
  match reduceLoop f (toInt64 work.NumberU64) fuel midSidBlk [] with
  | .error e => .error e
  | .ok (none, chain) => .ok (sortBlocks chain, none)
  | .ok (some mid, chain) =>
    if mid.Hash ≠ work.Hash then
      match commonLoop f fuel mid work chain with
      | .error e => .error e
      | .ok (.error err) => .ok ([], some err)
      | .ok (.ok chain1) => .ok (sortBlocks chain1, none)
    else .ok (sortBlocks chain, none)

/-- The slot id declared by a header: bits 8-31 of the 64-bit difficulty. -/
def declaredSlotId (b : Block) : Nat := b.Difficulty % two64 % 4294967296 / 256

/-- A block passes the epoch check when `GetBlockEpochIdAndSlotId` returns no error. -/
def passesEpochCheck (cfg : PosConfig) (b : Block) : Prop :=
  ∃ res, GetBlockEpochIdAndSlotId cfg b = .ok (.ok res)

/-- A buffer with four candidates of height 3, all stamped in epoch 1 of `timedCfg`:
103 declares epoch 0 (it fails the check), 303 declares epoch 1 slot 9, 403 and 503 declare
epoch 1 slot 4. -/
def tieBuffer : ForkMemBlockChain :=
  PushState (PushState (PushState
    (PushState (NewForkMemBlockChain 0) { blockAt 103 102 3 with Time := 1012, Difficulty := 0 })
    { blockAt 303 102 3 with Time := 1012, Difficulty := 4294967296 + 9 * 256 })
    { blockAt 403 102 3 with Time := 1012, Difficulty := 4294967296 + 4 * 256 })
    { blockAt 503 102 3 with Time := 1012, Difficulty := 4294967296 + 4 * 256 + 1 }

/-- The buffer after pushing only a block of height 5 (hash 105) whose parent 104 is not
buffered. -/
def orphanBuffer : ForkMemBlockChain := PushState (NewForkMemBlockChain 0) (blockAt 105 104 5)

/-- The `k`-th ancestor of a block inside the buffer: the block itself for `k = 0`, and the
`k`-th ancestor of the block stored under its parent hash for `k + 1`. -/
def ancestorAt (f : ForkMemBlockChain) : Block → Nat → Option Block
  | b, 0 => some b
  | b, k + 1 =>
    match goMapGet f.kBufferedBlks b.ParentHash with
    | some p => ancestorAt f p k
    | none => none

/-- The buffer after pushing the chain 101, 102, 103, 104 of heights 1 to 4. -/
def chainBuffer : ForkMemBlockChain :=
  PushState (PushState (PushState (PushState (NewForkMemBlockChain 0)
    (blockAt 101 100 1)) (blockAt 102 101 2)) (blockAt 103 102 3)) (blockAt 104 103 4)

/-- The two mutating calls on the buffer. -/
inductive BufferOp where
  | push (b : Block)
  | popBack
  deriving DecidableEq, Repr

/-- One call on the buffer. -/
def applyOp (cfg : PosConfig) (f : ForkMemBlockChain) : BufferOp → ForkMemBlockChain
  | .push b => PushState f b
  | .popBack => PopBack cfg f

/-- A sequence of calls, the first of the list first. -/
def runOps (cfg : PosConfig) (ops : List BufferOp) (f : ForkMemBlockChain) : ForkMemBlockChain :=
  ops.foldl (applyOp cfg) f

/-- The blocks pushed by a sequence of calls. -/
def pushedBlocks : List BufferOp → List Block
  | [] => []
  | .push b :: rest => b :: pushedBlocks rest
  | .popBack :: rest => pushedBlocks rest

/-- The invariant of the height index, with the facts that keep it inductive: every hash of a bucket is a
key of the block map, and the block stored under it has the height of the bucket, has that
hash, and satisfies `P`. -/
def IndexResolves (P : Block → Prop) (f : ForkMemBlockChain) : Prop :=
  ∀ key hs h, goMapGet f.kBufferedChains key = some hs → h ∈ hs →
    ∃ b, goMapGet f.kBufferedBlks h = some b ∧ b.Number = key ∧ b.Hash = h ∧ P b

/-- The calls that build `exampleBuffer`, followed by `PopBack` and a push of height 4. -/
def exampleOps : List BufferOp :=
  [.push (blockAt 101 100 1), .push (blockAt 102 101 2), .push (blockAt 103 102 3),
    .push (blockAt 203 102 3), .popBack, .push (blockAt 104 103 4)]

/-- The heights that have a bucket in the height index. -/
def bufferedHeights (f : ForkMemBlockChain) : List Nat := f.kBufferedChains.map Prod.fst

/-- `Push(b)` followed by `PopBack()`. -/
def pushPop (cfg : PosConfig) (f : ForkMemBlockChain) (b : Block) : ForkMemBlockChain :=
  PopBack cfg (PushState f b)

/-- A push of contiguous input: the first block of a new buffer, or a block of the exact
next height `maxHeight + 1`, or a block of a height that is already buffered (a sibling). -/
def contiguousPush (f : ForkMemBlockChain) (b : Block) : Prop :=
  (f.kBufferedChains = [] ∧ f.curMaxBlkNum = 0) ∨ (b.Number : Int) = f.curMaxBlkNum + 1 ∨
    b.Number ∈ bufferedHeights f

/-- Whether a push is contiguous input can be computed. -/
instance contiguousPushDecidable (f : ForkMemBlockChain) (b : Block) :
    Decidable (contiguousPush f b) := by
  unfold contiguousPush
  infer_instance

/-- A sequence of blocks, each pushed and followed by `PopBack`, is contiguous input from
the buffer `f` on, with all heights below `2^63`. -/
def contiguousFrom (cfg : PosConfig) : List Block → ForkMemBlockChain → Prop
  | [], _ => True
  | b :: rest, f =>
    b.Number < two63 ∧ contiguousPush f b ∧ contiguousFrom cfg rest (pushPop cfg f b)

/-- The buffer after pushing each block of the list, each push followed by `PopBack`. -/
def runPushPop (cfg : PosConfig) (bs : List Block) (f : ForkMemBlockChain) : ForkMemBlockChain :=
  bs.foldl (pushPop cfg) f

/-- The window invariant: the buffered heights are the `n ≤ K` consecutive heights
`lo, ..., lo + n - 1`, the last of which is `maxHeight`. -/
def WindowInv (K : Nat) (f : ForkMemBlockChain) : Prop :=
  ∃ lo n M : Nat, f.curMaxBlkNum = (M : Int) ∧ M < two63 ∧
    (bufferedHeights f).Perm (List.range' lo n) ∧ n ≤ K ∧ (n ≠ 0 → lo + n = M + 1)

/-- A stand-in for Keccak256 of the JSON encoding on example records: a number that is
different for records that differ in the epoch, the previous block or the leader lists. -/
def toyRecordHash (g : EpochGenesis) : BlockHash :=
  1000 * g.EpochId + 100 * g.PreEpochLastBlkHash +
    (match g.RBLeaders with
      | none => 0
      | some l => 1 + (l.map bytesToNat).sum) +
    10 * (match g.SlotLeaders with
      | none => 0
      | some l => 1 + (l.map bytesToNat).sum)

/-- Selectors with one random-beacon proposer (key `[4]`) and one slot leader (key `[9]`). -/
def toySelectors : Selectors :=
  { GetRBProposerGroup := fun _ => [⟨[4], [5]⟩], GetEpochLeadersPK := fun _ => some [[9]] }

/-- A buffer with genesis binding enabled. -/
def bindingBuffer : ForkMemBlockChain :=
  { NewForkMemBlockChain 0 with useEpochGenesis := true }

/-- The first block of an epoch, of height 7, whose parent hash is the genesis hash that
`GetEpochGenesis` fills in for epoch 0 and the previous block 306. -/
def boundBlock : Block :=
  { Hash := 307,
    ParentHash := (GetEpochGenesis toyRecordHash toySelectors 0 (blockAt 306 305 6)).GenesisBlkHash,
    Number := 7, Time := 0, Difficulty := 0 }

/-- A sequence of `Loop` calls with the same key, each with its collaborators, epoch id and
slot id; a panic ends the run. -/
def runLoop (cfg : StageConfig) (key : LocalKey) :
    List (LoopEnv × Nat × Nat) → SlotLeaderSelection → Except String SlotLeaderSelection
  | [], s => .ok s
  | (env, epochID, slotID) :: rest, s =>
    match Loop cfg env s key epochID slotID with
    | .error msg => .error msg
    | .ok s1 => runLoop cfg key rest s1

/-- Stage windows 10, 20, 30, 40. -/
def exampleStages : StageConfig := { Stage1K := 10, Stage2K := 20, Stage4K := 30, Stage5K := 40 }

/-- Collaborators that all fail. -/
def failingEnv : LoopEnv :=
  { leaderGroup := fun _ => [], generateSlotLeadsGroup := fun _ => some "failed",
    randFieldElement := .error "failed", generateCommitment := fun _ => .error "failed",
    rlpPackStage1 := fun _ _ _ => ([], some "failed"), sendStage1Tx := fun _ => some "failed",
    buildStage2TxPayload := fun _ _ => .error "failed", sendStage2Tx := fun _ => some "failed",
    generateSecurityMsg := fun _ => some "failed" }

/-- A valid local key with hex string `[7]`. -/
def exampleKey : LocalKey := { present := true, onCurve := true, hex := [7] }

/-- A node in the given stage of epoch 5 whose epoch leaders are the keys `[1]` and `[2]`,
not the local key `[7]`, with the retry budget at 3. -/
def nodeInStage (stage : WorkStage) : SlotLeaderSelection :=
  { key := exampleKey, workingEpochID := 5, workStage := stage,
    epochLeadersMap := [([1], [0]), ([2], [1, 2])], caches := [], errorRetry := 3,
    errorCount := 0, warnCount := 0, alphaDb := [], stage1Sent := [], stage2Sent := [],
    securityMsgs := [] }

/-- Collaborators that all succeed: the leader group holds the local key `[7]` at the
indices 0 and 3, the random scalar is 11, the commitment of `alpha` is `[alpha]`, and the
stage-1 payload of `(epochID, index, commitment)` is `epochID :: index :: commitment`. -/
def workingEnv : LoopEnv :=
  { leaderGroup := fun _ => [([7], [0, 3])], generateSlotLeadsGroup := fun _ => none,
    randFieldElement := .ok 11, generateCommitment := fun alpha => .ok [alpha],
    rlpPackStage1 := fun epochID idx c => (epochID :: idx :: c, none),
    sendStage1Tx := fun _ => none,
    buildStage2TxPayload := fun epochID idx => .ok [epochID, idx],
    sendStage2Tx := fun _ => none, generateSecurityMsg := fun _ => none }

/-- A node in the given stage of epoch 5 on which the local key `[7]` is an epoch leader
at the indices 0 and 3. -/
def leaderInStage (stage : WorkStage) : SlotLeaderSelection :=
  { nodeInStage stage with epochLeadersMap := [([7], [0, 3])], caches := [[1, 2]] }

/-- Commitment generation and submission succeed for one leader index of the local key: the
key is valid and on the curve, the random scalar, the commitment and the packing are
produced without error, and the sender accepts the payload. -/
def stage1Succeeds (env : LoopEnv) (key : LocalKey) (epochID idx : Nat) : Prop :=
  key.present = true ∧ key.onCurve = true ∧
    ∃ alpha commitment buffer, env.randFieldElement = .ok alpha ∧
      env.generateCommitment alpha = .ok commitment ∧
      env.rlpPackStage1 epochID idx commitment = (buffer, none) ∧
      env.sendStage1Tx buffer = none

/-- The stage-2 payload of one leader index is built and accepted by the sender. -/
def stage2Succeeds (env : LoopEnv) (epochID idx : Nat) : Prop :=
  ∃ data, env.buildStage2TxPayload epochID idx = .ok data ∧ env.sendStage2Tx data = none

/-- What the stage-1 work leaves untouched: everything but the alpha database and the
record of stage-1 transactions. -/
def stage1Frame (s t : SlotLeaderSelection) : Prop :=
  t.key = s.key ∧ t.workingEpochID = s.workingEpochID ∧ t.workStage = s.workStage ∧
    t.epochLeadersMap = s.epochLeadersMap ∧ t.caches = s.caches ∧
    t.errorRetry = s.errorRetry ∧ t.errorCount = s.errorCount ∧ t.warnCount = s.warnCount ∧
    t.stage2Sent = s.stage2Sent ∧ t.securityMsgs = s.securityMsgs

/-- What the stage-2 work leaves untouched: everything but the record of stage-2
transactions. -/
def stage2Frame (s t : SlotLeaderSelection) : Prop :=
  t.key = s.key ∧ t.workingEpochID = s.workingEpochID ∧ t.workStage = s.workStage ∧
    t.epochLeadersMap = s.epochLeadersMap ∧ t.caches = s.caches ∧
    t.errorRetry = s.errorRetry ∧ t.errorCount = s.errorCount ∧ t.warnCount = s.warnCount ∧
    t.alphaDb = s.alphaDb ∧ t.stage1Sent = s.stage1Sent ∧ t.securityMsgs = s.securityMsgs

/-- A partner of amount 7 and stake weight 9 with the given staking epoch and lock epochs. -/
def partnerLocked (stakingEpoch lockEpochs : Nat) : PartnerInfo :=
  { Address := 21, Amount := 7, StakeAmount := 9, Renewal := false, LockEpochs := lockEpochs,
    StakingEpoch := stakingEpoch }

/-- A no-delegation staker of amount 20 and stake weight 20 with one partner. -/
def stakerWithPartner (p : PartnerInfo) : StakerInfo :=
  { soloStaker 1 20 with Partners := [p] }

/-- A node at start-up: no epoch worked on yet, the work stage Init, the retry budget 3. -/
def freshNode : SlotLeaderSelection :=
  { key := exampleKey, workingEpochID := 0, workStage := WorkStage.slotLeaderSelectionInit,
    epochLeadersMap := [], caches := [], errorRetry := 3, errorCount := 0, warnCount := 0,
    alphaDb := [], stage1Sent := [], stage2Sent := [], securityMsgs := [] }

/-- The calls of epoch 5 up to a failed security message at slot 40, followed by the first
call of epoch 6. -/
def interruptedEpoch : List (LoopEnv × Nat × Nat) :=
  [(workingEnv, 5, 0), (workingEnv, 5, 1), (workingEnv, 5, 25), (failingEnv, 5, 40),
    (workingEnv, 6, 0)]

/-- The cumulative weight before index `i`: the sum of the first `i` individual weights. -/
def cumulativeBefore (l : ProposerSorter) (i : Nat) : Int :=
  ((l.map Proposer.Probabilities).take i).sum

/-- The targets of `[0, T)` for which the draw on the prefix-summed table selects entry `i`,
`T` being the total weight of the table. -/
def targetsSelecting (l : ProposerSorter) (i : Nat) : Finset Int :=
  (Finset.Ico (0 : Int) (totalProbabilityOf (prefixSum l))).filter
    (fun t => drawIdx (prefixSum l) t = i)

/-- The invariant of the frontier: `maxHeight` is a signed 64-bit value and, when it is
positive, the height index has a non-empty bucket at it. -/
def FrontierHeld (f : ForkMemBlockChain) : Prop :=
  -(two63 : Int) ≤ f.curMaxBlkNum ∧ f.curMaxBlkNum < (two63 : Int) ∧
    (0 < f.curMaxBlkNum →
      ∃ hs, goMapGet f.kBufferedChains f.curMaxBlkNum.toNat = some hs ∧ hs ≠ [])

/-- A working tip of number `2^63`, the first number whose `int64` conversion is negative. -/
def tallTip : Block := blockAt 900 899 9223372036854775808

/-! ## End of the definitions -/

/-! ## Lemmas on `sort.Search` -/

/-- With a monotone predicate the loop returns the boundary between `false` and `true`. -/
theorem searchLoop_least (f : Nat → Bool) (n : Nat)
    (hmono : ∀ a b, a ≤ b → b < n → f a = true → f b = true) :
    ∀ (fuel i j : Nat), i ≤ j → j ≤ n → j - i ≤ fuel →
      (∀ k, k < i → f k = false) → (∀ k, j ≤ k → k < n → f k = true) →
      (∀ k, k < searchLoop f fuel i j → f k = false) ∧
        (∀ k, searchLoop f fuel i j ≤ k → k < n → f k = true) ∧
        searchLoop f fuel i j ≤ n := by
  intro fuel
  induction fuel with
  | zero =>
    intro i j hij hjn hfuel hlo hhi
    have hi : i = j := by omega
    subst hi
    simp only [searchLoop]
    exact ⟨hlo, hhi, hjn⟩
  | succ fuel ih =>
    intro i j hij hjn hfuel hlo hhi
    unfold searchLoop
    by_cases hlt : i < j
    · have hh1 : i ≤ (i + j) / 2 := by omega
      have hh2 : (i + j) / 2 < j := by omega
      rw [if_pos hlt]
      cases hf : f ((i + j) / 2) with
      | false =>
        simp only [Bool.not_false, if_true]
        apply ih ((i + j) / 2 + 1) j (by omega) hjn (by omega) _ hhi
        intro k hk
        cases hfk : f k with
        | false => rfl
        | true =>
          have := hmono k ((i + j) / 2) (by omega) (by omega) hfk
          rw [hf] at this
          exact absurd this (by simp)
      | true =>
        simp only [Bool.not_true, Bool.false_eq_true, if_false]
        apply ih i ((i + j) / 2) hh1 (by omega) (by omega) hlo
        intro k hk hkn
        exact hmono ((i + j) / 2) k hk hkn hf
    · rw [if_neg hlt]
      have hi : i = j := by omega
      subst hi
      exact ⟨hlo, hhi, hjn⟩

/-- Without any monotonicity: if the predicate holds at `n - 1`, the loop returns an
index below `n` at which the predicate holds. -/
theorem searchLoop_hit (f : Nat → Bool) (n : Nat) (hn : 0 < n) (hlast : f (n - 1) = true) :
    ∀ (fuel i j : Nat), i ≤ j → j ≤ n → j - i ≤ fuel → i < n →
      (j < n → f j = true) →
      searchLoop f fuel i j < n ∧ f (searchLoop f fuel i j) = true := by
  intro fuel
  induction fuel with
  | zero =>
    intro i j hij hjn hfuel hin hj
    have hi : i = j := by omega
    subst hi
    simp only [searchLoop]
    exact ⟨hin, hj hin⟩
  | succ fuel ih =>
    intro i j hij hjn hfuel hin hj
    unfold searchLoop
    by_cases hlt : i < j
    · have hh1 : i ≤ (i + j) / 2 := by omega
      have hh2 : (i + j) / 2 < j := by omega
      rw [if_pos hlt]
      cases hf : f ((i + j) / 2) with
      | false =>
        simp only [Bool.not_false, if_true]
        have hne : (i + j) / 2 ≠ n - 1 := by
          intro he
          rw [he, hlast] at hf
          exact absurd hf (by simp)
        exact ih ((i + j) / 2 + 1) j (by omega) hjn (by omega) (by omega) hj
      | true =>
        simp only [Bool.not_true, Bool.false_eq_true, if_false]
        exact ih i ((i + j) / 2) hh1 (by omega) (by omega) hin (fun _ => hf)
    · rw [if_neg hlt]
      have hi : i = j := by omega
      subst hi
      exact ⟨hin, hj hin⟩

/-! ## The draw (C1) -/

/-- In a table with non-decreasing cumulative weights the search predicate is monotone. -/
theorem exceeds_mono (ps : ProposerSorter) (t : Int)
    (hs : List.Sorted (fun a b : Int => a ≤ b) (ps.map Proposer.Probabilities)) :
    ∀ a b, a ≤ b → b < ps.length → exceeds ps t a = true → exceeds ps t b = true := by
  intro a b hab hb ha
  have halt : a < ps.length := by omega
  unfold exceeds at ha ⊢
  rw [List.getElem?_eq_getElem halt] at ha
  rw [List.getElem?_eq_getElem hb]
  simp only [decide_eq_true_eq] at ha ⊢
  rcases Nat.lt_or_ge a b with hlt | hge
  · have hp := List.pairwise_iff_getElem.mp hs a b (by simpa using halt) (by simpa using hb) hlt
    simp only [List.getElem_map] at hp
    omega
  · have : a = b := by omega
    subst this
    exact ha

/-- The last entry of a non-empty table is the total weight. -/
theorem totalProbabilityOf_eq (ps : ProposerSorter) (hne : ps ≠ []) :
    ∃ p, ps[ps.length - 1]? = some p ∧ totalProbabilityOf ps = p.Probabilities := by
  have hlen : 0 < ps.length := List.length_pos.mpr hne
  have h1 : ps.length - 1 < ps.length := by omega
  refine ⟨ps[ps.length - 1], List.getElem?_eq_getElem h1, ?_⟩
  unfold totalProbabilityOf
  rw [List.getLast?_eq_getElem?, List.getElem?_eq_getElem h1]

/-- A target below the total weight is exceeded by the last entry. -/
theorem exceeds_last (ps : ProposerSorter) (t : Int) (hne : ps ≠ [])
    (ht : t < totalProbabilityOf ps) : exceeds ps t (ps.length - 1) = true := by
  obtain ⟨p, hp, htot⟩ := totalProbabilityOf_eq ps hne
  unfold exceeds
  rw [hp]
  simp only [decide_eq_true_eq]
  omega

/-- Whatever the order of the table, a target below the total weight makes the draw return an
index inside the table whose cumulative weight exceeds the target. -/
theorem drawIdx_hit (ps : ProposerSorter) (t : Int) (hne : ps ≠ [])
    (ht : t < totalProbabilityOf ps) :
    ∃ p, ps[drawIdx ps t]? = some p ∧ t < p.Probabilities := by
  have hlen : 0 < ps.length := List.length_pos.mpr hne
  have h := searchLoop_hit (exceeds ps t) ps.length hlen (exceeds_last ps t hne ht)
    ps.length 0 ps.length (Nat.zero_le _) (Nat.le_refl _) (by omega) hlen
    (fun h => absurd h (Nat.lt_irrefl _))
  have hlt : drawIdx ps t < ps.length := h.1
  have hex : exceeds ps t (drawIdx ps t) = true := h.2
  refine ⟨ps[drawIdx ps t], List.getElem?_eq_getElem hlt, ?_⟩
  unfold exceeds at hex
  rw [List.getElem?_eq_getElem hlt] at hex
  simpa using hex

/-- In a table with non-decreasing cumulative weights no entry before the drawn index
exceeds the target. -/
theorem drawIdx_least (ps : ProposerSorter) (t : Int)
    (hs : List.Sorted (fun a b : Int => a ≤ b) (ps.map Proposer.Probabilities)) :
    ∀ j q, j < drawIdx ps t → ps[j]? = some q → q.Probabilities ≤ t := by
  intro j q hj hq
  have h := searchLoop_least (exceeds ps t) ps.length (exceeds_mono ps t hs)
    ps.length 0 ps.length (Nat.zero_le _) (Nat.le_refl _) (by omega)
    (fun k hk => absurd hk (Nat.not_lt_zero k))
    (fun k hk hkn => absurd hkn (by omega))
  have hf := h.1 j hj
  unfold exceeds at hf
  rw [hq] at hf
  simpa using hf

/-- The draw on the example table, for every target. -/
theorem drawIdx_tableABC (t : Int) :
    drawIdx tableABC t = if t < 10 then 0 else if t < 30 then 1 else if t < 100 then 2 else 3 := by
  unfold drawIdx sortSearch tableABC
  simp only [List.length_cons, List.length_nil, searchLoop, exceeds]
  by_cases h1 : t < 30
  · by_cases h2 : t < 10
    · simp [h1, h2]
    · simp [h1, h2]
  · have h2 : ¬ t < 10 := by omega
    by_cases h3 : t < 100
    · simp [h1, h2, h3]
    · simp [h1, h2, h3]

/-- C1: for a non-empty table with non-decreasing cumulative weights and positive total `T`,
and a target `0 ≤ t < T`, the draw returns an index inside the table whose cumulative weight
is strictly greater than `t`, and every earlier entry has cumulative weight at most `t`.
On the table A=10, B=30, C=100 every target in `[30,100)` selects C, every target in
`[10,30)` selects B and every target in `[0,10)` selects A. -/
theorem draw_selects_least_exceeding :
    (∀ (ps : ProposerSorter) (t : Int), ps ≠ [] →
      List.Sorted (fun a b : Int => a ≤ b) (ps.map Proposer.Probabilities) →
      0 < totalProbabilityOf ps → 0 ≤ t → t < totalProbabilityOf ps →
      ∃ p, ps[drawIdx ps t]? = some p ∧ t < p.Probabilities ∧
        ∀ j q, j < drawIdx ps t → ps[j]? = some q → q.Probabilities ≤ t) ∧
    (∀ t : Int, 30 ≤ t → t < 100 → tableABC[drawIdx tableABC t]? = some ⟨[67], [], 100⟩) ∧
    (∀ t : Int, 10 ≤ t → t < 30 → tableABC[drawIdx tableABC t]? = some ⟨[66], [], 30⟩) ∧
    (∀ t : Int, 0 ≤ t → t < 10 → tableABC[drawIdx tableABC t]? = some ⟨[65], [], 10⟩) := by
  refine ⟨?_, ?_, ?_, ?_⟩
  · intro ps t hne hs _ _ ht
    obtain ⟨p, hp, hlt⟩ := drawIdx_hit ps t hne ht
    exact ⟨p, hp, hlt, drawIdx_least ps t hs⟩
  · intro t h1 h2
    rw [drawIdx_tableABC]
    have a : ¬ t < 10 := by omega
    have b : ¬ t < 30 := by omega
    simp [a, b, h2, tableABC]
  · intro t h1 h2
    rw [drawIdx_tableABC]
    have a : ¬ t < 10 := by omega
    simp [a, h2, tableABC]
  · intro t _ h2
    rw [drawIdx_tableABC]
    simp [h2, tableABC]

/-- C1 at the example table with target 50: the hypotheses hold and C is drawn. -/
theorem draw_selects_least_exceeding_witness :
    ∃ p, tableABC[drawIdx tableABC 50]? = some p ∧ (50 : Int) < p.Probabilities ∧
      ∀ j q, j < drawIdx tableABC 50 → tableABC[j]? = some q → q.Probabilities ≤ 50 :=
  draw_selects_least_exceeding.1 tableABC 50 (by decide) (by decide) (by decide) (by decide)
    (by decide)

/-! ## The probability table (C2) -/

/-- The callback loop appends, in iteration order, one proposer for each record that decodes
and is not rejected. -/
theorem collectProposers_append (vmp : VmParams) (epochID : Nat) :
    ∀ (records : List (Option StakerInfo)) (ps : ProposerSorter),
      collectProposers vmp epochID records ps = ps ++ collectProposers vmp epochID records [] := by
  intro records
  induction records with
  | nil => intro ps; simp [collectProposers]
  | cons rec rest ih =>
    intro ps
    cases rec with
    | none => simp only [collectProposers]; exact ih ps
    | some staker =>
      simp only [collectProposers]
      cases hc : CalEpochProbabilityStaker vmp staker epochID with
      | error e => simp only []; exact ih ps
      | ok v =>
        obtain ⟨infors, p⟩ := v
        simp only []
        rw [ih (ps ++ _), ih ([] ++ _)]
        simp

/-- Inserting into an ordered list keeps, for each weight, the entries of that weight in
their order, the inserted one first. -/
theorem filter_orderedInsert_weight (w : Int) (a : Proposer) :
    ∀ l : ProposerSorter,
      (List.orderedInsert (fun x y : Proposer => x.Probabilities ≤ y.Probabilities) a l).filter
          (fun x => decide (x.Probabilities = w)) =
        (a :: l).filter (fun x => decide (x.Probabilities = w)) := by
  intro l
  induction l with
  | nil => simp [List.orderedInsert]
  | cons b l ih =>
    simp only [List.orderedInsert]
    by_cases hab : a.Probabilities ≤ b.Probabilities
    · rw [if_pos hab]
    · rw [if_neg hab]
      rw [List.filter_cons, ih]
      by_cases ha : a.Probabilities = w
      · have hb : ¬ b.Probabilities = w := by omega
        simp [List.filter_cons, ha, hb]
      · by_cases hb : b.Probabilities = w
        · simp [List.filter_cons, ha, hb]
        · simp [List.filter_cons, ha, hb]

/-- The sort is stable: entries of equal weight keep their relative order. -/
theorem sortStable_stable (w : Int) :
    ∀ ps : ProposerSorter,
      (sortStable ps).filter (fun x => decide (x.Probabilities = w)) =
        ps.filter (fun x => decide (x.Probabilities = w)) := by
  intro ps
  induction ps with
  | nil => simp [sortStable]
  | cons a l ih =>
    unfold sortStable at ih ⊢
    rw [List.insertionSort, filter_orderedInsert_weight, List.filter_cons, List.filter_cons, ih]

/-- The sort returns a rearrangement of its input. -/
theorem sortStable_perm (ps : ProposerSorter) : (sortStable ps).Perm ps :=
  List.perm_insertionSort _ ps

/-- The sort returns the weights in ascending order. -/
theorem sortStable_sorted (ps : ProposerSorter) :
    List.Sorted (fun a b : Int => a ≤ b) ((sortStable ps).map Proposer.Probabilities) := by
  haveI : IsTotal Proposer (fun x y : Proposer => x.Probabilities ≤ y.Probabilities) :=
    ⟨fun a b => le_total a.Probabilities b.Probabilities⟩
  haveI : IsTrans Proposer (fun x y : Proposer => x.Probabilities ≤ y.Probabilities) :=
    ⟨fun a b c hab hbc => le_trans hab hbc⟩
  have h := List.sorted_insertionSort (fun x y : Proposer => x.Probabilities ≤ y.Probabilities) ps
  unfold List.Sorted at h ⊢
  rw [List.pairwise_map]
  exact h

/-- Entry `i` of the inner prefix-sum loop: the entry of the input with its weight replaced
by `prev` plus the sum of the first `i + 1` input weights. -/
theorem prefixSumFrom_getElem? :
    ∀ (l : ProposerSorter) (prev : Int) (i : Nat),
      (prefixSumFrom prev l)[i]? =
        (l[i]?).map (fun p =>
          { p with Probabilities := prev + ((l.take (i + 1)).map Proposer.Probabilities).sum }) := by
  intro l
  induction l with
  | nil => intro prev i; simp [prefixSumFrom]
  | cons p rest ih =>
    intro prev i
    cases i with
    | zero =>
      simp only [prefixSumFrom, List.getElem?_cons_zero, Option.map_some', List.take_succ_cons,
        List.take_zero, List.map_cons, List.map_nil, List.sum_cons, List.sum_nil]
      congr 2
      omega
    | succ i =>
      simp only [prefixSumFrom, List.getElem?_cons_succ, List.take_succ_cons, List.map_cons,
        List.sum_cons]
      rw [ih]
      congr 1
      funext q
      congr 1
      omega

/-- Entry `i` of the prefix-sum loop: the entry of the input with its weight replaced by the
sum of the first `i + 1` input weights. -/
theorem prefixSum_getElem? (l : ProposerSorter) (i : Nat) :
    (prefixSum l)[i]? =
      (l[i]?).map (fun p =>
        { p with Probabilities := ((l.take (i + 1)).map Proposer.Probabilities).sum }) := by
  cases l with
  | nil => simp [prefixSum]
  | cons p rest =>
    cases i with
    | zero => simp [prefixSum]
    | succ i =>
      simp only [prefixSum, List.getElem?_cons_succ, List.take_succ_cons, List.map_cons,
        List.sum_cons]
      rw [prefixSumFrom_getElem?]

/-- The prefix-sum loop keeps the length. -/
theorem prefixSum_length (l : ProposerSorter) : (prefixSum l).length = l.length := by
  have h : ∀ (l : ProposerSorter) (prev : Int), (prefixSumFrom prev l).length = l.length := by
    intro l
    induction l with
    | nil => intro prev; rfl
    | cons p rest ih => intro prev; simp [prefixSumFrom, ih]
  cases l with
  | nil => rfl
  | cons p rest => simp [prefixSum, h]

/-- With non-negative input weights the inner loop produces weights that are at least `prev`
and non-decreasing. -/
theorem prefixSumFrom_sorted :
    ∀ (l : ProposerSorter) (prev : Int), (∀ p ∈ l, 0 ≤ p.Probabilities) →
      (∀ q ∈ prefixSumFrom prev l, prev ≤ q.Probabilities) ∧
        List.Sorted (fun a b : Int => a ≤ b) ((prefixSumFrom prev l).map Proposer.Probabilities) := by
  intro l
  induction l with
  | nil => intro prev _; simp [prefixSumFrom]
  | cons p rest ih =>
    intro prev hnn
    have hp : 0 ≤ p.Probabilities := hnn p (List.mem_cons_self _ _)
    have hrest : ∀ q ∈ rest, 0 ≤ q.Probabilities := fun q hq => hnn q (List.mem_cons_of_mem _ hq)
    obtain ⟨hge, hsorted⟩ := ih (p.Probabilities + prev) hrest
    constructor
    · intro q hq
      simp only [prefixSumFrom, List.mem_cons] at hq
      rcases hq with rfl | hq
      · simp only []; omega
      · have := hge q hq
        omega
    · simp only [prefixSumFrom, List.map_cons, List.sorted_cons]
      refine ⟨?_, hsorted⟩
      intro b hb
      rw [List.mem_map] at hb
      obtain ⟨q, hq, rfl⟩ := hb
      exact hge q hq

/-- With non-negative input weights the prefix-sum loop produces non-decreasing weights. -/
theorem prefixSum_sorted (l : ProposerSorter) (hnn : ∀ p ∈ l, 0 ≤ p.Probabilities) :
    List.Sorted (fun a b : Int => a ≤ b) ((prefixSum l).map Proposer.Probabilities) := by
  cases l with
  | nil => simp [prefixSum]
  | cons p rest =>
    have hrest : ∀ q ∈ rest, 0 ≤ q.Probabilities := fun q hq => hnn q (List.mem_cons_of_mem _ hq)
    obtain ⟨hge, hsorted⟩ := prefixSumFrom_sorted rest p.Probabilities hrest
    simp only [prefixSum, List.map_cons, List.sorted_cons]
    refine ⟨?_, hsorted⟩
    intro b hb
    rw [List.mem_map] at hb
    obtain ⟨q, hq, rfl⟩ := hb
    exact hge q hq

/-- The last entry of the prefix-sum table is the sum of all input weights. -/
theorem prefixSum_total (l : ProposerSorter) :
    totalProbabilityOf (prefixSum l) = (l.map Proposer.Probabilities).sum := by
  unfold totalProbabilityOf
  rw [List.getLast?_eq_getElem?, prefixSum_getElem?, prefixSum_length]
  cases hl : l with
  | nil => simp
  | cons p rest =>
    have h1 : (p :: rest).length - 1 < (p :: rest).length := by simp
    rw [List.getElem?_eq_getElem h1]
    have h2 : (p :: rest).length - 1 + 1 = (p :: rest).length := by simp
    simp only [Option.map_some', h2, List.take_length]


/-- C2: for every snapshot whose surviving stakers have non-negative weights, the builder
returns a table (and no error) that holds at position `i` the staker at position `i` of the
stable ascending order of the survivors, with its weight replaced by the sum of the `i + 1`
smallest weights; the cumulative weights are non-decreasing and the last one is the sum of
all individual weights. -/
theorem table_holds_sorted_prefix_sums (vmp : VmParams) (db : StateDB) (epochID : Nat)
    (hnn : ∀ p ∈ collectProposers vmp epochID db.stakerRecords [], 0 ≤ p.Probabilities) :
    ∃ table, createStakerProbabilityArray vmp (some db) epochID = (some table, none) ∧
      (sortStable (collectProposers vmp epochID db.stakerRecords [])).Perm
        (collectProposers vmp epochID db.stakerRecords []) ∧
      List.Sorted (fun a b : Int => a ≤ b)
        ((sortStable (collectProposers vmp epochID db.stakerRecords [])).map
          Proposer.Probabilities) ∧
      (∀ w : Int,
        (sortStable (collectProposers vmp epochID db.stakerRecords [])).filter
            (fun x => decide (x.Probabilities = w)) =
          (collectProposers vmp epochID db.stakerRecords []).filter
            (fun x => decide (x.Probabilities = w))) ∧
      table.length = (collectProposers vmp epochID db.stakerRecords []).length ∧
      (∀ (i : Nat) (p : Proposer),
        (sortStable (collectProposers vmp epochID db.stakerRecords []))[i]? = some p →
        table[i]? = some { p with Probabilities :=
          (((sortStable (collectProposers vmp epochID db.stakerRecords [])).take (i + 1)).map
            Proposer.Probabilities).sum }) ∧
      List.Sorted (fun a b : Int => a ≤ b) (table.map Proposer.Probabilities) ∧
      totalProbabilityOf table =
        ((collectProposers vmp epochID db.stakerRecords []).map Proposer.Probabilities).sum := by
  refine ⟨prefixSum (sortStable (collectProposers vmp epochID db.stakerRecords [])), rfl,
    sortStable_perm _, sortStable_sorted _, fun w => sortStable_stable w _, ?_, ?_, ?_, ?_⟩
  · rw [prefixSum_length]
    exact (sortStable_perm _).length_eq
  · intro i p hp
    rw [prefixSum_getElem?, hp]
    rfl
  · apply prefixSum_sorted
    intro p hp
    exact hnn p ((sortStable_perm _).mem_iff.mp hp)
  · rw [prefixSum_total]
    exact ((sortStable_perm _).map Proposer.Probabilities).sum_eq

/-- C2 at the snapshot with weights 20 and 10: the hypothesis holds and the table is
10 (staker 2), 30 (staker 1). -/
theorem table_holds_sorted_prefix_sums_witness :
    (∀ p ∈ collectProposers exampleVm 5 exampleDb.stakerRecords [], 0 ≤ p.Probabilities) ∧
      createStakerProbabilityArray exampleVm (some exampleDb) 5 =
        (some [⟨[2], [2], 10⟩, ⟨[1], [1], 30⟩], none) ∧
      ∃ table, createStakerProbabilityArray exampleVm (some exampleDb) 5 = (some table, none) ∧
        totalProbabilityOf table =
          ((collectProposers exampleVm 5 exampleDb.stakerRecords []).map
            Proposer.Probabilities).sum :=
  ⟨by decide, by decide,
    (table_holds_sorted_prefix_sums exampleVm exampleDb 5 (by decide)).imp
      (fun _ h => ⟨h.1, h.2.2.2.2.2.2.2⟩)⟩

/-! ## `CalEpochProbabilityStaker` (C3, C4) -/

/-- A loop that adds `g p` for each element passing the test `c` computes the start value
plus the sum of `g` over the passing elements. -/
theorem foldl_cond_add {α : Type} (c : α → Bool) (g : α → Int) :
    ∀ (l : List α) (init : Int),
      l.foldl (fun acc p => if c p then acc + g p else acc) init =
        init + ((l.filter c).map g).sum := by
  intro l
  induction l with
  | nil => intro init; simp
  | cons a l ih =>
    intro init
    rw [List.foldl_cons, ih]
    cases hc : c a with
    | true => simp [List.filter_cons, hc]; omega
    | false => simp [List.filter_cons, hc]

/-- The client loop adds the stake weights of the counted clients to the running total. -/
theorem clientLoop_total (epochID : Nat) :
    ∀ (l : List ClientInfo) (infors : List ClientProbability) (total : Int),
      (clientLoop epochID l (infors, total)).2 =
        total + ((l.filter (clientCounted epochID)).map ClientInfo.StakeAmount).sum := by
  intro l
  induction l with
  | nil => intro infors total; simp [clientLoop]
  | cons c l ih =>
    intro infors total
    cases hc : clientCounted epochID c with
    | true => simp [clientLoop, hc, ih, List.filter_cons]; omega
    | false => simp [clientLoop, hc, ih, List.filter_cons]

/-- For a `uint64` quit epoch the client test of the code is the test
`quitEpoch == 0 || epochId < quitEpoch - 1` on integers. -/
theorem clientCounted_iff (epochID : Nat) (c : ClientInfo) (hq : c.QuitEpoch < two64) :
    clientCounted epochID c = true ↔
      (c.QuitEpoch = 0 ∨ (epochID : Int) < (c.QuitEpoch : Int) - 1) := by
  unfold clientCounted u64Pred
  unfold two64 at hq ⊢
  simp only [Bool.or_eq_true, beq_iff_eq, decide_eq_true_eq]
  constructor
  · rintro (h | h)
    · exact Or.inl h
    · by_cases h0 : c.QuitEpoch = 0
      · exact Or.inl h0
      · right; omega
  · rintro (h | h)
    · exact Or.inl h
    · right; omega

/-- C3: when `CalEpochProbabilityStaker` does not reject the staker, the total it returns is
`min (baseline + clients) (6 * baseline)`, where `baseline` is the staker's own stake weight
plus the stake weights of the partners that pass the lock test of the code, and `clients`
is the sum of the stake weights of the clients with `quitEpoch == 0` or
`epochId < quitEpoch - 1`; in particular the total never exceeds `6 * baseline`. -/
theorem staker_probability_capped (vmp : VmParams) (staker : StakerInfo) (epochID : Nat)
    (infors : List ClientProbability) (total : Int)
    (hq : ∀ c ∈ staker.Clients, c.QuitEpoch < two64)
    (h : CalEpochProbabilityStaker vmp staker epochID = .ok (infors, total)) :
    total =
        min
          (staker.StakeAmount +
              ((staker.Partners.filter (partnerCounted epochID)).map PartnerInfo.StakeAmount).sum +
            ((staker.Clients.filter
                (fun c => decide (c.QuitEpoch = 0 ∨ (epochID : Int) < (c.QuitEpoch : Int) - 1))).map
              ClientInfo.StakeAmount).sum)
          (6 * (staker.StakeAmount +
            ((staker.Partners.filter (partnerCounted epochID)).map PartnerInfo.StakeAmount).sum)) ∧
      total ≤ 6 * (staker.StakeAmount +
        ((staker.Partners.filter (partnerCounted epochID)).map PartnerInfo.StakeAmount).sum) := by
  have hfilter : staker.Clients.filter
      (fun c => decide (c.QuitEpoch = 0 ∨ (epochID : Int) < (c.QuitEpoch : Int) - 1)) =
      staker.Clients.filter (clientCounted epochID) := by
    apply List.filter_congr
    intro c hc
    have := clientCounted_iff epochID c (hq c hc)
    cases hcc : clientCounted epochID c with
    | true => simpa using this.mp hcc
    | false =>
      have hn : ¬ (c.QuitEpoch = 0 ∨ (epochID : Int) < (c.QuitEpoch : Int) - 1) := by
        intro hcon
        rw [this.mpr hcon] at hcc
        exact absurd hcc (by simp)
      simpa using hn
  have hbase : totalPartnerProbability staker epochID =
      staker.StakeAmount +
        ((staker.Partners.filter (partnerCounted epochID)).map PartnerInfo.StakeAmount).sum := by
    unfold totalPartnerProbability
    exact foldl_cond_add (partnerCounted epochID) PartnerInfo.StakeAmount _ _
  rw [hfilter, ← hbase]
  unfold CalEpochProbabilityStaker at h
  split at h
  · exact absurd h (by simp)
  · split at h
    · exact absurd h (by simp)
    · simp only [clientLoop_total] at h
      split at h
      · rename_i hgt
        injection h with h
        injection h with _ h
        subst h
        constructor
        · rw [min_eq_right]
          · ring
          · omega
        · omega
      · rename_i hle
        injection h with h
        injection h with _ h
        subst h
        constructor
        · rw [min_eq_left]
          omega
        · omega

/-- C3 at `cappedStaker`, epoch 5: baseline 15, active clients 107, so the total 122 is
capped to 90. -/
theorem staker_probability_capped_witness :
    (∀ c ∈ cappedStaker.Clients, c.QuitEpoch < two64) ∧
      CalEpochProbabilityStaker exampleVm cappedStaker 5 =
        .ok ([⟨1, 15⟩, ⟨11, 100⟩, ⟨12, 7⟩], 90) ∧
      (90 : Int) = min
          (cappedStaker.StakeAmount +
              ((cappedStaker.Partners.filter (partnerCounted 5)).map PartnerInfo.StakeAmount).sum +
            ((cappedStaker.Clients.filter
                (fun c => decide (c.QuitEpoch = 0 ∨ ((5 : Nat) : Int) < (c.QuitEpoch : Int) - 1))).map
              ClientInfo.StakeAmount).sum)
          (6 * (cappedStaker.StakeAmount +
            ((cappedStaker.Partners.filter (partnerCounted 5)).map PartnerInfo.StakeAmount).sum)) :=
  ⟨by decide, by rfl,
    (staker_probability_capped exampleVm cappedStaker 5 [⟨1, 15⟩, ⟨11, 100⟩, ⟨12, 7⟩] 90
      (by decide) (by rfl)).1⟩


/-- C4: `CalEpochProbabilityStaker` returns an error if and only if (a) the fee rate is not
`PSNodeleFeeRate` and the staker's amount plus the amounts of the counted partners is below
`MinValidatorStake`, or (b) `lockEpochs != 0` and `epochId >= stakingEpoch + lockEpochs - 1`
(in the unsigned 64-bit arithmetic of the code); in every other case it returns a probability
and no error. When `stakingEpoch + lockEpochs` does not overflow and `lockEpochs != 0`, the
bound of (b) is the integer `stakingEpoch + lockEpochs - 1`. -/
theorem staker_rejected_iff (vmp : VmParams) (staker : StakerInfo) (epochID : Nat) :
    ((∃ msg, CalEpochProbabilityStaker vmp staker epochID = .error msg) ↔
      ((staker.FeeRate ≠ vmp.PSNodeleFeeRate ∧
          staker.Amount +
              ((staker.Partners.filter (partnerCounted epochID)).map PartnerInfo.Amount).sum <
            vmp.MinValidatorStake) ∨
        (staker.LockEpochs ≠ 0 ∧
          epochID ≥ u64Pred (u64Add staker.StakingEpoch staker.LockEpochs)))) ∧
    ((∃ infors total, CalEpochProbabilityStaker vmp staker epochID = .ok (infors, total)) ↔
      ¬ ((staker.FeeRate ≠ vmp.PSNodeleFeeRate ∧
          staker.Amount +
              ((staker.Partners.filter (partnerCounted epochID)).map PartnerInfo.Amount).sum <
            vmp.MinValidatorStake) ∨
        (staker.LockEpochs ≠ 0 ∧
          epochID ≥ u64Pred (u64Add staker.StakingEpoch staker.LockEpochs)))) ∧
    (staker.LockEpochs ≠ 0 → staker.StakingEpoch + staker.LockEpochs < two64 →
      ((u64Pred (u64Add staker.StakingEpoch staker.LockEpochs) : Nat) : Int) =
        (staker.StakingEpoch : Int) + (staker.LockEpochs : Int) - 1) := by
  have hamount : totalAmount staker epochID =
      staker.Amount +
        ((staker.Partners.filter (partnerCounted epochID)).map PartnerInfo.Amount).sum := by
    unfold totalAmount
    exact foldl_cond_add (partnerCounted epochID) PartnerInfo.Amount _ _
  rw [← hamount]
  refine ⟨?_, ?_, ?_⟩
  · unfold CalEpochProbabilityStaker
    constructor
    · rintro ⟨msg, h⟩
      split at h
      · rename_i ha; exact Or.inl ha
      · split at h
        · rename_i hb; exact Or.inr hb
        · simp only [] at h
          split at h <;> exact absurd h (by simp)
    · rintro (ha | hb)
      · rw [if_pos ha]; exact ⟨_, rfl⟩
      · by_cases ha : staker.FeeRate ≠ vmp.PSNodeleFeeRate ∧
            totalAmount staker epochID < vmp.MinValidatorStake
        · rw [if_pos ha]; exact ⟨_, rfl⟩
        · rw [if_neg ha, if_pos hb]; exact ⟨_, rfl⟩
  · unfold CalEpochProbabilityStaker
    constructor
    · rintro ⟨infors, total, h⟩ hcon
      split at h
      · exact absurd h (by simp)
      · rename_i ha
        split at h
        · exact absurd h (by simp)
        · rename_i hb
          rcases hcon with hc | hc
          · exact ha hc
          · exact hb hc
    · intro hn
      have ha : ¬ (staker.FeeRate ≠ vmp.PSNodeleFeeRate ∧
          totalAmount staker epochID < vmp.MinValidatorStake) := fun h => hn (Or.inl h)
      have hb : ¬ (staker.LockEpochs ≠ 0 ∧
          epochID ≥ u64Pred (u64Add staker.StakingEpoch staker.LockEpochs)) :=
        fun h => hn (Or.inr h)
      rw [if_neg ha, if_neg hb]
      simp only []
      split <;> exact ⟨_, _, rfl⟩
  · intro h0 hlt
    unfold u64Pred u64Add
    unfold two64 at hlt ⊢
    omega

/-! ## The draws as iterated hashes (C5) -/

/-- With a positive total weight every reduced sample draws an entry of the table, and that
entry can be encoded. -/
theorem draw_step (ps : ProposerSorter) (hne : ps ≠ []) (hT : 0 < totalProbabilityOf ps)
    (x : Int) :
    ∃ p, ps[drawIdx ps (x % totalProbabilityOf ps)]? = some p ∧ rlpEncodable p = true := by
  have hlt : x % totalProbabilityOf ps < totalProbabilityOf ps := Int.emod_lt_of_pos x hT
  have hge : 0 ≤ x % totalProbabilityOf ps := Int.emod_nonneg x (by omega)
  obtain ⟨p, hp, hgt⟩ := drawIdx_hit ps (x % totalProbabilityOf ps) hne hlt
  refine ⟨p, hp, ?_⟩
  unfold rlpEncodable
  simp only [decide_eq_true_eq]
  omega

/-- The selection loop, started at iteration `i` with the sample hashed `i + 1` times, never
panics and appends the entries of draws `i, i+1, ..., i+n-1`. -/
theorem selectionLoop_eq (keccak256 : Bytes → Bytes) (pre : Nat) (r : Bytes)
    (ps : ProposerSorter) (epochId : Nat) (hne : ps ≠ []) (hT : 0 < totalProbabilityOf ps) :
    ∀ (n i : Nat) (db : LeaderDb),
      selectionLoop keccak256 ps (totalProbabilityOf ps) epochId n i
          (keccak256^[i + 1] (pre :: r)) db =
        .ok (db ++ (List.range' i n).filterMap (drawEntry keccak256 pre r ps epochId)) := by
  intro n
  induction n with
  | zero => intro i db; simp [selectionLoop]
  | succ n ih =>
    intro i db
    obtain ⟨p, hp, henc⟩ :=
      draw_step ps hne hT (bytesToNat (keccak256^[i + 1] (pre :: r)) : Int)
    have hentry : drawEntry keccak256 pre r ps epochId i = some (epochId, i, p) := by
      unfold drawEntry drawTarget
      rw [hp]
      rfl
    have hT0 : ¬ totalProbabilityOf ps = 0 := by omega
    unfold selectionLoop
    rw [if_neg hT0]
    simp only [hp, henc, if_true]
    have hcr : keccak256 (keccak256^[i + 1] (pre :: r)) = keccak256^[i + 1 + 1] (pre :: r) :=
      (Function.iterate_succ_apply' keccak256 (i + 1) (pre :: r)).symm
    rw [hcr, ih (i + 1) (db ++ [(epochId, i, p)]), List.range'_succ, List.filterMap_cons, hentry]
    simp

/-- Every draw of the specified sequence yields an entry. -/
theorem drawEntry_some (keccak256 : Bytes → Bytes) (pre : Nat) (r : Bytes)
    (ps : ProposerSorter) (epochId : Nat) (hne : ps ≠ []) (hT : 0 < totalProbabilityOf ps)
    (i : Nat) :
    ∃ p, ps[drawIdx ps (drawTarget keccak256 pre r (totalProbabilityOf ps) i)]? = some p ∧
      drawEntry keccak256 pre r ps epochId i = some (epochId, i, p) := by
  obtain ⟨p, hp, _⟩ :=
    draw_step ps hne hT (bytesToNat (keccak256^[i + 1] (pre :: r)) : Int)
  have hp1 : ps[drawIdx ps (drawTarget keccak256 pre r (totalProbabilityOf ps) i)]? = some p := hp
  refine ⟨p, hp1, ?_⟩
  unfold drawEntry
  rw [hp1]
  rfl

/-- A `filterMap` whose function always answers keeps the length. -/
theorem length_filterMap_all_some {α β : Type} (f : α → Option β) :
    ∀ l : List α, (∀ x ∈ l, ∃ y, f x = some y) → (l.filterMap f).length = l.length := by
  intro l
  induction l with
  | nil => intro _; rfl
  | cons a l ih =>
    intro h
    obtain ⟨y, hy⟩ := h a (List.mem_cons_self _ _)
    rw [List.filterMap_cons, hy]
    simp [ih (fun x hx => h x (List.mem_cons_of_mem _ hx))]

/-- The specified sequence of `n` draws has `n` entries. -/
theorem drawSequence_length (keccak256 : Bytes → Bytes) (pre : Nat) (r : Bytes)
    (ps : ProposerSorter) (epochId : Nat) (hne : ps ≠ []) (hT : 0 < totalProbabilityOf ps)
    (n : Nat) : (drawSequence keccak256 pre r ps epochId n).length = n := by
  unfold drawSequence
  rw [length_filterMap_all_some]
  · simp
  · intro i _
    obtain ⟨p, _, hp⟩ := drawEntry_some keccak256 pre r ps epochId hne hT i
    exact ⟨_, hp⟩

/-- A shorter run of draws is the beginning of a longer one. -/
theorem drawSequence_take (keccak256 : Bytes → Bytes) (pre : Nat) (r : Bytes)
    (ps : ProposerSorter) (epochId : Nat) (hne : ps ≠ []) (hT : 0 < totalProbabilityOf ps)
    (m n : Nat) (hmn : m ≤ n) :
    drawSequence keccak256 pre r ps epochId m =
      (drawSequence keccak256 pre r ps epochId n).take m := by
  obtain ⟨k, rfl⟩ := Nat.exists_eq_add_of_le hmn
  have hlen := drawSequence_length keccak256 pre r ps epochId hne hT m
  unfold drawSequence at hlen ⊢
  rw [List.range_add, List.filterMap_append, List.take_left' hlen]

/-- Entry `i` of the specified sequence is the entry of draw `i`. -/
theorem drawSequence_getElem? (keccak256 : Bytes → Bytes) (pre : Nat) (r : Bytes)
    (ps : ProposerSorter) (epochId : Nat) (hne : ps ≠ []) (hT : 0 < totalProbabilityOf ps)
    (n i : Nat) (hi : i < n) :
    (drawSequence keccak256 pre r ps epochId n)[i]? = drawEntry keccak256 pre r ps epochId i := by
  have h1 := drawSequence_take keccak256 pre r ps epochId hne hT (i + 1) n (by omega)
  have h2 : (drawSequence keccak256 pre r ps epochId (i + 1))[i]? =
      drawEntry keccak256 pre r ps epochId i := by
    have hlen := drawSequence_length keccak256 pre r ps epochId hne hT i
    obtain ⟨p, _, hp⟩ := drawEntry_some keccak256 pre r ps epochId hne hT i
    unfold drawSequence at hlen ⊢
    rw [List.range_succ, List.filterMap_append]
    rw [List.getElem?_append_right (by omega)]
    simp [hlen, hp]
  rw [← h2, h1, List.getElem?_take]
  simp


/-- C5: for every seed `r` and every non-empty table with positive total `T`, the epoch-leader
selection never panics, returns no error and appends exactly the entries of draws
`0 .. count-1`, where draw `i` stores under `(epochId, i)` the proposer found for the target
`(Keccak256^(i+1)(0x00 ‖ r) as a big-endian integer) mod T`; the random-beacon selection
does the same with prefix byte `0x01`. Entry `i` therefore depends only on `(r, table, i)`,
and a run whose count is reduced by a whitelist writes exactly the first entries of the
unrestricted run. -/
theorem draws_follow_iterated_hash (keccak256 : Bytes → Bytes) (cfg : PosConfig) (r : Bytes)
    (ps : ProposerSorter) (epochId : Nat) (hne : ps ≠ []) (hT : 0 < totalProbabilityOf ps) :
    (∀ (wl : Option Nat) (db : LeaderDb),
      epochLeaderSelection keccak256 cfg wl (some r) ps epochId db =
        .ok (none, db ++ drawSequence keccak256 0 r ps epochId (selectionCount cfg wl).toNat)) ∧
    (∀ db : LeaderDb,
      randomProposerSelection keccak256 cfg (some r) ps epochId db =
        .ok (none, db ++ drawSequence keccak256 1 r ps epochId cfg.RandomProperCount)) ∧
    (∀ pre n i : Nat, i < n →
      ∃ p, ps[drawIdx ps (drawTarget keccak256 pre r (totalProbabilityOf ps) i)]? = some p ∧
        (drawSequence keccak256 pre r ps epochId n)[i]? = some (epochId, i, p)) ∧
    (∀ (w : Nat) (db : LeaderDb), selectionCount cfg (some w) ≤ selectionCount cfg none →
      epochLeaderSelection keccak256 cfg (some w) (some r) ps epochId db =
        .ok (none, db ++ (drawSequence keccak256 0 r ps epochId cfg.EpochLeaderCount).take
          (selectionCount cfg (some w)).toNat)) := by
  have hlen : ¬ ps.length = 0 := fun h => hne (List.length_eq_zero.mp h)
  have hsel : ∀ (wl : Option Nat) (db : LeaderDb),
      epochLeaderSelection keccak256 cfg wl (some r) ps epochId db =
        .ok (none, db ++ drawSequence keccak256 0 r ps epochId (selectionCount cfg wl).toNat) := by
    intro wl db
    unfold epochLeaderSelection
    simp only [hlen, if_false]
    have h := selectionLoop_eq keccak256 0 r ps epochId hne hT (selectionCount cfg wl).toNat 0 db
    simp only [Nat.zero_add, Function.iterate_one] at h
    rw [h, ← List.range_eq_range']
    rfl
  refine ⟨hsel, ?_, ?_, ?_⟩
  · intro db
    unfold randomProposerSelection
    simp only [hlen, if_false]
    have h := selectionLoop_eq keccak256 1 r ps epochId hne hT cfg.RandomProperCount 0 db
    simp only [Nat.zero_add, Function.iterate_one] at h
    rw [h, ← List.range_eq_range']
    rfl
  · intro pre n i hi
    obtain ⟨p, hp, he⟩ := drawEntry_some keccak256 pre r ps epochId hne hT i
    exact ⟨p, hp, by rw [drawSequence_getElem? keccak256 pre r ps epochId hne hT n i hi, he]⟩
  · intro w db hle
    rw [hsel (some w) db]
    have hle2 : (selectionCount cfg (some w)).toNat ≤ cfg.EpochLeaderCount := by
      have : selectionCount cfg none = (cfg.EpochLeaderCount : Int) := rfl
      omega
    rw [drawSequence_take keccak256 0 r ps epochId hne hT _ _ hle2]

/-- C5 on the example table with seed `[7]`: the hypotheses hold and the unrestricted run
of 3 draws and the run reduced to 2 draws by a whitelist of one agree on the first 2. -/
theorem draws_follow_iterated_hash_witness :
    tableABC ≠ [] ∧ 0 < totalProbabilityOf tableABC ∧
      selectionCount exampleCfg (some 1) ≤ selectionCount exampleCfg none ∧
      epochLeaderSelection toyHash exampleCfg (some 1) (some [7]) tableABC 4 [] =
        .ok (none, [] ++ (drawSequence toyHash 0 [7] tableABC 4 exampleCfg.EpochLeaderCount).take
          (selectionCount exampleCfg (some 1)).toNat) :=
  ⟨by decide, by decide, by decide,
    (draws_follow_iterated_hash toyHash exampleCfg [7] tableABC 4 (by decide) (by decide)).2.2.2
      1 [] (by decide)⟩

/-! ## Zero total weight and empty tables (C6, C7) -/

/-- C6 (the code at the failing input): a snapshot whose only staker has stake weight 0 is
not rejected, so the builder returns the non-empty table with the single cumulative weight
0; on that table, for every hash function, seed and epoch, the first epoch-leader draw and
the first random-beacon draw divide by the zero total weight. -/
theorem zero_total_weight_faults :
    createStakerProbabilityArray exampleVm (some zeroWeightDb) 5 =
        (some [⟨[1], [1], 0⟩], none) ∧
      (∀ (keccak256 : Bytes → Bytes) (r : Bytes) (epochId : Nat) (db : LeaderDb),
        epochLeaderSelection keccak256 exampleCfg none (some r) [⟨[1], [1], 0⟩] epochId db =
          .error Fault.divisionByZero) ∧
      (∀ (keccak256 : Bytes → Bytes) (r : Bytes) (epochId : Nat) (db : LeaderDb),
        randomProposerSelection keccak256 exampleCfg (some r) [⟨[1], [1], 0⟩] epochId db =
          .error Fault.divisionByZero) ∧
      (∀ (keccak256 : Bytes → Bytes) (r : Bytes) (epochId : Nat),
        selectLeaders keccak256 exampleVm exampleCfg none (some r) (some zeroWeightDb) epochId
            emptyEpocher = .error Fault.divisionByZero) := by
  refine ⟨by rfl, ?_, ?_, ?_⟩
  · intro keccak256 r epochId db
    rfl
  · intro keccak256 r epochId db
    rfl
  · intro keccak256 r epochId
    rfl

/-- C7 (the code at the failing input): on a snapshot without surviving stakers the builder
returns the empty table and no error; `epochLeaderSelection` and `randomProposerSelection`
report their input error on it, but `selectLeaders` and `SelectLeadersLoop` return no error
and leave the databases as they were. The same happens to the error for a `nil` seed. -/
theorem empty_table_error_is_dropped (keccak256 : Bytes → Bytes) (vmp : VmParams)
    (cfg : PosConfig) (wl : Option Nat) (r : Option Bytes) (epochId : Nat) (e : Epocher) :
    createStakerProbabilityArray vmp (some emptyDb) epochId = (some [], none) ∧
      epochLeaderSelection keccak256 cfg wl r [] epochId e.epochLeadersDb =
        .ok (some "Invalid Random Proposer Selection", e.epochLeadersDb) ∧
      randomProposerSelection keccak256 cfg r [] epochId e.rbLeadersDb =
        .ok (some "Invalid Epoch Proposer Selection", e.rbLeadersDb) ∧
      selectLeaders keccak256 vmp cfg wl r (some emptyDb) epochId e = .ok (none, e) ∧
      (∀ getR : StateDB → Nat → Option Nat,
        SelectLeadersLoop keccak256 vmp cfg wl (.ok emptyDb) getR epochId e = .ok (none, e)) ∧
      (∀ db : StateDB,
        selectLeaders keccak256 vmp cfg wl none (some db) epochId e = .ok (none, e)) := by
  have h1 : ∀ r : Option Bytes, epochLeaderSelection keccak256 cfg wl r [] epochId
      e.epochLeadersDb = .ok (some "Invalid Random Proposer Selection", e.epochLeadersDb) := by
    intro r
    cases r <;> rfl
  have h2 : ∀ r : Option Bytes, randomProposerSelection keccak256 cfg r [] epochId
      e.rbLeadersDb = .ok (some "Invalid Epoch Proposer Selection", e.rbLeadersDb) := by
    intro r
    cases r <;> rfl
  have h3 : ∀ r : Option Bytes,
      selectLeaders keccak256 vmp cfg wl r (some emptyDb) epochId e = .ok (none, e) := by
    intro r
    unfold selectLeaders
    have hc : createStakerProbabilityArray vmp (some emptyDb) epochId = (some [], none) := rfl
    rw [hc]
    simp only [h1 r, h2 r]
  refine ⟨rfl, h1 r, h2 r, h3 r, ?_, ?_⟩
  · intro getR
    unfold SelectLeadersLoop
    exact h3 _
  · intro db
    unfold selectLeaders createStakerProbabilityArray
    rfl

/-! ## Signed 64-bit values -/

/-- A `uint64` below `2^63` converts to the same integer. -/
theorem toInt64_of_lt (x : Nat) (h : x < two63) : toInt64 x = (x : Int) := by
  unfold toInt64
  unfold two63 at h
  unfold two64 two63
  have hx : x % 18446744073709551616 = x := Nat.mod_eq_of_lt (by omega)
  rw [hx, if_pos h]

/-- A signed 64-bit result inside the range is not changed by wrap-around. -/
theorem wrapInt64_of_range (z : Int) (hlo : -(two63 : Int) ≤ z) (hhi : z < (two63 : Int)) :
    wrapInt64 z = z := by
  unfold wrapInt64 toInt64
  unfold two63 at hlo hhi
  unfold two64 two63
  simp only [Nat.cast_ofNat]
  have hnn : 0 ≤ z % 18446744073709551616 := Int.emod_nonneg z (by decide)
  have hlt : z % 18446744073709551616 < 18446744073709551616 := Int.emod_lt_of_pos z (by decide)
  have hmod : ((z % 18446744073709551616).toNat % 18446744073709551616 : Nat) =
      (z % 18446744073709551616).toNat := Nat.mod_eq_of_lt (by omega)
  rw [hmod]
  split_ifs with h <;> omega

/-! ## `Push` and the frontier (C8) -/

/-- C8 (counterexample): pushing a block of height 5 into the new buffer, whose `maxHeight`
is 0, sets `maxHeight` to 5 although 5 is not `maxHeight + 1`; the claim says it stays 0. -/
theorem push_into_new_buffer_jumps :
    (PushState (NewForkMemBlockChain 0) (blockAt 105 104 5)).curMaxBlkNum = 5 ∧
      ¬ ((PushState (NewForkMemBlockChain 0) (blockAt 105 104 5)).curMaxBlkNum =
        if toInt64 (blockAt 105 104 5).NumberU64 = (NewForkMemBlockChain 0).curMaxBlkNum + 1
        then (NewForkMemBlockChain 0).curMaxBlkNum + 1
        else (NewForkMemBlockChain 0).curMaxBlkNum) := by
  constructor
  · decide
  · decide

/-- C8 (amended): in a buffer whose `maxHeight` is not 0, `Push(b)` makes `maxHeight` equal
to `maxHeight + 1` if the height of `b` is exactly `maxHeight + 1` and leaves it unchanged
otherwise (heights and the sum being the signed 64-bit values the code compares); in a
buffer whose `maxHeight` is 0, `Push(b)` sets `maxHeight` to the height of `b`. For heights
inside the signed 64-bit range the first statement reads the same on the integers. -/
theorem push_advances_frontier_by_one (f : ForkMemBlockChain) (b : Block) :
    (f.curMaxBlkNum ≠ 0 →
      (PushState f b).curMaxBlkNum =
        if toInt64 b.NumberU64 = wrapInt64 (f.curMaxBlkNum + 1)
        then wrapInt64 (f.curMaxBlkNum + 1) else f.curMaxBlkNum) ∧
    (f.curMaxBlkNum = 0 → (PushState f b).curMaxBlkNum = toInt64 b.NumberU64) ∧
    (f.curMaxBlkNum ≠ 0 → -(two63 : Int) ≤ f.curMaxBlkNum + 1 →
      f.curMaxBlkNum + 1 < (two63 : Int) → b.Number < two63 →
      (PushState f b).curMaxBlkNum =
        if (b.Number : Int) = f.curMaxBlkNum + 1 then f.curMaxBlkNum + 1 else f.curMaxBlkNum) ∧
    (Push f b).1 = none ∧ (Push f b).2 = PushState f b := by
  have hgen : f.curMaxBlkNum ≠ 0 →
      (PushState f b).curMaxBlkNum =
        if toInt64 b.NumberU64 = wrapInt64 (f.curMaxBlkNum + 1)
        then wrapInt64 (f.curMaxBlkNum + 1) else f.curMaxBlkNum := by
    intro h0
    simp only [PushState, if_neg h0]
    by_cases heq : wrapInt64 (f.curMaxBlkNum + 1) = toInt64 b.NumberU64
    · rw [if_pos heq, if_pos heq.symm, heq]
    · rw [if_neg heq, if_neg (fun h => heq h.symm)]
  refine ⟨hgen, ?_, ?_, rfl, rfl⟩
  · intro h0
    simp only [PushState, if_pos h0]
  · intro h0 hlo hhi hb
    rw [hgen h0, wrapInt64_of_range _ hlo hhi]
    have hnum : b.NumberU64 = b.Number := by
      unfold Block.NumberU64
      apply Nat.mod_eq_of_lt
      unfold two63 at hb
      unfold two64
      omega
    rw [hnum, toInt64_of_lt _ hb]

/-- C8 (amended) on the example buffer, whose `maxHeight` is 3: a block of height 4 moves
`maxHeight` to 4 and a block of height 7 leaves it at 3. -/
theorem push_advances_frontier_by_one_witness :
    exampleBuffer.curMaxBlkNum ≠ 0 ∧
      (PushState exampleBuffer (blockAt 104 103 4)).curMaxBlkNum = 4 ∧
      (PushState exampleBuffer (blockAt 107 106 7)).curMaxBlkNum = 3 ∧
      (PushState exampleBuffer (blockAt 104 103 4)).curMaxBlkNum =
        if (((blockAt 104 103 4).Number : Nat) : Int) = exampleBuffer.curMaxBlkNum + 1
        then exampleBuffer.curMaxBlkNum + 1 else exampleBuffer.curMaxBlkNum :=
  ⟨by decide, by decide, by decide,
    (push_advances_frontier_by_one exampleBuffer (blockAt 104 103 4)).2.2.1
      (by decide) (by decide) (by decide) (by decide)⟩

/-! ## `Maxvalid` at or above the frontier (C9) -/

/-- C9: for every buffer, every bound on the parent walks and every non-nil working tip whose
height (the signed 64-bit value the code compares; the block number itself when it is below
`2^63`) is greater than or equal to `maxHeight`, `Maxvalid` returns no segment and no
error. -/
theorem maxvalid_nothing_at_or_above_frontier (cfg : PosConfig) (fuel : Nat)
    (f : ForkMemBlockChain) (tip : Block) :
    (toInt64 tip.NumberU64 ≥ f.curMaxBlkNum →
      Maxvalid cfg fuel f (some tip) = .ok ([], none)) ∧
    (tip.Number < two63 → (tip.Number : Int) ≥ f.curMaxBlkNum →
      Maxvalid cfg fuel f (some tip) = .ok ([], none)) := by
  have hgen : toInt64 tip.NumberU64 ≥ f.curMaxBlkNum →
      Maxvalid cfg fuel f (some tip) = .ok ([], none) := by
    intro h
    simp only [Maxvalid, if_pos h]
  refine ⟨hgen, ?_⟩
  intro hb hge
  apply hgen
  have hnum : tip.NumberU64 = tip.Number := by
    unfold Block.NumberU64
    apply Nat.mod_eq_of_lt
    unfold two63 at hb
    unfold two64
    omega
  rw [hnum, toInt64_of_lt _ hb]
  exact hge

/-- C9 on the example buffer (`maxHeight` 3) with a working tip of height 3. -/
theorem maxvalid_nothing_at_or_above_frontier_witness :
    (blockAt 103 102 3).Number < two63 ∧
      (((blockAt 103 102 3).Number : Nat) : Int) ≥ exampleBuffer.curMaxBlkNum ∧
      Maxvalid exampleCfg 10 exampleBuffer (some (blockAt 103 102 3)) = .ok ([], none) :=
  ⟨by decide, by decide,
    (maxvalid_nothing_at_or_above_frontier exampleCfg 10 exampleBuffer (blockAt 103 102 3)).2
      (by decide) (by decide)⟩

/-! ## `PopBack` (C10) -/

/-- Reading a map after `delete`. -/
theorem goMapGet_delete {κ ν : Type} [DecidableEq κ] (k : κ) :
    ∀ (m : GoMap κ ν) (k1 : κ),
      goMapGet (goMapDelete m k) k1 = if k1 = k then none else goMapGet m k1 := by
  intro m
  induction m with
  | nil => intro k1; simp [goMapDelete, goMapGet]
  | cons e m ih =>
    intro k1
    obtain ⟨ke, ve⟩ := e
    unfold goMapDelete at ih ⊢
    by_cases hke : ke = k
    · subst hke
      simp only [List.filter_cons, ne_eq, not_true_eq_false, decide_False, Bool.false_eq_true,
        if_false, ih k1, goMapGet]
      by_cases h1 : k1 = ke
      · subst h1; simp
      · have h2 : ¬ ke = k1 := fun h => h1 h.symm
        simp [h1, h2]
    · simp only [List.filter_cons, ne_eq, hke, not_false_eq_true, decide_True, if_true, goMapGet,
        ih k1]
      by_cases h1 : ke = k1
      · subst h1
        simp [hke]
      · simp [h1]

/-- Reading a map after deleting a list of keys one by one. -/
theorem goMapGet_foldl_delete {κ ν : Type} [DecidableEq κ] :
    ∀ (ks : List κ) (m : GoMap κ ν) (k1 : κ),
      goMapGet (ks.foldl (fun m k => goMapDelete m k) m) k1 =
        if k1 ∈ ks then none else goMapGet m k1 := by
  intro ks
  induction ks with
  | nil => intro m k1; simp
  | cons k ks ih =>
    intro m k1
    rw [List.foldl_cons, ih, goMapGet_delete]
    by_cases h1 : k1 = k
    · subst h1; simp
    · by_cases h2 : k1 ∈ ks
      · simp [h2]
      · simp [h1, h2]

/-- C10: `PopBack` leaves the buffer as it is when at most `K = SlotCount` heights are
buffered. When more than `K` heights are buffered it leaves `maxHeight` (and the other
fields) unchanged, the height index afterwards has no bucket at the evicted height
`maxHeight - K` and every other bucket as before, and the block map afterwards lacks exactly
the hashes that were in the evicted bucket and maps every other hash as before. The evicted
height is computed in signed 64-bit arithmetic; it is the integer `maxHeight - K` whenever
`K` and `maxHeight - K` are in range, and below 0 it is the height of no bucket. -/
theorem popBack_evicts_one_bucket (cfg : PosConfig) (f : ForkMemBlockChain) :
    (¬ ((f.kBufferedChains.length : Int) > toInt64 cfg.SlotCount) → PopBack cfg f = f) ∧
    ((f.kBufferedChains.length : Int) > toInt64 cfg.SlotCount →
      (PopBack cfg f).curMaxBlkNum = f.curMaxBlkNum ∧
      (PopBack cfg f).useEpochGenesis = f.useEpochGenesis ∧
      (PopBack cfg f).ctype = f.ctype ∧
      (∀ key : Nat,
        goMapGet (PopBack cfg f).kBufferedChains key =
          if (key : Int) = blkNumBeforeK cfg f then none else goMapGet f.kBufferedChains key) ∧
      (∀ h : BlockHash,
        goMapGet (PopBack cfg f).kBufferedBlks h =
          if h ∈ bucketAt f (blkNumBeforeK cfg f) then none else goMapGet f.kBufferedBlks h)) ∧
    (cfg.SlotCount < two63 → -(two63 : Int) ≤ f.curMaxBlkNum - (cfg.SlotCount : Int) →
      f.curMaxBlkNum - (cfg.SlotCount : Int) < (two63 : Int) →
      toInt64 cfg.SlotCount = (cfg.SlotCount : Int) ∧
        blkNumBeforeK cfg f = f.curMaxBlkNum - (cfg.SlotCount : Int)) := by
  refine ⟨?_, ?_, ?_⟩
  · intro h
    simp only [PopBack, if_neg h]
  · intro h
    by_cases hneg : blkNumBeforeK cfg f < 0
    · have hp : PopBack cfg f = f := by simp only [PopBack, if_pos h, if_pos hneg]
      rw [hp]
      refine ⟨rfl, rfl, rfl, ?_, ?_⟩
      · intro key
        have hne : ¬ (key : Int) = blkNumBeforeK cfg f := by omega
        rw [if_neg hne]
      · intro hsh
        simp [bucketAt, hneg]
    · simp only [PopBack, if_pos h, if_neg hneg]
      refine ⟨trivial, trivial, trivial, ?_, ?_⟩
      · intro key
        rw [goMapGet_delete]
        by_cases hk : (key : Int) = blkNumBeforeK cfg f
        · have : key = (blkNumBeforeK cfg f).toNat := by omega
          rw [if_pos this, if_pos hk]
        · have : ¬ key = (blkNumBeforeK cfg f).toNat := by omega
          rw [if_neg this, if_neg hk]
      · intro hsh
        rw [goMapGet_foldl_delete]
  · intro hK hlo hhi
    have h1 := toInt64_of_lt cfg.SlotCount hK
    refine ⟨h1, ?_⟩
    unfold blkNumBeforeK
    rw [h1]
    exact wrapInt64_of_range _ hlo hhi


/-- C10 on the example buffer (heights 1, 2, 3 buffered, `maxHeight` 3) with `K = 2`: the
bucket at height 1 and its block 101 are gone, the buckets at heights 2 and 3 and their
blocks are as before. -/
theorem popBack_evicts_one_bucket_witness :
    (exampleBuffer.kBufferedChains.length : Int) > toInt64 exampleCfg.SlotCount ∧
      blkNumBeforeK exampleCfg exampleBuffer = 1 ∧
      PopBack exampleCfg exampleBuffer =
        { useEpochGenesis := false, ctype := 0,
          kBufferedChains := [(2, [102]), (3, [103, 203])],
          kBufferedBlks := [(102, blockAt 102 101 2), (103, blockAt 103 102 3),
            (203, blockAt 203 102 3)],
          curMaxBlkNum := 3 } ∧
      (∀ key : Nat,
        goMapGet (PopBack exampleCfg exampleBuffer).kBufferedChains key =
          if (key : Int) = blkNumBeforeK exampleCfg exampleBuffer then none
          else goMapGet exampleBuffer.kBufferedChains key) :=
  ⟨by decide, by decide, by decide,
    ((popBack_evicts_one_bucket exampleCfg exampleBuffer).2.1 (by decide)).2.2.2.1⟩

/-! ## The epoch check of headers (C12, C17) -/

/-- C12 (the code at the failing input): for a header stamped at the epoch base time the
computed pair is epoch 0, slot 0; its difficulty declares epoch 0, slot 5; the check
compares only the epoch ids and returns the declared pair with no error. -/
theorem slot_mismatch_is_not_reported :
    calEpochSlotIDFromTime timedCfg (wrongSlotHeader.Time % two64) = .ok (0, 0) ∧
      GetBlockEpochIdAndSlotId timedCfg wrongSlotHeader = .ok (.ok (0, 5)) := by
  constructor
  · rfl
  · rfl

/-- C17: for `epochId < 2^32`, `slotId < 2^24` and a low byte `b < 2^8`, a header whose
difficulty is `epochId * 2^32 + slotId * 2^8 + b` and whose timestamp gives that epoch is
decoded to exactly `(epochId, slotId)`; and whenever a header with a 64-bit difficulty `d`
is decoded without error, the result is `(d >> 32, (d >> 8) mod 2^24)`, which two
headers with the same timestamp share when their difficulties differ only in the low 8
bits. -/
theorem difficulty_packs_epoch_and_slot (cfg : PosConfig) :
    (∀ (header : Block) (epochId slotId b calSlot : Nat),
      epochId < 4294967296 → slotId < 16777216 → b < 256 →
      header.Difficulty = epochId * 4294967296 + slotId * 256 + b →
      calEpochSlotIDFromTime cfg (header.Time % two64) = .ok (epochId, calSlot) →
      GetBlockEpochIdAndSlotId cfg header = .ok (.ok (epochId, slotId))) ∧
    (∀ (header : Block) (res : Nat × Nat), header.Difficulty < two64 →
      GetBlockEpochIdAndSlotId cfg header = .ok (.ok res) →
      res = (header.Difficulty / 4294967296, header.Difficulty / 256 % 16777216)) ∧
    (∀ h1 h2 : Block, h1.Time = h2.Time → h1.Difficulty / 256 = h2.Difficulty / 256 →
      GetBlockEpochIdAndSlotId cfg h1 = GetBlockEpochIdAndSlotId cfg h2) := by
  refine ⟨?_, ?_, ?_⟩
  · intro header epochId slotId b calSlot he hs hb hd hcal
    have h1 : header.Difficulty % two64 / 4294967296 = epochId := by
      unfold two64; omega
    have h2 : header.Difficulty % two64 % 4294967296 / 256 = slotId := by
      unfold two64; omega
    simp only [GetBlockEpochIdAndSlotId, hcal, h1, h2, ne_eq, not_true_eq_false, if_false]
  · intro header res hd hres
    have hmod : header.Difficulty % two64 = header.Difficulty := Nat.mod_eq_of_lt hd
    simp only [GetBlockEpochIdAndSlotId, hmod] at hres
    cases hcal : calEpochSlotIDFromTime cfg (header.Time % two64) with
    | error e => rw [hcal] at hres; exact absurd hres (by simp)
    | ok v =>
      obtain ⟨ce, cs⟩ := v
      rw [hcal] at hres
      simp only [] at hres
      split at hres
      · exact absurd hres (by simp)
      · injection hres with hres
        injection hres with hres
        rw [← hres]
        congr 1
        omega
  · intro h1 h2 ht hd
    have e1 : h1.Difficulty % two64 / 4294967296 = h2.Difficulty % two64 / 4294967296 := by
      unfold two64; omega
    have e2 : h1.Difficulty % two64 % 4294967296 / 256 =
        h2.Difficulty % two64 % 4294967296 / 256 := by
      unfold two64; omega
    simp only [GetBlockEpochIdAndSlotId, ht, e1, e2]

/-- C17 at a header declaring epoch 0 and slot 5 with low byte 7, stamped at the epoch base
time. -/
theorem difficulty_packs_epoch_and_slot_witness :
    GetBlockEpochIdAndSlotId timedCfg { wrongSlotHeader with Difficulty := 5 * 256 + 7 } =
      .ok (.ok (0, 5)) :=
  (difficulty_packs_epoch_and_slot timedCfg).1 { wrongSlotHeader with Difficulty := 5 * 256 + 7 }
    0 5 7 0 (by decide) (by decide) (by decide) (by decide) (by rfl)

/-! ## The tie-break of `Maxvalid` (C11) -/

/-- Below the frontier `Maxvalid` is the choice of the provisional tip followed by the
walks and the sort. -/
theorem Maxvalid_eq_segmentFrom (cfg : PosConfig) (fuel : Nat) (f : ForkMemBlockChain)
    (work : Block) (hbelow : toInt64 work.NumberU64 < f.curMaxBlkNum) :
    Maxvalid cfg fuel f (some work) =
      match provisionalTip cfg f with
      | .error e => .error e
      | .ok mid => segmentFrom fuel f work mid := by
  have hnot : ¬ toInt64 work.NumberU64 ≥ f.curMaxBlkNum := by omega
  unfold Maxvalid provisionalTip
  simp only [if_neg hnot]
  cases hb : bucketAt f f.curMaxBlkNum with
  | nil => rfl
  | cons h0 rest =>
    simp only []
    by_cases hlen : (h0 :: rest).length > 1
    · simp only [if_pos hlen]
      cases ht : tieBreakLoop cfg f (h0 :: rest) (two64 - 1, goMapGet f.kBufferedBlks h0) with
      | error e => rfl
      | ok v => obtain ⟨m, mid⟩ := v; rfl
    · simp only [if_neg hlen]
      rfl

/-- Whether the epoch check panics depends on the configuration only. -/
theorem epochCheck_total (cfg : PosConfig) (b0 : Block)
    (h0 : ∃ r, GetBlockEpochIdAndSlotId cfg b0 = .ok r) (b : Block) :
    ∃ r, GetBlockEpochIdAndSlotId cfg b = .ok r := by
  obtain ⟨r0, h0⟩ := h0
  unfold GetBlockEpochIdAndSlotId calEpochSlotIDFromTime at h0 ⊢
  by_cases hb : cfg.EpochBaseTime = 0
  · simp only [hb, if_true]
    split <;> exact ⟨_, rfl⟩
  · simp only [hb, if_false] at h0 ⊢
    by_cases h1 : cfg.SlotTime * cfg.SlotCount % two64 = 0
    · simp [h1] at h0
    · by_cases h2 : cfg.SlotTime % two64 = 0
      · simp [h1, h2] at h0
      · by_cases h3 : cfg.SlotCount % two64 = 0
        · simp [h1, h2, h3] at h0
        · simp only [h1, h2, h3, if_false]
          split <;> exact ⟨_, rfl⟩

/-- A slot id returned by the epoch check is the declared slot id of the header, which is
below `2^24`. -/
theorem epochCheck_slot (cfg : PosConfig) (b : Block) (e s : Nat)
    (h : GetBlockEpochIdAndSlotId cfg b = .ok (.ok (e, s))) :
    s = declaredSlotId b ∧ s < two64 - 1 := by
  simp only [GetBlockEpochIdAndSlotId] at h
  cases hcal : calEpochSlotIDFromTime cfg (b.Time % two64) with
  | error err => rw [hcal] at h; exact absurd h (by simp)
  | ok v =>
    obtain ⟨ce, cs⟩ := v
    rw [hcal] at h
    simp only [] at h
    split at h
    · exact absurd h (by simp)
    · injection h with h
      injection h with h
      injection h with _ h
      subst h
      refine ⟨rfl, ?_⟩
      unfold two64
      omega

/-- The tie-break loop: it ends without panic; the final `minSid` is at most the initial one
and at most the slot id of every candidate that passes the check; either nothing changed,
or the final block is the first candidate of the list that passes with that slot id. -/
theorem tieBreakLoop_spec (cfg : PosConfig) (f : ForkMemBlockChain)
    (hcfg : ∀ b, ∃ r, GetBlockEpochIdAndSlotId cfg b = .ok r) :
    ∀ (l : List BlockHash) (minSid : Nat) (mid : Option Block),
      (∀ h ∈ l, ∃ b, goMapGet f.kBufferedBlks h = some b) →
      ∃ m1 mid1, tieBreakLoop cfg f l (minSid, mid) = .ok (m1, mid1) ∧ m1 ≤ minSid ∧
        (∀ h ∈ l, ∀ b e s, goMapGet f.kBufferedBlks h = some b →
          GetBlockEpochIdAndSlotId cfg b = .ok (.ok (e, s)) → m1 ≤ s) ∧
        ((m1 = minSid ∧ mid1 = mid) ∨
          (m1 < minSid ∧ ∃ pre h post b e, l = pre ++ h :: post ∧
            goMapGet f.kBufferedBlks h = some b ∧
            GetBlockEpochIdAndSlotId cfg b = .ok (.ok (e, m1)) ∧ mid1 = some b ∧
            ∀ h1 ∈ pre, ∀ b1 e1 s1, goMapGet f.kBufferedBlks h1 = some b1 →
              GetBlockEpochIdAndSlotId cfg b1 = .ok (.ok (e1, s1)) → m1 < s1)) := by
  intro l
  induction l with
  | nil =>
    intro minSid mid _
    exact ⟨minSid, mid, rfl, Nat.le_refl _, fun h hh => absurd hh (List.not_mem_nil h),
      Or.inl ⟨rfl, rfl⟩⟩
  | cons hs rest ih =>
    intro minSid mid hheld
    obtain ⟨blk, hblk⟩ := hheld hs (List.mem_cons_self _ _)
    have hrest : ∀ h ∈ rest, ∃ b, goMapGet f.kBufferedBlks h = some b :=
      fun h hh => hheld h (List.mem_cons_of_mem _ hh)
    obtain ⟨r, hr⟩ := hcfg blk
    cases r with
    | error msg =>
      obtain ⟨m1, mid1, hrun, hle, hmin, hcase⟩ := ih minSid mid hrest
      refine ⟨m1, mid1, ?_, hle, ?_, ?_⟩
      · simp only [tieBreakLoop, hblk, hr]
        exact hrun
      · intro h hh b e s hb hg
        rcases List.mem_cons.mp hh with rfl | hh
        · rw [hblk] at hb
          injection hb with hb
          subst hb
          rw [hr] at hg
          exact absurd hg (by simp)
        · exact hmin h hh b e s hb hg
      · rcases hcase with hsame | ⟨hlt, pre, h, post, b, e, hl, hb, hg, hm, hpre⟩
        · exact Or.inl hsame
        · refine Or.inr ⟨hlt, hs :: pre, h, post, b, e, by rw [hl]; rfl, hb, hg, hm, ?_⟩
          intro h1 hh1 b1 e1 s1 hb1 hg1
          rcases List.mem_cons.mp hh1 with rfl | hh1
          · rw [hblk] at hb1
            injection hb1 with hb1
            subst hb1
            rw [hr] at hg1
            exact absurd hg1 (by simp)
          · exact hpre h1 hh1 b1 e1 s1 hb1 hg1
    | ok v =>
      obtain ⟨ep, sid⟩ := v
      by_cases hsid : sid < minSid
      · obtain ⟨m1, mid1, hrun, hle, hmin, hcase⟩ := ih sid (some blk) hrest
        refine ⟨m1, mid1, ?_, by omega, ?_, ?_⟩
        · simp only [tieBreakLoop, hblk, hr, if_pos hsid]
          exact hrun
        · intro h hh b e s hb hg
          rcases List.mem_cons.mp hh with rfl | hh
          · rw [hblk] at hb
            injection hb with hb
            subst hb
            rw [hr] at hg
            injection hg with hg
            injection hg with hg
            injection hg with _ hg
            omega
          · exact hmin h hh b e s hb hg
        · right
          refine ⟨by omega, ?_⟩
          rcases hcase with ⟨hm, hmid⟩ | ⟨hlt, pre, h, post, b, e, hl, hb, hg, hm, hpre⟩
          · subst hm
            exact ⟨[], hs, rest, blk, ep, rfl, hblk, hr, hmid,
              fun h1 hh1 => absurd hh1 (List.not_mem_nil h1)⟩
          · refine ⟨hs :: pre, h, post, b, e, by rw [hl]; rfl, hb, hg, hm, ?_⟩
            intro h1 hh1 b1 e1 s1 hb1 hg1
            rcases List.mem_cons.mp hh1 with rfl | hh1
            · rw [hblk] at hb1
              injection hb1 with hb1
              subst hb1
              rw [hr] at hg1
              injection hg1 with hg1
              injection hg1 with hg1
              injection hg1 with _ hg1
              omega
            · exact hpre h1 hh1 b1 e1 s1 hb1 hg1
      · obtain ⟨m1, mid1, hrun, hle, hmin, hcase⟩ := ih minSid mid hrest
        refine ⟨m1, mid1, ?_, hle, ?_, ?_⟩
        · simp only [tieBreakLoop, hblk, hr, if_neg hsid]
          exact hrun
        · intro h hh b e s hb hg
          rcases List.mem_cons.mp hh with rfl | hh
          · rw [hblk] at hb
            injection hb with hb
            subst hb
            rw [hr] at hg
            injection hg with hg
            injection hg with hg
            injection hg with _ hg
            omega
          · exact hmin h hh b e s hb hg
        · rcases hcase with hsame | ⟨hlt, pre, h, post, b, e, hl, hb, hg, hm, hpre⟩
          · exact Or.inl hsame
          · refine Or.inr ⟨hlt, hs :: pre, h, post, b, e, by rw [hl]; rfl, hb, hg, hm, ?_⟩
            intro h1 hh1 b1 e1 s1 hb1 hg1
            rcases List.mem_cons.mp hh1 with rfl | hh1
            · rw [hblk] at hb1
              injection hb1 with hb1
              subst hb1
              rw [hr] at hg1
              injection hg1 with hg1
              injection hg1 with hg1
              injection hg1 with _ hg1
              omega
            · exact hpre h1 hh1 b1 e1 s1 hb1 hg1


/-- C11: when the bucket at `maxHeight` lists two or more candidates, all held in the block
map, of which at least one passes the epoch check, then for every working tip below
`maxHeight` the provisional tip from which `Maxvalid` walks is a candidate of that bucket
that passes the check, its declared slot id (bits 8-31 of the difficulty) is at most that of
every passing candidate of the bucket, and every passing candidate listed before it (pushed
earlier) has a strictly greater slot id. -/
theorem tie_break_picks_smallest_slot (cfg : PosConfig) (fuel : Nat) (f : ForkMemBlockChain)
    (work : Block) (hbelow : toInt64 work.NumberU64 < f.curMaxBlkNum)
    (htwo : 2 ≤ (bucketAt f f.curMaxBlkNum).length)
    (hheld : ∀ h ∈ bucketAt f f.curMaxBlkNum, (goMapGet f.kBufferedBlks h).isSome = true)
    (hpass : ∃ h ∈ bucketAt f f.curMaxBlkNum, ∃ b, goMapGet f.kBufferedBlks h = some b ∧
      passesEpochCheck cfg b) :
    ∃ tip pre h post,
      provisionalTip cfg f = .ok (some tip) ∧
      Maxvalid cfg fuel f (some work) = segmentFrom fuel f work (some tip) ∧
      bucketAt f f.curMaxBlkNum = pre ++ h :: post ∧
      goMapGet f.kBufferedBlks h = some tip ∧
      passesEpochCheck cfg tip ∧
      (∀ h1 ∈ bucketAt f f.curMaxBlkNum, ∀ b1, goMapGet f.kBufferedBlks h1 = some b1 →
        passesEpochCheck cfg b1 → declaredSlotId tip ≤ declaredSlotId b1) ∧
      (∀ h1 ∈ pre, ∀ b1, goMapGet f.kBufferedBlks h1 = some b1 →
        passesEpochCheck cfg b1 → declaredSlotId tip < declaredSlotId b1) := by
  obtain ⟨hp, hhp, bp, hbp, ⟨⟨ep, sp⟩, hgp⟩⟩ := hpass
  have hcfg : ∀ b, ∃ r, GetBlockEpochIdAndSlotId cfg b = .ok r :=
    epochCheck_total cfg bp ⟨_, hgp⟩
  have hheld1 : ∀ h ∈ bucketAt f f.curMaxBlkNum, ∃ b, goMapGet f.kBufferedBlks h = some b := by
    intro h hh
    exact Option.isSome_iff_exists.mp (hheld h hh)
  cases hbucket : bucketAt f f.curMaxBlkNum with
  | nil => rw [hbucket] at htwo; exact absurd htwo (by simp)
  | cons h0 rest =>
    rw [hbucket] at hheld1 hhp htwo
    have hlen : (h0 :: rest).length > 1 := by omega
    obtain ⟨m1, mid1, hrun, hle, hmin, hcase⟩ :=
      tieBreakLoop_spec cfg f hcfg (h0 :: rest) (two64 - 1) (goMapGet f.kBufferedBlks h0) hheld1
    have hsp := (epochCheck_slot cfg bp ep sp hgp).2
    have hm1 : m1 ≤ sp := hmin hp hhp bp ep sp hbp hgp
    rcases hcase with ⟨hsame, _⟩ | ⟨_, pre, h, post, tip, e, hl, hb, hg, hmid, hpre⟩
    · omega
    · have htip : provisionalTip cfg f = .ok (some tip) := by
        unfold provisionalTip
        rw [hbucket]
        simp only [if_pos hlen, hrun, hmid]
      have hs := (epochCheck_slot cfg tip e m1 hg).1
      refine ⟨tip, pre, h, post, htip, ?_, hl, hb, ⟨_, hg⟩, ?_, ?_⟩
      · rw [Maxvalid_eq_segmentFrom cfg fuel f work hbelow, htip]
      · intro h1 hh1 b1 hb1 hp1
        obtain ⟨⟨e1, s1⟩, hg1⟩ := hp1
        have := hmin h1 hh1 b1 e1 s1 hb1 hg1
        have hs1 := (epochCheck_slot cfg b1 e1 s1 hg1).1
        omega
      · intro h1 hh1 b1 hb1 hp1
        obtain ⟨⟨e1, s1⟩, hg1⟩ := hp1
        have := hpre h1 hh1 b1 e1 s1 hb1 hg1
        have hs1 := (epochCheck_slot cfg b1 e1 s1 hg1).1
        omega

/-- C11 on `tieBuffer` with a working tip of height 2: the candidates are 103 (fails the
check), 303 (slot 9), 403 and 503 (slot 4), and the provisional tip is 403. -/
theorem tie_break_picks_smallest_slot_witness :
    provisionalTip timedCfg tieBuffer =
        .ok (some { blockAt 403 102 3 with Time := 1012, Difficulty := 4294967296 + 4 * 256 }) ∧
      ∃ tip pre h post,
        provisionalTip timedCfg tieBuffer = .ok (some tip) ∧
        Maxvalid timedCfg 10 tieBuffer (some (blockAt 102 101 2)) =
          segmentFrom 10 tieBuffer (blockAt 102 101 2) (some tip) ∧
        bucketAt tieBuffer tieBuffer.curMaxBlkNum = pre ++ h :: post ∧
        goMapGet tieBuffer.kBufferedBlks h = some tip ∧
        passesEpochCheck timedCfg tip ∧
        (∀ h1 ∈ bucketAt tieBuffer tieBuffer.curMaxBlkNum, ∀ b1,
          goMapGet tieBuffer.kBufferedBlks h1 = some b1 →
          passesEpochCheck timedCfg b1 → declaredSlotId tip ≤ declaredSlotId b1) ∧
        (∀ h1 ∈ pre, ∀ b1, goMapGet tieBuffer.kBufferedBlks h1 = some b1 →
          passesEpochCheck timedCfg b1 → declaredSlotId tip < declaredSlotId b1) :=
  ⟨by rfl,
    tie_break_picks_smallest_slot timedCfg 10 tieBuffer (blockAt 102 101 2) (by decide)
      (by decide) (by decide)
      ⟨303, by decide, _, by rfl, ⟨(1, 9), by rfl⟩⟩⟩

/-! ## Parent links that leave the buffer (C14) -/

/-- C14 (the code at the failing input): the buffer holds only block 105 of height 5, whose
parent 104 is not buffered, and the working tip 2 has height 2. The first parent walk ends
when the parent is missing, the lockstep walk is skipped, and `Maxvalid` returns the segment
`[105]` with no error, although 105 does not descend from the working tip. When the same
missing parent is met in the lockstep walk, the error "can not find common prefix" is
returned: here from a working tip 205 of height 5 with another hash. -/
theorem missing_parent_in_first_walk_is_not_reported :
    orphanBuffer.curMaxBlkNum = 5 ∧
      goMapGet orphanBuffer.kBufferedBlks 104 = none ∧
      Maxvalid exampleCfg 10 orphanBuffer (some (blockAt 2 1 2)) =
        .ok ([blockAt 105 104 5], none) ∧
      commonLoop orphanBuffer 10 (blockAt 105 104 5) (blockAt 205 204 5) [] =
        .ok (.error "can not find common prefix") := by
  refine ⟨by decide, by decide, by rfl, by rfl⟩

/-! ## The segment returned by `Maxvalid` (C13) -/

/-- Entry `k` of a `filterMap` over `0 .. n-1` whose function answers everywhere below `n`. -/
theorem filterMap_range_getElem? {β : Type} (g : Nat → Option β) :
    ∀ n : Nat, (∀ i, i < n → ∃ y, g i = some y) →
      ((List.range n).filterMap g).length = n ∧
        ∀ k, k < n → ((List.range n).filterMap g)[k]? = g k := by
  intro n
  induction n with
  | zero => intro _; exact ⟨rfl, fun k hk => absurd hk (Nat.not_lt_zero k)⟩
  | succ n ih =>
    intro hall
    obtain ⟨hlen, hget⟩ := ih (fun i hi => hall i (by omega))
    obtain ⟨y, hy⟩ := hall n (by omega)
    rw [List.range_succ, List.filterMap_append]
    constructor
    · simp [hlen, hy]
    · intro k hk
      rcases Nat.lt_or_ge k n with hlt | hge
      · rw [List.getElem?_append_left (by omega)]
        exact hget k hlt
      · have hkn : k = n := by omega
        subst hkn
        rw [List.getElem?_append_right (by omega)]
        simp [hlen, hy]

/-- Inserting an element that is below no element of the list puts it at the end. -/
theorem orderedInsert_append_of_not_le (a : Block) :
    ∀ l : List Block, (∀ b ∈ l, ¬ a.NumberU64 ≤ b.NumberU64) →
      List.orderedInsert (fun x y : Block => x.NumberU64 ≤ y.NumberU64) a l = l ++ [a] := by
  intro l
  induction l with
  | nil => intro _; rfl
  | cons b l ih =>
    intro h
    have hb : ¬ a.NumberU64 ≤ b.NumberU64 := h b (List.mem_cons_self _ _)
    simp only [List.orderedInsert, if_neg hb, List.cons_append]
    rw [ih (fun c hc => h c (List.mem_cons_of_mem _ hc))]

/-- Sorting a chain whose numbers strictly decrease reverses it. -/
theorem sortBlocks_of_decreasing :
    ∀ l : List Block, List.Pairwise (fun a b : Block => b.NumberU64 < a.NumberU64) l →
      sortBlocks l = l.reverse := by
  intro l
  induction l with
  | nil => intro _; rfl
  | cons a l ih =>
    intro h
    rw [List.pairwise_cons] at h
    unfold sortBlocks at ih ⊢
    rw [List.insertionSort, ih h.2, List.reverse_cons]
    apply orderedInsert_append_of_not_le
    intro b hb
    have := h.1 b (List.mem_reverse.mp hb)
    omega

/-- The tie-break loop ends with the block it started with or with a block of the map. -/
theorem tieBreakLoop_stored (cfg : PosConfig) (f : ForkMemBlockChain) :
    ∀ (l : List BlockHash) (minSid : Nat) (mid : Option Block) (m1 : Nat) (mid1 : Option Block),
      tieBreakLoop cfg f l (minSid, mid) = .ok (m1, mid1) →
      mid1 = mid ∨ ∃ h b, goMapGet f.kBufferedBlks h = some b ∧ mid1 = some b := by
  intro l
  induction l with
  | nil =>
    intro minSid mid m1 mid1 h
    simp only [tieBreakLoop] at h
    injection h with h
    injection h with _ h
    exact Or.inl h.symm
  | cons hs rest ih =>
    intro minSid mid m1 mid1 h
    simp only [tieBreakLoop] at h
    cases hblk : goMapGet f.kBufferedBlks hs with
    | none => rw [hblk] at h; exact absurd h (by simp)
    | some blk =>
      rw [hblk] at h
      simp only [] at h
      cases hg : GetBlockEpochIdAndSlotId cfg blk with
      | error e => rw [hg] at h; exact absurd h (by simp)
      | ok r =>
        rw [hg] at h
        cases r with
        | error msg => exact ih minSid mid m1 mid1 h
        | ok v =>
          obtain ⟨ep, sid⟩ := v
          simp only [] at h
          split at h
          · rcases ih sid (some blk) m1 mid1 h with hm | hm
            · exact Or.inr ⟨hs, blk, hblk, hm⟩
            · exact Or.inr hm
          · exact ih minSid mid m1 mid1 h

/-- A provisional tip is a block of the block map. -/
theorem provisionalTip_stored (cfg : PosConfig) (f : ForkMemBlockChain) (tip : Block)
    (h : provisionalTip cfg f = .ok (some tip)) :
    ∃ hsh, goMapGet f.kBufferedBlks hsh = some tip := by
  unfold provisionalTip at h
  cases hb : bucketAt f f.curMaxBlkNum with
  | nil => rw [hb] at h; exact absurd h (by simp)
  | cons h0 rest =>
    rw [hb] at h
    simp only [] at h
    split at h
    · cases ht : tieBreakLoop cfg f (h0 :: rest) (two64 - 1, goMapGet f.kBufferedBlks h0) with
      | error e => rw [ht] at h; exact absurd h (by simp)
      | ok v =>
        obtain ⟨m1, mid1⟩ := v
        rw [ht] at h
        simp only [] at h
        injection h with h
        subst h
        rcases tieBreakLoop_stored cfg f _ _ _ _ _ ht with hm | ⟨hsh, b, hb1, hm⟩
        · exact ⟨h0, hm.symm⟩
        · injection hm with hm
          subst hm
          exact ⟨hsh, hb1⟩
    · injection h with h
      exact ⟨h0, h⟩

/-- In a buffer whose stored parents are one lower, the `k`-th ancestor of a stored block is
stored and is `k` lower. -/
theorem ancestorAt_number (f : ForkMemBlockChain)
    (hparents : ∀ h b p, goMapGet f.kBufferedBlks h = some b →
      goMapGet f.kBufferedBlks b.ParentHash = some p → p.Number + 1 = b.Number) :
    ∀ (k : Nat) (b a : Block), (∃ h, goMapGet f.kBufferedBlks h = some b) →
      ancestorAt f b k = some a →
      a.Number + k = b.Number ∧ ∃ h, goMapGet f.kBufferedBlks h = some a := by
  intro k
  induction k with
  | zero =>
    intro b a hb ha
    simp only [ancestorAt] at ha
    injection ha with ha
    subst ha
    exact ⟨rfl, hb⟩
  | succ k ih =>
    intro b a hb ha
    simp only [ancestorAt] at ha
    cases hp : goMapGet f.kBufferedBlks b.ParentHash with
    | none => rw [hp] at ha; exact absurd ha (by simp)
    | some p =>
      rw [hp] at ha
      obtain ⟨h, hb1⟩ := hb
      have hnum := hparents h b p hb1 hp
      obtain ⟨hk, hst⟩ := ih p a ⟨_, hp⟩ ha
      exact ⟨by omega, hst⟩

/-- When the `(k+1)`-th ancestor exists, so does the `k`-th. -/
theorem ancestorAt_pred (f : ForkMemBlockChain) :
    ∀ (k : Nat) (b a : Block), ancestorAt f b (k + 1) = some a →
      ∃ a0, ancestorAt f b k = some a0 := by
  intro k
  induction k with
  | zero => intro b a _; exact ⟨b, rfl⟩
  | succ k ih =>
    intro b a ha
    simp only [ancestorAt] at ha ⊢
    cases hp : goMapGet f.kBufferedBlks b.ParentHash with
    | none => rw [hp] at ha; exact absurd ha (by simp)
    | some p =>
      rw [hp] at ha
      simp only []
      exact ih p a ha

/-- When the `n`-th ancestor exists, so does every earlier one. -/
theorem ancestorAt_below (f : ForkMemBlockChain) (b : Block) :
    ∀ (n : Nat) (a : Block), ancestorAt f b n = some a →
      ∀ k, k ≤ n → ∃ a0, ancestorAt f b k = some a0 := by
  intro n
  induction n with
  | zero =>
    intro a ha k hk
    have : k = 0 := by omega
    subst this
    exact ⟨a, ha⟩
  | succ n ih =>
    intro a ha k hk
    rcases Nat.lt_or_ge k (n + 1) with hlt | hge
    · obtain ⟨a0, ha0⟩ := ancestorAt_pred f n b a ha
      exact ih a0 ha0 k (by omega)
    · have : k = n + 1 := by omega
      subst this
      exact ⟨a, ha⟩


/-- A block number below `2^63` is the height the code compares. -/
theorem toInt64_NumberU64 (b : Block) (h : b.Number < two63) :
    toInt64 b.NumberU64 = (b.Number : Int) := by
  have hnum : b.NumberU64 = b.Number := by
    unfold Block.NumberU64
    apply Nat.mod_eq_of_lt
    unfold two63 at h
    unfold two64
    omega
  rw [hnum, toInt64_of_lt _ h]

/-- The blocks met on the first `j + 1` steps of a parent walk: the block, then the first
`j` steps from its parent. -/
theorem filterMap_ancestorAt_succ (f : ForkMemBlockChain) (b p : Block) (j : Nat)
    (hp : goMapGet f.kBufferedBlks b.ParentHash = some p) :
    (List.range (j + 1)).filterMap (ancestorAt f b) =
      b :: (List.range j).filterMap (ancestorAt f p) := by
  rw [List.range_succ_eq_map, List.filterMap_cons]
  simp only [ancestorAt]
  rw [List.filterMap_map]
  congr 1
  apply List.filterMap_congr
  intro i _
  simp only [Function.comp, ancestorAt, hp]

/-- The first parent walk of `Maxvalid`: from a stored block whose `j`-th ancestor `A` has
the height of the working tip, with at least `j` iterations allowed, the walk stops at `A`
after collecting the block and its first `j - 1` ancestors. -/
theorem reduceLoop_walk (f : ForkMemBlockChain)
    (hparents : ∀ h b p, goMapGet f.kBufferedBlks h = some b →
      goMapGet f.kBufferedBlks b.ParentHash = some p → p.Number + 1 = b.Number) :
    ∀ (j : Nat) (b A : Block) (chain : List Block) (fuel : Nat),
      (∃ h, goMapGet f.kBufferedBlks h = some b) → ancestorAt f b j = some A →
      b.Number < two63 → j ≤ fuel →
      reduceLoop f (A.Number : Int) fuel (some b) chain =
        .ok (some A, chain ++ (List.range j).filterMap (ancestorAt f b)) := by
  intro j
  induction j with
  | zero =>
    intro b A chain fuel _ hA hb _
    simp only [ancestorAt] at hA
    injection hA with hA
    subst hA
    have hnum := toInt64_NumberU64 b hb
    cases fuel with
    | zero => simp [reduceLoop, hnum]
    | succ fuel => simp [reduceLoop, hnum]
  | succ j ih =>
    intro b A chain fuel hst hA hb hfuel
    have hnumA := (ancestorAt_number f hparents (j + 1) b A hst hA).1
    have hA1 := hA
    simp only [ancestorAt] at hA1
    cases hp : goMapGet f.kBufferedBlks b.ParentHash with
    | none => rw [hp] at hA1; exact absurd hA1 (by simp)
    | some p =>
      rw [hp] at hA1
      simp only [] at hA1
      obtain ⟨h, hb1⟩ := hst
      have hpnum := hparents h b p hb1 hp
      have hnum := toInt64_NumberU64 b hb
      have hne : toInt64 b.NumberU64 ≠ (A.Number : Int) := by
        rw [hnum]
        omega
      cases fuel with
      | zero => omega
      | succ fuel =>
        simp only [reduceLoop, if_pos hne, hp]
        rw [ih p A (chain ++ [b]) fuel ⟨_, hp⟩ hA1 (by omega) (by omega),
          filterMap_ancestorAt_succ f b p j hp]
        simp


/-- C13: in a buffer in which the stored parent of every stored block is one lower, let the
provisional tip lie at `maxHeight` (below `2^63`) and let the working tip `W` lie `n > 0`
lower, the `n`-th ancestor of the provisional tip inside the buffer having the hash of `W`.
Then, with at least `n` iterations allowed, `Maxvalid` returns without error the segment of
length `n` whose entry `k` is the ancestor of the provisional tip at height
`height(W) + 1 + k`; the segment ends with the provisional tip and does not contain `W`. -/
theorem maxvalid_returns_ancestors_ascending (cfg : PosConfig) (fuel : Nat)
    (f : ForkMemBlockChain) (work tip : Block) (n : Nat)
    (hparents : ∀ h b p, goMapGet f.kBufferedBlks h = some b →
      goMapGet f.kBufferedBlks b.ParentHash = some p → p.Number + 1 = b.Number)
    (htip : provisionalTip cfg f = .ok (some tip))
    (htipnum : (tip.Number : Int) = f.curMaxBlkNum) (hrange : tip.Number < two63)
    (hwork : work.Number + n = tip.Number) (hn : 0 < n)
    (hanc : ∃ a, ancestorAt f tip n = some a ∧ a.Hash = work.Hash)
    (hfuel : n ≤ fuel) :
    Maxvalid cfg fuel f (some work) =
        .ok (((List.range n).filterMap (ancestorAt f tip)).reverse, none) ∧
      ((List.range n).filterMap (ancestorAt f tip)).reverse.length = n ∧
      (∀ k, k < n → ∃ b,
        ((List.range n).filterMap (ancestorAt f tip)).reverse[k]? = some b ∧
        ancestorAt f tip (n - 1 - k) = some b ∧ b.Number = work.Number + 1 + k) ∧
      ((List.range n).filterMap (ancestorAt f tip)).reverse.getLast? = some tip ∧
      work ∉ ((List.range n).filterMap (ancestorAt f tip)).reverse := by
  obtain ⟨a, ha, hhash⟩ := hanc
  have hst := provisionalTip_stored cfg f tip htip
  have hanum := (ancestorAt_number f hparents n tip a hst ha).1
  have hall : ∀ i, i < n → ∃ y, ancestorAt f tip i = some y :=
    fun i hi => ancestorAt_below f tip n a ha i (by omega)
  obtain ⟨hlen, hget⟩ := filterMap_range_getElem? (ancestorAt f tip) n hall
  have hentry : ∀ i, i < n → ∃ b, ancestorAt f tip i = some b ∧
      ((List.range n).filterMap (ancestorAt f tip))[i]? = some b ∧
      b.Number + i = tip.Number := by
    intro i hi
    obtain ⟨b, hb⟩ := hall i hi
    exact ⟨b, hb, by rw [hget i hi, hb], (ancestorAt_number f hparents i tip b hst hb).1⟩
  have hworknum : toInt64 work.NumberU64 = (work.Number : Int) :=
    toInt64_NumberU64 work (by omega)
  have hbelow : toInt64 work.NumberU64 < f.curMaxBlkNum := by
    rw [hworknum, ← htipnum]
    omega
  have hdec : List.Pairwise (fun x y : Block => y.NumberU64 < x.NumberU64)
      ((List.range n).filterMap (ancestorAt f tip)) := by
    rw [List.pairwise_iff_getElem]
    intro i j hi hj hij
    obtain ⟨bi, _, hbi, hni⟩ := hentry i (by omega)
    obtain ⟨bj, _, hbj, hnj⟩ := hentry j (by omega)
    obtain ⟨_, ei⟩ := List.getElem?_eq_some.mp hbi
    obtain ⟨_, ej⟩ := List.getElem?_eq_some.mp hbj
    rw [ei, ej]
    unfold Block.NumberU64
    have h1 : bi.Number % two64 = bi.Number := Nat.mod_eq_of_lt (by unfold two63 at hrange; unfold two64; omega)
    have h2 : bj.Number % two64 = bj.Number := Nat.mod_eq_of_lt (by unfold two63 at hrange; unfold two64; omega)
    rw [h1, h2]
    omega
  have hrun : Maxvalid cfg fuel f (some work) =
      .ok (((List.range n).filterMap (ancestorAt f tip)).reverse, none) := by
    rw [Maxvalid_eq_segmentFrom cfg fuel f work hbelow, htip]
    simp only [segmentFrom]
    have hw : toInt64 work.NumberU64 = (a.Number : Int) := by
      rw [hworknum]
      omega
    rw [hw, reduceLoop_walk f hparents n tip a [] fuel hst ha hrange hfuel]
    simp only [List.nil_append, ne_eq, hhash, not_true_eq_false, if_false]
    rw [sortBlocks_of_decreasing _ hdec]
  refine ⟨hrun, by rw [List.length_reverse, hlen], ?_, ?_, ?_⟩
  · intro k hk
    obtain ⟨b, hb, hbget, hbnum⟩ := hentry (n - 1 - k) (by omega)
    refine ⟨b, ?_, hb, by omega⟩
    rw [List.getElem?_reverse (by rw [hlen]; exact hk), hlen]
    exact hbget
  · rw [List.getLast?_reverse, List.head?_eq_getElem?, hget 0 hn]
    rfl
  · intro hmem
    rw [List.mem_reverse, List.mem_iff_getElem?] at hmem
    obtain ⟨i, hi⟩ := hmem
    have hin : i < n := by
      have := (List.getElem?_eq_some.mp hi).1
      omega
    obtain ⟨b, _, hbget, hbnum⟩ := hentry i hin
    rw [hi] at hbget
    injection hbget with hbw
    subst hbw
    omega

/-- C13 on the chain 101, 102, 103, 104 of heights 1 to 4 with the working tip 102: the
segment is 103, 104. -/
theorem maxvalid_returns_ancestors_ascending_witness :
    provisionalTip exampleCfg chainBuffer = .ok (some (blockAt 104 103 4)) ∧
      Maxvalid exampleCfg 5 chainBuffer (some (blockAt 102 101 2)) =
        .ok ([blockAt 103 102 3, blockAt 104 103 4], none) ∧
      Maxvalid exampleCfg 5 chainBuffer (some (blockAt 102 101 2)) =
        .ok (((List.range 2).filterMap (ancestorAt chainBuffer (blockAt 104 103 4))).reverse,
          none) :=
  ⟨by rfl, by rfl,
    (maxvalid_returns_ancestors_ascending exampleCfg 5 chainBuffer (blockAt 102 101 2)
      (blockAt 104 103 4) 2
      (by
        intro h b p hb hp
        have hcases : h = 101 ∨ h = 102 ∨ h = 103 ∨ h = 104 ∨
            goMapGet chainBuffer.kBufferedBlks h = none := by
          by_cases h1 : h = 101
          · exact Or.inl h1
          · by_cases h2 : h = 102
            · exact Or.inr (Or.inl h2)
            · by_cases h3 : h = 103
              · exact Or.inr (Or.inr (Or.inl h3))
              · by_cases h4 : h = 104
                · exact Or.inr (Or.inr (Or.inr (Or.inl h4)))
                · right; right; right; right
                  have h1' : ¬ 101 = h := fun e => h1 e.symm
                  have h2' : ¬ 102 = h := fun e => h2 e.symm
                  have h3' : ¬ 103 = h := fun e => h3 e.symm
                  have h4' : ¬ 104 = h := fun e => h4 e.symm
                  simp [chainBuffer, PushState, NewForkMemBlockChain, goMapSet, goMapGet,
                    blockAt, h1', h2', h3', h4']
        rcases hcases with rfl | rfl | rfl | rfl | hnone
        · have hb' : b = blockAt 101 100 1 := by
            have : goMapGet chainBuffer.kBufferedBlks 101 = some (blockAt 101 100 1) := by rfl
            rw [this] at hb; injection hb with hb; exact hb.symm
          subst hb'
          have : goMapGet chainBuffer.kBufferedBlks (blockAt 101 100 1).ParentHash = none := by
            rfl
          rw [this] at hp
          exact absurd hp (by simp)
        · have hb' : b = blockAt 102 101 2 := by
            have : goMapGet chainBuffer.kBufferedBlks 102 = some (blockAt 102 101 2) := by rfl
            rw [this] at hb; injection hb with hb; exact hb.symm
          subst hb'
          have : goMapGet chainBuffer.kBufferedBlks (blockAt 102 101 2).ParentHash =
              some (blockAt 101 100 1) := by rfl
          rw [this] at hp
          injection hp with hp
          subst hp
          rfl
        · have hb' : b = blockAt 103 102 3 := by
            have : goMapGet chainBuffer.kBufferedBlks 103 = some (blockAt 103 102 3) := by rfl
            rw [this] at hb; injection hb with hb; exact hb.symm
          subst hb'
          have : goMapGet chainBuffer.kBufferedBlks (blockAt 103 102 3).ParentHash =
              some (blockAt 102 101 2) := by rfl
          rw [this] at hp
          injection hp with hp
          subst hp
          rfl
        · have hb' : b = blockAt 104 103 4 := by
            have : goMapGet chainBuffer.kBufferedBlks 104 = some (blockAt 104 103 4) := by rfl
            rw [this] at hb; injection hb with hb; exact hb.symm
          subst hb'
          have : goMapGet chainBuffer.kBufferedBlks (blockAt 104 103 4).ParentHash =
              some (blockAt 103 102 3) := by rfl
          rw [this] at hp
          injection hp with hp
          subst hp
          rfl
        · rw [hnone] at hb
          exact absurd hb (by simp))
      (by rfl) (by decide) (by decide) (by decide) (by decide)
      ⟨blockAt 102 101 2, by rfl, by rfl⟩ (by decide)).1⟩

/-! ## The height index resolves in the block map (C15) -/

/-- Reading a map after an assignment. -/
theorem goMapGet_set {κ ν : Type} [DecidableEq κ] (k : κ) (v : ν) :
    ∀ (m : GoMap κ ν) (k1 : κ),
      goMapGet (goMapSet m k v) k1 = if k1 = k then some v else goMapGet m k1 := by
  intro m
  induction m with
  | nil =>
    intro k1
    by_cases h : k = k1
    · subst h; simp [goMapSet, goMapGet]
    · have h1 : ¬ k1 = k := fun e => h e.symm
      simp [goMapSet, goMapGet, h, h1]
  | cons e m ih =>
    intro k1
    obtain ⟨ke, ve⟩ := e
    by_cases hke : ke = k
    · subst hke
      simp only [goMapSet, if_true, goMapGet]
      by_cases h1 : ke = k1
      · subst h1; simp
      · have h2 : ¬ k1 = ke := fun e => h1 e.symm
        simp [h1, h2]
    · simp only [goMapSet, if_neg hke, goMapGet, ih k1]
      by_cases h1 : ke = k1
      · subst h1
        simp [hke]
      · simp [h1]

/-- The bucket at a block number is the stored list, or empty. -/
theorem bucketAt_natCast (f : ForkMemBlockChain) (n : Nat) :
    bucketAt f (n : Int) =
      match goMapGet f.kBufferedChains n with
      | some hs => hs
      | none => [] := by
  have h : ¬ ((n : Int) < 0) := by omega
  simp only [bucketAt, if_neg h, Int.toNat_ofNat]

/-- `Push` keeps the invariant when blocks with `P` and equal hashes have equal numbers. -/
theorem IndexResolves_push (P : Block → Prop)
    (hhash : ∀ b1 b2, P b1 → P b2 → b1.Hash = b2.Hash → b1.Number = b2.Number)
    (f : ForkMemBlockChain) (b : Block) (hb : P b) (hinv : IndexResolves P f) :
    IndexResolves P (PushState f b) := by
  intro key hs h hget hmem
  simp only [PushState] at hget ⊢
  rw [goMapGet_set] at hget
  rw [goMapGet_set]
  by_cases hkey : key = b.Number
  · rw [if_pos hkey] at hget
    injection hget with hget
    subst hget
    rcases List.mem_append.mp hmem with hold | hnew
    · rw [bucketAt_natCast] at hold
      cases hc : goMapGet f.kBufferedChains b.Number with
      | none => rw [hc] at hold; exact absurd hold (List.not_mem_nil h)
      | some hs0 =>
        rw [hc] at hold
        obtain ⟨b0, hb0, hnum, hh, hp⟩ := hinv b.Number hs0 h hc hold
        by_cases hh1 : h = b.Hash
        · rw [if_pos hh1]
          exact ⟨b, rfl, hkey.symm, hh1.symm, hb⟩
        · rw [if_neg hh1]
          exact ⟨b0, hb0, by rw [hkey]; exact hnum, hh, hp⟩
    · have hh1 : h = b.Hash := by simpa using hnew
      rw [if_pos hh1]
      exact ⟨b, rfl, hkey.symm, hh1.symm, hb⟩
  · rw [if_neg hkey] at hget
    obtain ⟨b0, hb0, hnum, hh, hp⟩ := hinv key hs h hget hmem
    by_cases hh1 : h = b.Hash
    · exfalso
      have := hhash b0 b hp hb (by rw [hh, hh1])
      exact hkey (by rw [← hnum, this])
    · rw [if_neg hh1]
      exact ⟨b0, hb0, hnum, hh, hp⟩

/-- `PopBack` keeps the invariant. -/
theorem IndexResolves_popBack (P : Block → Prop) (cfg : PosConfig) (f : ForkMemBlockChain)
    (hinv : IndexResolves P f) : IndexResolves P (PopBack cfg f) := by
  unfold PopBack
  split
  · split
    · exact hinv
    · rename_i hneg
      intro key hs h hget hmem
      simp only [] at hget ⊢
      rw [goMapGet_delete] at hget
      rw [goMapGet_foldl_delete]
      by_cases hkey : key = (blkNumBeforeK cfg f).toNat
      · rw [if_pos hkey] at hget
        exact absurd hget (by simp)
      · rw [if_neg hkey] at hget
        obtain ⟨b0, hb0, hnum, hh, hp⟩ := hinv key hs h hget hmem
        have hnot : ¬ h ∈ bucketAt f (blkNumBeforeK cfg f) := by
          intro hin
          simp only [bucketAt, if_neg hneg] at hin
          cases hc : goMapGet f.kBufferedChains (blkNumBeforeK cfg f).toNat with
          | none => rw [hc] at hin; exact absurd hin (List.not_mem_nil h)
          | some hs0 =>
            rw [hc] at hin
            obtain ⟨b1, hb1, hnum1, _, _⟩ := hinv _ hs0 h hc hin
            rw [hb0] at hb1
            injection hb1 with hb1
            subst hb1
            exact hkey (by rw [← hnum, hnum1])
        rw [if_neg hnot]
        exact ⟨b0, hb0, hnum, hh, hp⟩
  · exact hinv

/-- Every sequence of calls keeps the invariant. -/
theorem IndexResolves_runOps (P : Block → Prop) (cfg : PosConfig)
    (hhash : ∀ b1 b2, P b1 → P b2 → b1.Hash = b2.Hash → b1.Number = b2.Number) :
    ∀ (ops : List BufferOp) (f : ForkMemBlockChain), (∀ b ∈ pushedBlocks ops, P b) →
      IndexResolves P f → IndexResolves P (runOps cfg ops f) := by
  intro ops
  induction ops with
  | nil => intro f _ hinv; exact hinv
  | cons op rest ih =>
    intro f hP hinv
    cases op with
    | push b =>
      have hb : P b := hP b (by simp [pushedBlocks])
      have hrest : ∀ b1 ∈ pushedBlocks rest, P b1 :=
        fun b1 h1 => hP b1 (by simp [pushedBlocks, h1])
      exact ih (PushState f b) hrest (IndexResolves_push P hhash f b hb hinv)
    | popBack =>
      have hrest : ∀ b1 ∈ pushedBlocks rest, P b1 :=
        fun b1 h1 => hP b1 (by simpa [pushedBlocks] using h1)
      exact ih (PopBack cfg f) hrest (IndexResolves_popBack P cfg f hinv)

/-- C15: in every buffer reached from the new buffer by a sequence of `Push` and `PopBack`
calls, every hash listed in a bucket of the height index is a key of the block map and the
block stored under it has the height of that bucket. Block hashes are taken to identify the
height: two pushed blocks with the same hash have the same number. -/
theorem reachable_index_resolves (cfg : PosConfig) (ctype : Nat) (ops : List BufferOp)
    (hhash : ∀ b1 ∈ pushedBlocks ops, ∀ b2 ∈ pushedBlocks ops,
      b1.Hash = b2.Hash → b1.Number = b2.Number) :
    ∀ (key : Nat) (hs : List BlockHash) (h : BlockHash),
      goMapGet (runOps cfg ops (NewForkMemBlockChain ctype)).kBufferedChains key = some hs →
      h ∈ hs →
      ∃ b, goMapGet (runOps cfg ops (NewForkMemBlockChain ctype)).kBufferedBlks h = some b ∧
        b.Number = key := by
  intro key hs h hget hmem
  have hinit : IndexResolves (fun b => b ∈ pushedBlocks ops) (NewForkMemBlockChain ctype) := by
    intro key hs h hget _
    simp [NewForkMemBlockChain, goMapGet] at hget
  have hinv := IndexResolves_runOps (fun b => b ∈ pushedBlocks ops) cfg
    (fun b1 b2 h1 h2 he => hhash b1 h1 b2 h2 he) ops (NewForkMemBlockChain ctype)
    (fun b hb => hb) hinit
  obtain ⟨b, hb, hnum, _, _⟩ := hinv key hs h hget hmem
  exact ⟨b, hb, hnum⟩


/-- C15 on `exampleOps` with `K = 2`: after the calls the bucket at height 3 lists 103 and
203, and 203 resolves to a block of height 3. -/
theorem reachable_index_resolves_witness :
    (∀ b1 ∈ pushedBlocks exampleOps, ∀ b2 ∈ pushedBlocks exampleOps,
        b1.Hash = b2.Hash → b1.Number = b2.Number) ∧
      goMapGet (runOps exampleCfg exampleOps (NewForkMemBlockChain 0)).kBufferedChains 3 =
        some [103, 203] ∧
      ∃ b, goMapGet (runOps exampleCfg exampleOps (NewForkMemBlockChain 0)).kBufferedBlks 203 =
        some b ∧ b.Number = 3 :=
  ⟨by decide, by rfl,
    reachable_index_resolves exampleCfg 0 exampleOps (by decide) 3 [103, 203] 203 (by rfl)
      (by decide)⟩

/-! ## The window of buffered heights (C16) -/

/-- C16 (counterexample): with `K = 2`, pushing blocks of heights 1, 2, 3 and 10, each push
followed by `PopBack`, leaves the three heights 2, 3 and 10 buffered: more than `K`. -/
theorem noncontiguous_push_exceeds_window :
    bufferedHeights (runPushPop exampleCfg
        [blockAt 101 100 1, blockAt 102 101 2, blockAt 103 102 3, blockAt 110 109 10]
        (NewForkMemBlockChain 0)) = [2, 3, 10] ∧
      ¬ ((runPushPop exampleCfg
        [blockAt 101 100 1, blockAt 102 101 2, blockAt 103 102 3, blockAt 110 109 10]
        (NewForkMemBlockChain 0)).kBufferedChains.length ≤ exampleCfg.SlotCount) := by
  constructor
  · decide
  · decide

/-- The keys of a map after an assignment. -/
theorem keys_goMapSet {ν : Type} (k : Nat) (v : ν) :
    ∀ m : GoMap Nat ν,
      (goMapSet m k v).map Prod.fst =
        if k ∈ m.map Prod.fst then m.map Prod.fst else m.map Prod.fst ++ [k] := by
  intro m
  induction m with
  | nil => simp [goMapSet]
  | cons e m ih =>
    obtain ⟨ke, ve⟩ := e
    by_cases hke : ke = k
    · subst hke
      simp [goMapSet]
    · have hne : ¬ k = ke := fun h => hke h.symm
      simp only [goMapSet, if_neg hke, List.map_cons, ih, List.mem_cons, hne, false_or]
      split <;> simp

/-- The keys of a map after `delete`. -/
theorem keys_goMapDelete {ν : Type} (k : Nat) (m : GoMap Nat ν) :
    (goMapDelete m k).map Prod.fst = (m.map Prod.fst).filter (fun x => decide (x ≠ k)) := by
  unfold goMapDelete
  rw [List.filter_map]
  rfl

/-- Removing the first height of a run of consecutive heights. -/
theorem filter_range'_first (lo n : Nat) :
    (List.range' lo (n + 1)).filter (fun x => decide (x ≠ lo)) = List.range' (lo + 1) n := by
  rw [List.range'_succ, List.filter_cons]
  simp only [ne_eq, not_true_eq_false, decide_False, Bool.false_eq_true, if_false]
  rw [List.filter_eq_self]
  intro a ha
  have := List.mem_range'_1.mp ha
  simp only [decide_eq_true_eq]
  omega


/-- `PopBack` after a push: when the buffered heights are `n ≥ 1` consecutive heights ending
at `maxHeight` and `n ≤ K + 1`, the window invariant holds afterwards. -/
theorem WindowInv_popBack (cfg : PosConfig) (hK : cfg.SlotCount < two63)
    (g : ForkMemBlockChain) (lo n M : Nat) (hcur : g.curMaxBlkNum = (M : Int))
    (hM : M < two63) (hperm : (bufferedHeights g).Perm (List.range' lo n))
    (hend : lo + n = M + 1) (hn : n ≤ cfg.SlotCount + 1) :
    WindowInv cfg.SlotCount (PopBack cfg g) := by
  have hlen : g.kBufferedChains.length = n := by
    have := hperm.length_eq
    simp only [bufferedHeights, List.length_map, List.length_range'] at this
    exact this
  have hKi : toInt64 cfg.SlotCount = (cfg.SlotCount : Int) := toInt64_of_lt _ hK
  unfold PopBack
  rw [hlen, hKi]
  by_cases hcase : (n : Int) > (cfg.SlotCount : Int)
  · rw [if_pos hcase]
    have hnK : n = cfg.SlotCount + 1 := by omega
    have hk : blkNumBeforeK cfg g = (lo : Int) := by
      unfold blkNumBeforeK
      rw [hKi, hcur, wrapInt64_of_range]
      · omega
      · unfold two63; omega
      · unfold two63 at hM ⊢; omega
    have hneg : ¬ blkNumBeforeK cfg g < 0 := by rw [hk]; omega
    rw [if_neg hneg]
    refine ⟨lo + 1, cfg.SlotCount, M, hcur, hM, ?_, Nat.le_refl _, fun _ => by omega⟩
    simp only [bufferedHeights, hk, Int.toNat_ofNat]
    rw [keys_goMapDelete]
    have := List.Perm.filter (fun x => decide (x ≠ lo)) hperm
    rw [hnK, filter_range'_first] at this
    exact this
  · rw [if_neg hcase]
    exact ⟨lo, n, M, hcur, hM, hperm, by omega, fun _ => hend⟩

/-- `Push` of contiguous input: afterwards the buffered heights are `n ≥ 1` consecutive
heights ending at `maxHeight`, with `n ≤ K + 1`. -/
theorem WindowInv_push (K : Nat) (f : ForkMemBlockChain) (b : Block)
    (hinv : WindowInv K f) (hb : b.Number < two63) (hpush : contiguousPush f b) :
    ∃ lo n M : Nat, (PushState f b).curMaxBlkNum = (M : Int) ∧ M < two63 ∧
      (bufferedHeights (PushState f b)).Perm (List.range' lo n) ∧ lo + n = M + 1 ∧
      n ≤ K + 1 := by
  obtain ⟨lo, n, M, hcur, hM, hperm, hnK, hend⟩ := hinv
  have hnewbn : toInt64 b.NumberU64 = (b.Number : Int) := toInt64_NumberU64 b hb
  have hheights : bufferedHeights (PushState f b) =
      if b.Number ∈ bufferedHeights f then bufferedHeights f
      else bufferedHeights f ++ [b.Number] := by
    simp only [bufferedHeights, PushState]
    exact keys_goMapSet _ _ _
  have hcur1 : (PushState f b).curMaxBlkNum =
      if f.curMaxBlkNum = 0 then (b.Number : Int)
      else if wrapInt64 (f.curMaxBlkNum + 1) = (b.Number : Int) then (b.Number : Int)
      else f.curMaxBlkNum := by
    simp only [PushState, hnewbn]
  have hfirst : bufferedHeights f = [] →
      ((b.Number : Int) = f.curMaxBlkNum + 1 ∨ f.curMaxBlkNum = 0) →
      ∃ lo n M : Nat, (PushState f b).curMaxBlkNum = (M : Int) ∧ M < two63 ∧
        (bufferedHeights (PushState f b)).Perm (List.range' lo n) ∧ lo + n = M + 1 ∧
        n ≤ K + 1 := by
    intro hempty hnext
    refine ⟨b.Number, 1, b.Number, ?_, hb, ?_, rfl, by omega⟩
    · rw [hcur1]
      by_cases h0 : f.curMaxBlkNum = 0
      · rw [if_pos h0]
      · rw [if_neg h0]
        rcases hnext with hnext | hnext
        · have hw : wrapInt64 (f.curMaxBlkNum + 1) = (b.Number : Int) := by
            rw [wrapInt64_of_range]
            · exact hnext.symm
            · rw [hcur]; unfold two63; omega
            · rw [← hnext]; exact_mod_cast hb
          rw [if_pos hw]
        · exact absurd hnext h0
    · rw [hheights, hempty]
      simp
  rcases hpush with ⟨hempty, h0⟩ | hnext | hmem
  · apply hfirst
    · simp [bufferedHeights, hempty]
    · exact Or.inr h0
  · by_cases hn0 : n = 0
    · subst hn0
      apply hfirst
      · exact List.Perm.eq_nil (by simpa using hperm)
      · exact Or.inl hnext
    · have hend1 := hend hn0
      have hbnum : b.Number = lo + n := by
        rw [hcur] at hnext
        omega
      have hnotin : ¬ b.Number ∈ bufferedHeights f := by
        intro hin
        have := List.mem_range'_1.mp (hperm.mem_iff.mp hin)
        omega
      refine ⟨lo, n + 1, M + 1, ?_, by omega, ?_, by omega, by omega⟩
      · rw [hcur1]
        have hw : wrapInt64 (f.curMaxBlkNum + 1) = (b.Number : Int) := by
          rw [wrapInt64_of_range]
          · exact hnext.symm
          · rw [hcur]; unfold two63; omega
          · rw [← hnext]; exact_mod_cast hb
        by_cases h0 : f.curMaxBlkNum = 0
        · rw [if_pos h0]
          rw [hcur] at hnext
          push_cast
          omega
        · rw [if_neg h0, if_pos hw]
          rw [hcur] at hnext
          push_cast
          omega
      · rw [hheights, if_neg hnotin, List.range'_concat, hbnum]
        simp only [Nat.one_mul]
        exact List.Perm.append_right _ hperm
  · have hin := List.mem_range'_1.mp (hperm.mem_iff.mp hmem)
    have hn0 : n ≠ 0 := by omega
    have hend1 := hend hn0
    refine ⟨lo, n, M, ?_, hM, ?_, hend1, by omega⟩
    · rw [hcur1]
      by_cases h0 : f.curMaxBlkNum = 0
      · rw [if_pos h0]
        rw [hcur] at h0
        omega
      · rw [if_neg h0]
        have hw : ¬ wrapInt64 (f.curMaxBlkNum + 1) = (b.Number : Int) := by
          by_cases hlt : M + 1 < two63
          · have hwr : wrapInt64 (f.curMaxBlkNum + 1) = f.curMaxBlkNum + 1 := by
              apply wrapInt64_of_range
              · rw [hcur]; unfold two63; omega
              · rw [hcur]; unfold two63 at hlt ⊢; omega
            rw [hwr, hcur]
            omega
          · have hMeq : M = 9223372036854775807 := by
              unfold two63 at hM hlt
              omega
            have hval : wrapInt64 (((9223372036854775807 : Nat) : Int) + 1) =
                -9223372036854775808 := by decide
            rw [hcur, hMeq, hval]
            omega
        rw [if_neg hw]
        exact hcur
    · rw [hheights, if_pos hmem]
      exact hperm

/-- Contiguous input keeps the window invariant. -/
theorem WindowInv_runPushPop (cfg : PosConfig) (hK : cfg.SlotCount < two63) :
    ∀ (bs : List Block) (f : ForkMemBlockChain), WindowInv cfg.SlotCount f →
      contiguousFrom cfg bs f → WindowInv cfg.SlotCount (runPushPop cfg bs f) := by
  intro bs
  induction bs with
  | nil => intro f hinv _; exact hinv
  | cons b rest ih =>
    intro f hinv hc
    obtain ⟨hb, hpush, hrest⟩ := hc
    obtain ⟨lo, n, M, hcur, hM, hperm, hend, hn⟩ :=
      WindowInv_push cfg.SlotCount f b hinv hb hpush
    exact ih (pushPop cfg f b)
      (WindowInv_popBack cfg hK (PushState f b) lo n M hcur hM hperm hend hn) hrest

/-- C16 (amended): in every buffer reached from the new buffer by pushes of contiguous input
(each block is the first one, or has the exact next height, or has a height already
buffered; heights and `K` below `2^63`), each push followed by `PopBack`, the height index
holds at most `K = SlotCount` heights, all distinct, and every buffered height is greater
than `maxHeight - K`. -/
theorem contiguous_pushes_keep_window (cfg : PosConfig) (ctype : Nat) (bs : List Block)
    (hK : cfg.SlotCount < two63)
    (hc : contiguousFrom cfg bs (NewForkMemBlockChain ctype)) :
    (bufferedHeights (runPushPop cfg bs (NewForkMemBlockChain ctype))).Nodup ∧
      (runPushPop cfg bs (NewForkMemBlockChain ctype)).kBufferedChains.length ≤ cfg.SlotCount ∧
      ∀ key ∈ bufferedHeights (runPushPop cfg bs (NewForkMemBlockChain ctype)),
        (runPushPop cfg bs (NewForkMemBlockChain ctype)).curMaxBlkNum - (cfg.SlotCount : Int) <
          (key : Int) := by
  have hinit : WindowInv cfg.SlotCount (NewForkMemBlockChain ctype) :=
    ⟨0, 0, 0, rfl, by decide, by simp [bufferedHeights, NewForkMemBlockChain],
      Nat.zero_le _, fun h => absurd rfl h⟩
  obtain ⟨lo, n, M, hcur, hM, hperm, hnK, hend⟩ :=
    WindowInv_runPushPop cfg hK bs (NewForkMemBlockChain ctype) hinit hc
  refine ⟨hperm.nodup_iff.mpr (List.nodup_range' lo n), ?_, ?_⟩
  · have := hperm.length_eq
    simp only [bufferedHeights, List.length_map, List.length_range'] at this
    omega
  · intro key hkey
    have hin := List.mem_range'_1.mp (hperm.mem_iff.mp hkey)
    have hn0 : n ≠ 0 := by omega
    have := hend hn0
    rw [hcur]
    omega

/-- C16 (amended) with `K = 2` on blocks of heights 1, 2, 3, a sibling of height 3, and 4:
the input is contiguous and the heights 3 and 4 remain. -/
theorem contiguous_pushes_keep_window_witness :
    exampleCfg.SlotCount < two63 ∧
      contiguousFrom exampleCfg
        [blockAt 101 100 1, blockAt 102 101 2, blockAt 103 102 3, blockAt 203 102 3,
          blockAt 104 103 4] (NewForkMemBlockChain 0) ∧
      bufferedHeights (runPushPop exampleCfg
        [blockAt 101 100 1, blockAt 102 101 2, blockAt 103 102 3, blockAt 203 102 3,
          blockAt 104 103 4] (NewForkMemBlockChain 0)) = [3, 4] ∧
      (runPushPop exampleCfg
        [blockAt 101 100 1, blockAt 102 101 2, blockAt 103 102 3, blockAt 203 102 3,
          blockAt 104 103 4] (NewForkMemBlockChain 0)).kBufferedChains.length ≤
        exampleCfg.SlotCount :=
  ⟨by decide,
    ⟨by decide, by decide, by decide, by decide, by decide, by decide, by decide, by decide,
      by decide, by decide, trivial⟩,
    by decide,
    (contiguous_pushes_keep_window exampleCfg 0
      [blockAt 101 100 1, blockAt 102 101 2, blockAt 103 102 3, blockAt 203 102 3,
        blockAt 104 103 4]
      (by decide)
      ⟨by decide, by decide, by decide, by decide, by decide, by decide, by decide, by decide,
        by decide, by decide, trivial⟩).2.1⟩

/-! ## Generating and verifying the epoch genesis (C18) -/

/-- C18 (the code at the failing input): `GetEpochGenesis` hashes a record whose `RBLeaders`
is `nil`, whatever the random-beacon proposer group is, while `VerifyEpochGenesis` hashes
the record with `RBLeaders` filled from that group; the two records are never equal. With
one random-beacon proposer and one slot leader supplied to both, and the stand-in hash, the
block whose parent hash is the generated genesis hash and whose predecessor is the
previous block does not verify. -/
theorem generated_genesis_does_not_verify :
    (∀ (encodeHash : EpochGenesis → BlockHash) (sel : Selectors) (epochid : Nat) (blk : Block),
      (GetEpochGenesis encodeHash sel epochid blk).GenesisBlkHash =
        encodeHash { verifyRecord sel epochid blk with RBLeaders := none }) ∧
    (∀ (encodeHash : EpochGenesis → BlockHash) (cfg : PosConfig) (sel : Selectors)
      (getBlockByNumber : Nat → Option Block) (f : ForkMemBlockChain) (blk lastBlk : Block)
      (epochid slot : Nat),
      f.useEpochGenesis = true →
      GetBlockEpochIdAndSlotId cfg blk = .ok (.ok (epochid, slot)) →
      getBlockByNumber (u64Pred blk.NumberU64) = some lastBlk →
      VerifyEpochGenesis encodeHash cfg sel getBlockByNumber f blk =
        .ok (decide (encodeHash (verifyRecord sel epochid lastBlk) = blk.ParentHash))) ∧
    (∀ (sel : Selectors) (epochid : Nat) (blk : Block),
      verifyRecord sel epochid blk ≠ { verifyRecord sel epochid blk with RBLeaders := none }) ∧
    VerifyEpochGenesis toyRecordHash exampleCfg toySelectors
        (fun n => if n = 6 then some (blockAt 306 305 6) else none) bindingBuffer boundBlock =
      .ok false := by
  refine ⟨fun _ _ _ _ => rfl, ?_, ?_, by rfl⟩
  · intro encodeHash cfg sel getBlockByNumber f blk lastBlk epochid slot huse hget hlast
    simp only [VerifyEpochGenesis, huse, Bool.not_true, Bool.false_eq_true, if_false, hget, hlast]
  · intro sel epochid blk h
    have := congrArg EpochGenesis.RBLeaders h
    simp [verifyRecord] at this

/-! ## Stage 1 on a node that is not an epoch leader (C19) -/

/-- C19 (the code at the failing input): in Stage1 of the working epoch with
`slotID <= Stage1K/2`, when the local key is not in `epochLeadersMap`, the stage is set to
Finished, but the call goes on to `startStage1Work`, which returns no error for a key that
is not among the leaders, and the stage is then set to Stage2. For the node of epoch 5
whose leaders are other keys, called at slot 0, the stage after the call is Stage2. -/
theorem non_leader_ends_in_stage2 :
    (∀ (cfg : StageConfig) (env : LoopEnv) (s : SlotLeaderSelection) (key : LocalKey)
      (epochID slotID : Nat),
      s.workStage = WorkStage.slotLeaderSelectionStage1 → epochID ≤ s.workingEpochID →
      slotID ≤ cfg.Stage1K / 2 → goMapGet s.epochLeadersMap key.hex = none →
      Loop cfg env s key epochID slotID =
        .ok { s with key := key, workStage := WorkStage.slotLeaderSelectionStage2 }) ∧
    isLocalPkInCurrentEpochLeaders (nodeInStage WorkStage.slotLeaderSelectionStage1) = false ∧
    Loop exampleStages failingEnv (nodeInStage WorkStage.slotLeaderSelectionStage1) exampleKey
        5 0 =
      .ok (nodeInStage WorkStage.slotLeaderSelectionStage2) := by
  refine ⟨?_, by rfl, by rfl⟩
  intro cfg env s key epochID slotID hstage hepoch hslot hkey
  have h1 : ¬ epochID > s.workingEpochID := by omega
  have h2 : ¬ slotID > cfg.Stage1K / 2 := by omega
  simp [Loop, checkNewEpochStart, getWorkingEpochID, getWorkStage, h1, hstage, h2,
    isLocalPkInCurrentEpochLeaders, hkey, startStage1Work, setWorkStage]

/-! ## The retry budget of stage 3 (C20) -/

/-- One failing call in Stage3 of the working epoch, at or after `Stage5K`: the warning
counter goes up by one; with a positive budget the budget goes down by one and the stage
stays, otherwise the stage becomes Finished and the budget is reset to 3. -/
theorem stage3_failing_call (cfg : StageConfig) (env : LoopEnv) (s : SlotLeaderSelection)
    (key : LocalKey) (epochID slotID : Nat)
    (hstage : s.workStage = WorkStage.slotLeaderSelectionStage3)
    (hepoch : epochID ≤ s.workingEpochID) (hslot : cfg.Stage5K ≤ slotID)
    (hfail : ∃ msg, env.generateSecurityMsg epochID = some msg) :
    Loop cfg env s key epochID slotID =
      if s.errorRetry > 0 then
        .ok { s with key := key, warnCount := s.warnCount + 1, errorRetry := s.errorRetry - 1 }
      else
        .ok { s with key := key, warnCount := s.warnCount + 1, errorRetry := 3,
                     workStage := WorkStage.slotLeaderSelectionStageFinished } := by
  obtain ⟨msg, hmsg⟩ := hfail
  have h1 : ¬ epochID > s.workingEpochID := by omega
  have h2 : ¬ slotID < cfg.Stage5K := by omega
  simp only [Loop, checkNewEpochStart, getWorkingEpochID, getWorkStage, h1, if_false, hstage,
    h2, hmsg, WarnCountAdd, setWorkStage]

/-- C20 (counterexample): from Stage3 with the retry budget at 3, after exactly 3
consecutive failing calls at slot 40 = `Stage5K` the stage is still Stage3 (the budget is
0), not Finished. -/
theorem three_failures_leave_stage3 :
    runLoop exampleStages exampleKey
        [(failingEnv, 5, 40), (failingEnv, 5, 40), (failingEnv, 5, 40)]
        (nodeInStage WorkStage.slotLeaderSelectionStage3) =
      .ok { nodeInStage WorkStage.slotLeaderSelectionStage3 with
        warnCount := 3, errorRetry := 0 } ∧
    ¬ (∃ s, runLoop exampleStages exampleKey
        [(failingEnv, 5, 40), (failingEnv, 5, 40), (failingEnv, 5, 40)]
        (nodeInStage WorkStage.slotLeaderSelectionStage3) = .ok s ∧
      s.workStage = WorkStage.slotLeaderSelectionStageFinished) := by
  have h : runLoop exampleStages exampleKey
      [(failingEnv, 5, 40), (failingEnv, 5, 40), (failingEnv, 5, 40)]
      (nodeInStage WorkStage.slotLeaderSelectionStage3) =
      .ok { nodeInStage WorkStage.slotLeaderSelectionStage3 with
        warnCount := 3, errorRetry := 0 } := by rfl
  refine ⟨h, ?_⟩
  rintro ⟨s, hs, hfin⟩
  rw [h] at hs
  injection hs with hs
  subst hs
  exact absurd hfin (by decide)

/-- C20 (amended): from Stage3 of the working epoch with the retry budget at 3, after 3
consecutive calls at or after `Stage5K` in which `generateSecurityMsg` fails, the stage is
still Stage3 and the budget is 0; a fourth such call makes the stage Finished and resets
the budget to 3. No security message is recorded in any of the calls. -/
theorem fourth_failure_finishes_stage3 (cfg : StageConfig) (e1 e2 e3 e4 : LoopEnv)
    (s : SlotLeaderSelection) (key : LocalKey) (epochID t1 t2 t3 t4 : Nat)
    (hstage : s.workStage = WorkStage.slotLeaderSelectionStage3)
    (hretry : s.errorRetry = 3) (hepoch : epochID ≤ s.workingEpochID)
    (ht1 : cfg.Stage5K ≤ t1) (ht2 : cfg.Stage5K ≤ t2) (ht3 : cfg.Stage5K ≤ t3)
    (ht4 : cfg.Stage5K ≤ t4)
    (hf1 : ∃ msg, e1.generateSecurityMsg epochID = some msg)
    (hf2 : ∃ msg, e2.generateSecurityMsg epochID = some msg)
    (hf3 : ∃ msg, e3.generateSecurityMsg epochID = some msg)
    (hf4 : ∃ msg, e4.generateSecurityMsg epochID = some msg) :
    runLoop cfg key [(e1, epochID, t1), (e2, epochID, t2), (e3, epochID, t3)] s =
        .ok { s with key := key, warnCount := s.warnCount + 3, errorRetry := 0 } ∧
      runLoop cfg key [(e1, epochID, t1), (e2, epochID, t2), (e3, epochID, t3),
          (e4, epochID, t4)] s =
        .ok { s with key := key, warnCount := s.warnCount + 4, errorRetry := 3,
                     workStage := WorkStage.slotLeaderSelectionStageFinished } := by
  have c1 := stage3_failing_call cfg e1 s key epochID t1 hstage hepoch ht1 hf1
  rw [hretry] at c1
  simp only [show (3 : Int) > 0 by decide, if_true] at c1
  have c2 := stage3_failing_call cfg e2
    { s with key := key, warnCount := s.warnCount + 1, errorRetry := 3 - 1 } key epochID t2
    hstage hepoch ht2 hf2
  simp only [show (3 : Int) - 1 > 0 by decide, if_true] at c2
  have c3 := stage3_failing_call cfg e3
    { s with key := key, warnCount := s.warnCount + 1 + 1, errorRetry := 3 - 1 - 1 } key
    epochID t3 hstage hepoch ht3 hf3
  simp only [show (3 : Int) - 1 - 1 > 0 by decide, if_true] at c3
  have c4 := stage3_failing_call cfg e4
    { s with key := key, warnCount := s.warnCount + 1 + 1 + 1, errorRetry := 3 - 1 - 1 - 1 }
    key epochID t4 hstage hepoch ht4 hf4
  simp only [show ¬ ((3 : Int) - 1 - 1 - 1 > 0) by decide, if_false] at c4
  constructor
  · simp only [runLoop, c1, c2, c3]
    try rfl
  · simp only [runLoop, c1, c2, c3, c4]
    try rfl

/-- C20 (amended) on the node of epoch 5 in Stage3 with four failing calls at slot 40. -/
theorem fourth_failure_finishes_stage3_witness :
    (nodeInStage WorkStage.slotLeaderSelectionStage3).errorRetry = 3 ∧
      runLoop exampleStages exampleKey
          [(failingEnv, 5, 40), (failingEnv, 5, 40), (failingEnv, 5, 40), (failingEnv, 5, 40)]
          (nodeInStage WorkStage.slotLeaderSelectionStage3) =
        .ok { nodeInStage WorkStage.slotLeaderSelectionStage3 with
          key := exampleKey,
          warnCount := (nodeInStage WorkStage.slotLeaderSelectionStage3).warnCount + 4,
          errorRetry := 3, workStage := WorkStage.slotLeaderSelectionStageFinished } :=
  ⟨by decide,
    (fourth_failure_finishes_stage3 exampleStages failingEnv failingEnv failingEnv failingEnv
      (nodeInStage WorkStage.slotLeaderSelectionStage3) exampleKey 5 40 40 40 40 (by rfl)
      (by rfl) (by decide) (by decide) (by decide) (by decide) (by decide)
      ⟨_, rfl⟩ ⟨_, rfl⟩ ⟨_, rfl⟩ ⟨_, rfl⟩).2⟩

/-! ## The frame of `Push` (C25) -/

/-- C25: for every buffer and every block `b`, `Push(b)` returns no error; afterwards the
bucket at the height of `b` is the previous bucket with the hash of `b` appended at the
end, the block map maps the hash of `b` to `b`, and every other bucket and every other
entry of the block map is as before. -/
theorem push_records_block (f : ForkMemBlockChain) (b : Block) :
    (Push f b).1 = none ∧
      goMapGet (Push f b).2.kBufferedChains b.Number =
        some (bucketAt f (b.Number : Int) ++ [b.Hash]) ∧
      bucketAt (Push f b).2 (b.Number : Int) = bucketAt f (b.Number : Int) ++ [b.Hash] ∧
      goMapGet (Push f b).2.kBufferedBlks b.Hash = some b ∧
      (∀ key : Nat, key ≠ b.Number →
        goMapGet (Push f b).2.kBufferedChains key = goMapGet f.kBufferedChains key) ∧
      (∀ h : BlockHash, h ≠ b.Hash →
        goMapGet (Push f b).2.kBufferedBlks h = goMapGet f.kBufferedBlks h) := by
  have hget : goMapGet (PushState f b).kBufferedChains b.Number =
      some (bucketAt f (b.Number : Int) ++ [b.Hash]) := by
    simp only [PushState]
    rw [goMapGet_set, if_pos rfl]
  refine ⟨rfl, hget, ?_, ?_, ?_, ?_⟩
  · show bucketAt (PushState f b) (b.Number : Int) = _
    rw [bucketAt_natCast (PushState f b), hget]
  · show goMapGet (PushState f b).kBufferedBlks b.Hash = some b
    simp only [PushState]
    rw [goMapGet_set, if_pos rfl]
  · intro key hkey
    show goMapGet (PushState f b).kBufferedChains key = _
    simp only [PushState]
    rw [goMapGet_set, if_neg hkey]
  · intro h hh
    show goMapGet (PushState f b).kBufferedBlks h = _
    simp only [PushState]
    rw [goMapGet_set, if_neg hh]

/-! ## Finished and new epochs (C23, C24) -/

/-- C23: a `Loop` call made with the work stage Finished and an `epochID` not greater than
the working epoch id, at any slot, returns the state it was given (with the key of the
call): the stage stays Finished, the working epoch id and the retry budget are unchanged,
and the records of commitments, transactions and security messages are as before. -/
theorem finished_is_terminal (cfg : StageConfig) (env : LoopEnv) (s : SlotLeaderSelection)
    (key : LocalKey) (epochID slotID : Nat)
    (hstage : s.workStage = WorkStage.slotLeaderSelectionStageFinished)
    (hepoch : epochID ≤ s.workingEpochID) :
    Loop cfg env s key epochID slotID = .ok { s with key := key } ∧
      ∃ s1, Loop cfg env s key epochID slotID = .ok s1 ∧
        s1.workStage = WorkStage.slotLeaderSelectionStageFinished ∧
        s1.workingEpochID = s.workingEpochID ∧ s1.errorRetry = s.errorRetry ∧
        s1.alphaDb = s.alphaDb ∧ s1.stage1Sent = s.stage1Sent ∧
        s1.stage2Sent = s.stage2Sent ∧ s1.securityMsgs = s.securityMsgs := by
  have h1 : ¬ epochID > s.workingEpochID := by omega
  have hrun : Loop cfg env s key epochID slotID = .ok { s with key := key } := by
    simp only [Loop, checkNewEpochStart, getWorkingEpochID, getWorkStage, h1, if_false, hstage]
  exact ⟨hrun, _, hrun, hstage, rfl, rfl, rfl, rfl, rfl, rfl⟩

/-- C23 on the node of epoch 5 in Finished, called for epoch 5 at slot 50 with collaborators
that would all succeed. -/
theorem finished_is_terminal_witness :
    Loop exampleStages workingEnv (nodeInStage WorkStage.slotLeaderSelectionStageFinished)
        exampleKey 5 50 =
      .ok { nodeInStage WorkStage.slotLeaderSelectionStageFinished with key := exampleKey } :=
  (finished_is_terminal exampleStages workingEnv
    (nodeInStage WorkStage.slotLeaderSelectionStageFinished) exampleKey 5 50 (by rfl)
    (by decide)).1

/-- C24: a `Loop` call whose `epochID` is greater than the working epoch id, made in any
stage and at any slot, with `generateSlotLeadsGroup` succeeding, ends with the working epoch
id equal to `epochID` and the work stage Stage1; the per-epoch caches are cleared and the
leader group is that of the new epoch; nothing else changes, so no commitment is generated
or submitted in that call. -/
theorem new_epoch_starts_in_stage1 (cfg : StageConfig) (env : LoopEnv)
    (s : SlotLeaderSelection) (key : LocalKey) (epochID slotID : Nat)
    (hnew : epochID > s.workingEpochID) (hok : env.generateSlotLeadsGroup epochID = none) :
    Loop cfg env s key epochID slotID =
        .ok { s with key := key, workingEpochID := epochID,
                     workStage := WorkStage.slotLeaderSelectionStage1,
                     epochLeadersMap := env.leaderGroup epochID, caches := [] } ∧
      ∃ s1, Loop cfg env s key epochID slotID = .ok s1 ∧
        s1.workingEpochID = epochID ∧ s1.workStage = WorkStage.slotLeaderSelectionStage1 ∧
        s1.caches = [] ∧ s1.alphaDb = s.alphaDb ∧ s1.stage1Sent = s.stage1Sent ∧
        s1.stage2Sent = s.stage2Sent ∧ s1.securityMsgs = s.securityMsgs := by
  have hrun : Loop cfg env s key epochID slotID =
      .ok { s with key := key, workingEpochID := epochID,
                   workStage := WorkStage.slotLeaderSelectionStage1,
                   epochLeadersMap := env.leaderGroup epochID, caches := [] } := by
    simp only [Loop, checkNewEpochStart, getWorkingEpochID, getWorkStage, hnew, if_true,
      setWorkStage, hok, setWorkingEpochID, buildEpochLeaderGroup, clearData]
  exact ⟨hrun, _, hrun, rfl, rfl, rfl, rfl, rfl, rfl, rfl⟩

/-- C24 on the leader node of epoch 5 in Finished, called for epoch 6 at slot 0. -/
theorem new_epoch_starts_in_stage1_witness :
    Loop exampleStages workingEnv (leaderInStage WorkStage.slotLeaderSelectionStageFinished)
        exampleKey 6 0 =
      .ok { leaderInStage WorkStage.slotLeaderSelectionStageFinished with
        key := exampleKey, workingEpochID := 6,
        workStage := WorkStage.slotLeaderSelectionStage1,
        epochLeadersMap := workingEnv.leaderGroup 6, caches := [] } :=
  (new_epoch_starts_in_stage1 exampleStages workingEnv
    (leaderInStage WorkStage.slotLeaderSelectionStageFinished) exampleKey 6 0 (by decide)
    (by rfl)).1

/-! ## Stage 1 on an epoch leader (C21) -/

/-- One iteration of the stage-1 loop: it goes on exactly when generation and submission
succeed for the index, and it changes only the alpha database and the record of stage-1
transactions. -/
theorem stage1_iteration (env : LoopEnv) (epochID idx : Nat) (s : SlotLeaderSelection) :
    (stage1Succeeds env s.key epochID idx ∧
      ∃ data s1 s2, generateCommitment env s epochID idx = (.ok data, s1) ∧
        sendStage1Tx env s1 data = (none, s2) ∧ stage1Frame s s2) ∨
    (¬ stage1Succeeds env s.key epochID idx ∧
      ((∃ err s1, generateCommitment env s epochID idx = (.error err, s1) ∧ stage1Frame s s1) ∨
        (∃ data s1 err s2, generateCommitment env s epochID idx = (.ok data, s1) ∧
          sendStage1Tx env s1 data = (some err, s2) ∧ stage1Frame s s2))) := by
  have hframe : stage1Frame s s := ⟨rfl, rfl, rfl, rfl, rfl, rfl, rfl, rfl, rfl, rfl⟩
  cases hp : s.key.present with
  | false =>
    have hgen : generateCommitment env s epochID idx = (.error "Invalid input parameters", s) := by
      simp [generateCommitment, hp]
    right
    refine ⟨?_, Or.inl ⟨_, s, hgen, hframe⟩⟩
    rintro ⟨h, _⟩
    rw [hp] at h
    exact absurd h (by simp)
  | true =>
    cases hc : s.key.onCurve with
    | false =>
      have hgen : generateCommitment env s epochID idx = (.error "ErrNotOnCurve", s) := by
        simp [generateCommitment, hp, hc]
      right
      refine ⟨?_, Or.inl ⟨_, s, hgen, hframe⟩⟩
      rintro ⟨_, h, _⟩
      rw [hc] at h
      exact absurd h (by simp)
    | true =>
      cases hr : env.randFieldElement with
      | error err =>
        have hgen : generateCommitment env s epochID idx = (.error err, s) := by
          simp [generateCommitment, hp, hc, hr]
        right
        refine ⟨?_, Or.inl ⟨err, s, hgen, hframe⟩⟩
        rintro ⟨_, _, alpha, _, _, h, _⟩
        rw [hr] at h
        exact absurd h (by simp)
      | ok alpha =>
        cases hg : env.generateCommitment alpha with
        | error err =>
          have hgen : generateCommitment env s epochID idx = (.error err, s) := by
            simp [generateCommitment, hp, hc, hr, hg]
          right
          refine ⟨?_, Or.inl ⟨err, s, hgen, hframe⟩⟩
          rintro ⟨_, _, alpha1, _, _, h1, h2, _⟩
          rw [hr] at h1
          injection h1 with h1
          subst h1
          rw [hg] at h2
          exact absurd h2 (by simp)
        | ok commitment =>
          cases hk : env.rlpPackStage1 epochID idx commitment with
          | mk buffer perr =>
            cases perr with
            | some err =>
              have hgen : generateCommitment env s epochID idx =
                  (.error err, { s with alphaDb := s.alphaDb ++ [(epochID, idx, alpha)] }) := by
                simp [generateCommitment, hp, hc, hr, hg, hk]
              right
              refine ⟨?_, Or.inl ⟨err, _, hgen,
                ⟨rfl, rfl, rfl, rfl, rfl, rfl, rfl, rfl, rfl, rfl⟩⟩⟩
              rintro ⟨_, _, alpha1, c1, b1, h1, h2, h3, _⟩
              rw [hr] at h1
              injection h1 with h1
              subst h1
              rw [hg] at h2
              injection h2 with h2
              subst h2
              rw [hk] at h3
              injection h3 with _ h3
              exact absurd h3 (by simp)
            | none =>
              have hgen : generateCommitment env s epochID idx =
                  (.ok buffer, { s with alphaDb := s.alphaDb ++ [(epochID, idx, alpha)] }) := by
                simp [generateCommitment, hp, hc, hr, hg, hk]
              cases hs : env.sendStage1Tx buffer with
              | some err =>
                have hsend : sendStage1Tx env
                    { s with alphaDb := s.alphaDb ++ [(epochID, idx, alpha)] } buffer =
                    (some err, { s with alphaDb := s.alphaDb ++ [(epochID, idx, alpha)] }) := by
                  simp [sendStage1Tx, hs]
                right
                refine ⟨?_, Or.inr ⟨buffer, _, err, _, hgen, hsend,
                  ⟨rfl, rfl, rfl, rfl, rfl, rfl, rfl, rfl, rfl, rfl⟩⟩⟩
                rintro ⟨_, _, alpha1, c1, b1, h1, h2, h3, h4⟩
                rw [hr] at h1
                injection h1 with h1
                subst h1
                rw [hg] at h2
                injection h2 with h2
                subst h2
                rw [hk] at h3
                injection h3 with h3 _
                subst h3
                rw [hs] at h4
                exact absurd h4 (by simp)
              | none =>
                have hsend : sendStage1Tx env
                    { s with alphaDb := s.alphaDb ++ [(epochID, idx, alpha)] } buffer =
                    (none, { s with alphaDb := s.alphaDb ++ [(epochID, idx, alpha)],
                                    stage1Sent := s.stage1Sent ++ [buffer] }) := by
                  simp [sendStage1Tx, hs]
                left
                exact ⟨⟨hp, hc, alpha, commitment, buffer, hr, hg, hk, hs⟩,
                  buffer, _, _, hgen, hsend,
                  ⟨rfl, rfl, rfl, rfl, rfl, rfl, rfl, rfl, rfl, rfl⟩⟩

/-- The stage-1 loop returns no error exactly when generation and submission succeed for
every index, and it leaves the control state untouched. -/
theorem stage1Loop_spec (env : LoopEnv) (epochID : Nat) :
    ∀ (idxs : List Nat) (s : SlotLeaderSelection),
      stage1Frame s (stage1Loop env epochID idxs s).2 ∧
        ((stage1Loop env epochID idxs s).1 = none ↔
          ∀ idx ∈ idxs, stage1Succeeds env s.key epochID idx) := by
  intro idxs
  induction idxs with
  | nil =>
    intro s
    exact ⟨⟨rfl, rfl, rfl, rfl, rfl, rfl, rfl, rfl, rfl, rfl⟩, by simp [stage1Loop]⟩
  | cons idx rest ih =>
    intro s
    rcases stage1_iteration env epochID idx s with
      ⟨hsucc, data, s1, s2, hgen, hsend, hfr⟩ | ⟨hfail, hcase⟩
    · obtain ⟨hfr2, hiff⟩ := ih s2
      have hkey : s2.key = s.key := hfr.1
      simp only [stage1Loop, hgen, hsend]
      constructor
      · obtain ⟨a1, a2, a3, a4, a5, a6, a7, a8, a9, a10⟩ := hfr
        obtain ⟨b1, b2, b3, b4, b5, b6, b7, b8, b9, b10⟩ := hfr2
        exact ⟨b1.trans a1, b2.trans a2, b3.trans a3, b4.trans a4, b5.trans a5, b6.trans a6,
          b7.trans a7, b8.trans a8, b9.trans a9, b10.trans a10⟩
      · rw [hiff, hkey]
        constructor
        · intro h i hi
          rcases List.mem_cons.mp hi with rfl | hi
          · exact hsucc
          · exact h i hi
        · intro h i hi
          exact h i (List.mem_cons_of_mem _ hi)
    · have hnot : ¬ ∀ i ∈ idx :: rest, stage1Succeeds env s.key epochID i :=
        fun h => hfail (h idx (List.mem_cons_self _ _))
      rcases hcase with ⟨err, s1, hgen, hfr⟩ | ⟨data, s1, err, s2, hgen, hsend, hfr⟩
      · simp only [stage1Loop, hgen]
        exact ⟨hfr, ⟨fun h => absurd h (by simp), fun h => absurd h hnot⟩⟩
      · simp only [stage1Loop, hgen, hsend]
        exact ⟨hfr, ⟨fun h => absurd h (by simp), fun h => absurd h hnot⟩⟩


/-- C21: a `Loop` call made in Stage1 (with an `epochID` not greater than the working epoch
id) on a node whose key owns the leader indices `idxs`. Past half the stage-1 window the
stage becomes Finished and the state is otherwise the one given, so no commitment is
generated or submitted. Within the window, when generation and submission succeed for all
owned indices the stage becomes Stage2 and the error counter is unchanged; when one of them
fails the stage remains Stage1 and the error counter goes up by exactly one. -/
theorem stage1_call_on_leader (cfg : StageConfig) (env : LoopEnv) (s : SlotLeaderSelection)
    (key : LocalKey) (epochID slotID : Nat) (idxs : List Nat)
    (hstage : s.workStage = WorkStage.slotLeaderSelectionStage1)
    (hepoch : epochID ≤ s.workingEpochID)
    (hleader : goMapGet s.epochLeadersMap key.hex = some idxs) :
    (slotID > cfg.Stage1K / 2 →
      Loop cfg env s key epochID slotID =
        .ok { s with key := key, workStage := WorkStage.slotLeaderSelectionStageFinished }) ∧
    (slotID ≤ cfg.Stage1K / 2 →
      (∀ idx ∈ idxs, stage1Succeeds env key s.workingEpochID idx) →
      ∃ s1, Loop cfg env s key epochID slotID = .ok s1 ∧
        s1.workStage = WorkStage.slotLeaderSelectionStage2 ∧
        s1.errorCount = s.errorCount) ∧
    (slotID ≤ cfg.Stage1K / 2 →
      (∃ idx ∈ idxs, ¬ stage1Succeeds env key s.workingEpochID idx) →
      ∃ s1, Loop cfg env s key epochID slotID = .ok s1 ∧
        s1.workStage = WorkStage.slotLeaderSelectionStage1 ∧
        s1.errorCount = s.errorCount + 1) := by
  obtain ⟨k0, w, st, m, c, r, ec, wc, a, s1s, s2s, sm⟩ := s
  simp only at hstage hepoch hleader
  subst hstage
  simp only
  have h1 : ¬ epochID > w := by omega
  obtain ⟨hfr, hiff⟩ := stage1Loop_spec env w idxs
    ⟨key, w, WorkStage.slotLeaderSelectionStage1, m, c, r, ec, wc, a, s1s, s2s, sm⟩
  have hwork : startStage1Work env
      ⟨key, w, WorkStage.slotLeaderSelectionStage1, m, c, r, ec, wc, a, s1s, s2s, sm⟩ =
      stage1Loop env w idxs
        ⟨key, w, WorkStage.slotLeaderSelectionStage1, m, c, r, ec, wc, a, s1s, s2s, sm⟩ := by
    simp only [startStage1Work, hleader, getWorkingEpochID]
  refine ⟨?_, ?_, ?_⟩
  · intro hlate
    simp only [Loop, checkNewEpochStart, getWorkingEpochID, getWorkStage, h1, if_false,
      hlate, if_true, setWorkStage]
  · intro hin hall
    have hin1 : ¬ slotID > cfg.Stage1K / 2 := by omega
    have hnone := hiff.mpr hall
    obtain ⟨_, _, a3, _, _, _, a7, _⟩ := hfr
    generalize hres : stage1Loop env w idxs
      ⟨key, w, WorkStage.slotLeaderSelectionStage1, m, c, r, ec, wc, a, s1s, s2s, sm⟩ = res at *
    obtain ⟨e, s2⟩ := res
    simp only at hnone
    subst hnone
    refine ⟨setWorkStage s2 epochID WorkStage.slotLeaderSelectionStage2, ?_, rfl, a7⟩
    simp only [Loop, checkNewEpochStart, getWorkingEpochID, getWorkStage, h1, if_false,
      hin1, isLocalPkInCurrentEpochLeaders, hleader, Option.isSome_some, Bool.not_true,
      Bool.false_eq_true, hwork]
  · intro hin hsome
    have hin1 : ¬ slotID > cfg.Stage1K / 2 := by omega
    have hne : (stage1Loop env w idxs
        ⟨key, w, WorkStage.slotLeaderSelectionStage1, m, c, r, ec, wc, a, s1s, s2s, sm⟩).1 ≠
        none := by
      intro h
      obtain ⟨idx, hmem, hbad⟩ := hsome
      exact hbad (hiff.mp h idx hmem)
    obtain ⟨_, _, a3, _, _, _, a7, _⟩ := hfr
    generalize hres : stage1Loop env w idxs
      ⟨key, w, WorkStage.slotLeaderSelectionStage1, m, c, r, ec, wc, a, s1s, s2s, sm⟩ = res at *
    obtain ⟨e, s2⟩ := res
    cases e with
    | none => exact absurd rfl hne
    | some err =>
      refine ⟨ErrorCountAdd s2, ?_, ?_, ?_⟩
      · simp only [Loop, checkNewEpochStart, getWorkingEpochID, getWorkStage, h1, if_false,
          hin1, isLocalPkInCurrentEpochLeaders, hleader, Option.isSome_some,
          Bool.not_true, Bool.false_eq_true, hwork]
      · simp only [ErrorCountAdd]
        exact a3
      · simp only [ErrorCountAdd]
        simp only at a7
        rw [a7]

/-- C21 on the leader node of epoch 5 in Stage1, at slot 0 with collaborators that all
succeed: the call ends in Stage2 and leaves the error counter at 0. -/
theorem stage1_call_on_leader_witness :
    ∃ s1, Loop exampleStages workingEnv (leaderInStage WorkStage.slotLeaderSelectionStage1)
        exampleKey 5 0 = .ok s1 ∧
      s1.workStage = WorkStage.slotLeaderSelectionStage2 ∧ s1.errorCount = 0 :=
  (stage1_call_on_leader exampleStages workingEnv
    (leaderInStage WorkStage.slotLeaderSelectionStage1) exampleKey 5 0 [0, 3] (by rfl)
    (by decide) (by rfl)).2.1 (by decide)
    (fun idx _ => ⟨rfl, rfl, 11, [11], 5 :: idx :: [11], rfl, rfl, rfl, rfl⟩)


/-! ## Stage 2 (C22) -/

/-- The stage-2 loop returns no error exactly when every payload is built and accepted, and
it changes only the record of stage-2 transactions. -/
theorem stage2Loop_spec (env : LoopEnv) :
    ∀ (idxs : List Nat) (s : SlotLeaderSelection),
      stage2Frame s (stage2Loop env idxs s).2 ∧
        ((stage2Loop env idxs s).1 = none ↔
          ∀ idx ∈ idxs, stage2Succeeds env s.workingEpochID idx) ∧
        ((stage2Loop env idxs s).1 = none →
          (stage2Loop env idxs s).2.stage2Sent.length = s.stage2Sent.length + idxs.length) := by
  intro idxs
  induction idxs with
  | nil =>
    intro s
    exact ⟨⟨rfl, rfl, rfl, rfl, rfl, rfl, rfl, rfl, rfl, rfl, rfl⟩, by simp [stage2Loop],
      by simp [stage2Loop]⟩
  | cons idx rest ih =>
    intro s
    have hframe : stage2Frame s s := ⟨rfl, rfl, rfl, rfl, rfl, rfl, rfl, rfl, rfl, rfl, rfl⟩
    cases hb : env.buildStage2TxPayload s.workingEpochID idx with
    | error err =>
      have hnot : ¬ ∀ i ∈ idx :: rest, stage2Succeeds env s.workingEpochID i := by
        intro h
        obtain ⟨data, h1, _⟩ := h idx (List.mem_cons_self _ _)
        rw [hb] at h1
        exact absurd h1 (by simp)
      simp only [stage2Loop, getWorkingEpochID, hb]
      exact ⟨hframe, ⟨fun h => absurd h (by simp), fun h => absurd h hnot⟩,
        fun h => absurd h (by simp)⟩
    | ok data =>
      cases hs : env.sendStage2Tx data with
      | some err =>
        have hnot : ¬ ∀ i ∈ idx :: rest, stage2Succeeds env s.workingEpochID i := by
          intro h
          obtain ⟨data1, h1, h2⟩ := h idx (List.mem_cons_self _ _)
          rw [hb] at h1
          injection h1 with h1
          subst h1
          rw [hs] at h2
          exact absurd h2 (by simp)
        simp only [stage2Loop, getWorkingEpochID, hb, sendStage2Tx, hs]
        exact ⟨hframe, ⟨fun h => absurd h (by simp), fun h => absurd h hnot⟩,
          fun h => absurd h (by simp)⟩
      | none =>
        obtain ⟨hfr2, hiff, hlen⟩ := ih { s with stage2Sent := s.stage2Sent ++ [data] }
        simp only [stage2Loop, getWorkingEpochID, hb, sendStage2Tx, hs]
        refine ⟨?_, ?_, ?_⟩
        · obtain ⟨b1, b2, b3, b4, b5, b6, b7, b8, b9, b10, b11⟩ := hfr2
          exact ⟨b1, b2, b3, b4, b5, b6, b7, b8, b9, b10, b11⟩
        · rw [hiff]
          constructor
          · intro h i hi
            rcases List.mem_cons.mp hi with rfl | hi
            · exact ⟨data, hb, hs⟩
            · exact h i hi
          · intro h i hi
            exact h i (List.mem_cons_of_mem _ hi)
        · intro h
          rw [hlen h]
          simp only [List.length_append, List.length_cons, List.length_nil]
          omega


/-- C22: a `Loop` call made in Stage2 (with an `epochID` not greater than the working epoch
id), the windows satisfying `Stage2K + 1 < 2^64` and `Stage2K ≤ Stage4K`. At
`slotID ≤ Stage2K` the call returns the state it was given, so the stage stays Stage2 and
nothing is submitted; at `slotID > Stage4K` the stage becomes Finished and nothing else
changes. In between, the stage-2 payloads of the leader indices `idxs` owned by the key
(none when the key is not an epoch leader) are submitted: when all succeed the stage becomes
Stage3 and one transaction per index has been recorded, and when one fails the stage remains
Stage2 and the error counter goes up by one. -/
theorem stage2_call_by_window (cfg : StageConfig) (env : LoopEnv) (s : SlotLeaderSelection)
    (key : LocalKey) (epochID slotID : Nat) (idxs : List Nat)
    (hstage : s.workStage = WorkStage.slotLeaderSelectionStage2)
    (hepoch : epochID ≤ s.workingEpochID)
    (hK : cfg.Stage2K + 1 < two64) (hwin : cfg.Stage2K ≤ cfg.Stage4K)
    (hleader : (goMapGet s.epochLeadersMap key.hex).getD [] = idxs) :
    (slotID ≤ cfg.Stage2K → Loop cfg env s key epochID slotID = .ok { s with key := key }) ∧
    (slotID > cfg.Stage4K →
      Loop cfg env s key epochID slotID =
        .ok { s with key := key, workStage := WorkStage.slotLeaderSelectionStageFinished }) ∧
    (cfg.Stage2K < slotID → slotID ≤ cfg.Stage4K →
      (∀ idx ∈ idxs, stage2Succeeds env s.workingEpochID idx) →
      ∃ s1, Loop cfg env s key epochID slotID = .ok s1 ∧
        s1.workStage = WorkStage.slotLeaderSelectionStage3 ∧
        s1.stage2Sent.length = s.stage2Sent.length + idxs.length ∧
        s1.errorCount = s.errorCount) ∧
    (cfg.Stage2K < slotID → slotID ≤ cfg.Stage4K →
      (∃ idx ∈ idxs, ¬ stage2Succeeds env s.workingEpochID idx) →
      ∃ s1, Loop cfg env s key epochID slotID = .ok s1 ∧
        s1.workStage = WorkStage.slotLeaderSelectionStage2 ∧
        s1.errorCount = s.errorCount + 1) := by
  obtain ⟨k0, w, st, m, c, r, ec, wc, a, s1s, s2s, sm⟩ := s
  simp only at hstage hepoch hleader
  subst hstage
  simp only
  have h1 : ¬ epochID > w := by omega
  have hadd : u64Add cfg.Stage2K 1 = cfg.Stage2K + 1 := by
    unfold u64Add
    exact Nat.mod_eq_of_lt hK
  obtain ⟨hfr, hiff, hlen⟩ := stage2Loop_spec env idxs
    ⟨key, w, WorkStage.slotLeaderSelectionStage2, m, c, r, ec, wc, a, s1s, s2s, sm⟩
  have hwork : startStage2Work env
      ⟨key, w, WorkStage.slotLeaderSelectionStage2, m, c, r, ec, wc, a, s1s, s2s, sm⟩ =
      stage2Loop env idxs
        ⟨key, w, WorkStage.slotLeaderSelectionStage2, m, c, r, ec, wc, a, s1s, s2s, sm⟩ := by
    subst hleader
    cases hget : goMapGet m key.hex with
    | none => simp only [startStage2Work, hget, Option.getD_none, stage2Loop]
    | some l => simp only [startStage2Work, hget, Option.getD_some]
  refine ⟨?_, ?_, ?_, ?_⟩
  · intro hidle
    have h2 : slotID < cfg.Stage2K + 1 := by omega
    simp only [Loop, checkNewEpochStart, getWorkingEpochID, getWorkStage, h1, if_false, hadd,
      h2, if_true]
  · intro hlate
    have h2 : ¬ slotID < cfg.Stage2K + 1 := by omega
    simp only [Loop, checkNewEpochStart, getWorkingEpochID, getWorkStage, h1, if_false, hadd,
      h2, hlate, if_true, setWorkStage]
  · intro hlo hhi hall
    have h2 : ¬ slotID < cfg.Stage2K + 1 := by omega
    have h3 : ¬ slotID > cfg.Stage4K := by omega
    have hnone := hiff.mpr hall
    have hlen1 := hlen hnone
    obtain ⟨_, _, a3, _, _, _, a7, _⟩ := hfr
    generalize hres : stage2Loop env idxs
      ⟨key, w, WorkStage.slotLeaderSelectionStage2, m, c, r, ec, wc, a, s1s, s2s, sm⟩ = res at *
    obtain ⟨e, s2⟩ := res
    simp only at hnone
    subst hnone
    refine ⟨setWorkStage s2 epochID WorkStage.slotLeaderSelectionStage3, ?_, rfl, hlen1, a7⟩
    simp only [Loop, checkNewEpochStart, getWorkingEpochID, getWorkStage, h1, if_false, hadd,
      h2, h3, hwork]
  · intro hlo hhi hsome
    have h2 : ¬ slotID < cfg.Stage2K + 1 := by omega
    have h3 : ¬ slotID > cfg.Stage4K := by omega
    have hne : (stage2Loop env idxs
        ⟨key, w, WorkStage.slotLeaderSelectionStage2, m, c, r, ec, wc, a, s1s, s2s, sm⟩).1 ≠
        none := by
      intro h
      obtain ⟨idx, hmem, hbad⟩ := hsome
      exact hbad (hiff.mp h idx hmem)
    obtain ⟨_, _, a3, _, _, _, a7, _⟩ := hfr
    generalize hres : stage2Loop env idxs
      ⟨key, w, WorkStage.slotLeaderSelectionStage2, m, c, r, ec, wc, a, s1s, s2s, sm⟩ = res at *
    obtain ⟨e, s2⟩ := res
    cases e with
    | none => exact absurd rfl hne
    | some err =>
      refine ⟨ErrorCountAdd s2, ?_, ?_, ?_⟩
      · simp only [Loop, checkNewEpochStart, getWorkingEpochID, getWorkStage, h1, if_false,
          hadd, h2, h3, hwork]
      · simp only [ErrorCountAdd]
        exact a3
      · simp only [ErrorCountAdd]
        simp only at a7
        rw [a7]

/-- C22 on the leader node of epoch 5 in Stage2 with the windows 20 and 30: at slot 25, with
collaborators that all succeed, the call ends in Stage3 with the two payloads recorded. -/
theorem stage2_call_by_window_witness :
    ∃ s1, Loop exampleStages workingEnv (leaderInStage WorkStage.slotLeaderSelectionStage2)
        exampleKey 5 25 = .ok s1 ∧
      s1.workStage = WorkStage.slotLeaderSelectionStage3 ∧
      s1.stage2Sent.length = 0 + 2 ∧ s1.errorCount = 0 :=
  (stage2_call_by_window exampleStages workingEnv
    (leaderInStage WorkStage.slotLeaderSelectionStage2) exampleKey 5 25 [0, 3] (by rfl)
    (by decide) (by decide) (by decide) (by rfl)).2.2.1 (by decide) (by decide)
    (fun idx _ => ⟨[5, idx], rfl, rfl⟩)


/-! ## The lock test of the partners (C26) -/

/-- The client loop keeps the first entry of `infors`. -/
theorem clientLoop_head (epochID : Nat) :
    ∀ (l : List ClientInfo) (infors : List ClientProbability) (total : Int),
      infors ≠ [] → (clientLoop epochID l (infors, total)).1.head? = infors.head? := by
  intro l
  induction l with
  | nil => intro infors total _; simp [clientLoop]
  | cons c l ih =>
    intro infors total hne
    cases hc : clientCounted epochID c with
    | true =>
      simp only [clientLoop, hc, if_true]
      rw [ih _ _ (by simp), List.head?_append_of_ne_nil _ hne]
    | false =>
      simp only [clientLoop, hc, Bool.false_eq_true, if_false]
      exact ih _ _ hne

/-- C26, the test wraps: with `stakingEpoch = 0` and `lockEpochs = 0` the unsigned
`stakingEpoch + lockEpochs - 1` is `2^64 - 1`, so at epoch 5 the partner's amount 7 and stake
weight 9 are in the totals although `5 < 0 + 0 - 1` is false on integers; with
`stakingEpoch = 2^64 - 1` and `lockEpochs = 3` the unsigned sum wraps to 2, so at epoch 5 the
partner is left out although `5 < 2^64 - 1 + 3 - 1` is true on integers. -/
theorem partner_test_wraps :
    (partnerCounted 5 (partnerLocked 0 0) = true ∧
      ¬ ((5 : Int) < ((partnerLocked 0 0).StakingEpoch : Int) +
          ((partnerLocked 0 0).LockEpochs : Int) - 1) ∧
      totalAmount (stakerWithPartner (partnerLocked 0 0)) 5 = 20 + 7 ∧
      totalPartnerProbability (stakerWithPartner (partnerLocked 0 0)) 5 = 20 + 9 ∧
      CalEpochProbabilityStaker exampleVm (stakerWithPartner (partnerLocked 0 0)) 5 =
        .ok ([⟨1, 29⟩], 29)) ∧
    (partnerCounted 5 (partnerLocked 18446744073709551615 3) = false ∧
      (5 : Int) < ((partnerLocked 18446744073709551615 3).StakingEpoch : Int) +
          ((partnerLocked 18446744073709551615 3).LockEpochs : Int) - 1 ∧
      totalAmount (stakerWithPartner (partnerLocked 18446744073709551615 3)) 5 = 20 ∧
      totalPartnerProbability (stakerWithPartner (partnerLocked 18446744073709551615 3)) 5 =
        20 ∧
      CalEpochProbabilityStaker exampleVm
          (stakerWithPartner (partnerLocked 18446744073709551615 3)) 5 =
        .ok ([⟨1, 20⟩], 20)) := by
  refine ⟨⟨by decide, by decide, by decide, by decide, by rfl⟩,
    ⟨by decide, by decide, by decide, by decide, by rfl⟩⟩

/-- C26, amended: `CalEpochProbabilityStaker` adds a partner's amount to `totalAmount` and
its stake weight to the baseline (the probability of the staker's own entry of `infors`)
exactly when `epochId < stakingEpoch + lockEpochs - 1` holds in unsigned 64-bit arithmetic,
the sum and the decrement both wrapping. For a partner with
`1 ≤ stakingEpoch + lockEpochs < 2^64` that is the statement
`epochId < stakingEpoch + lockEpochs - 1` on integers, i.e. `epochId + 1 <
stakingEpoch + lockEpochs`. -/
theorem partner_counted_by_unsigned_test (vmp : VmParams) (staker : StakerInfo)
    (epochID : Nat) :
    totalAmount staker epochID =
        staker.Amount +
          ((staker.Partners.filter (partnerCounted epochID)).map PartnerInfo.Amount).sum ∧
      totalPartnerProbability staker epochID =
        staker.StakeAmount +
          ((staker.Partners.filter (partnerCounted epochID)).map PartnerInfo.StakeAmount).sum ∧
      (∀ infors total, CalEpochProbabilityStaker vmp staker epochID = .ok (infors, total) →
        infors.head? = some ⟨staker.Address, staker.StakeAmount +
          ((staker.Partners.filter (partnerCounted epochID)).map
            PartnerInfo.StakeAmount).sum⟩) ∧
      (∀ p : PartnerInfo, partnerCounted epochID p = true ↔
        epochID < ((p.StakingEpoch + p.LockEpochs) % two64 % two64 + two64 - 1) % two64) ∧
      (∀ p : PartnerInfo, 1 ≤ p.StakingEpoch + p.LockEpochs →
        p.StakingEpoch + p.LockEpochs < two64 →
        ((partnerCounted epochID p = true ↔
            (epochID : Int) < (p.StakingEpoch : Int) + (p.LockEpochs : Int) - 1) ∧
          (partnerCounted epochID p = true ↔
            epochID + 1 < p.StakingEpoch + p.LockEpochs))) := by
  have hbase : totalPartnerProbability staker epochID =
      staker.StakeAmount +
        ((staker.Partners.filter (partnerCounted epochID)).map PartnerInfo.StakeAmount).sum := by
    unfold totalPartnerProbability
    exact foldl_cond_add (partnerCounted epochID) PartnerInfo.StakeAmount _ _
  refine ⟨?_, hbase, ?_, ?_, ?_⟩
  · unfold totalAmount
    exact foldl_cond_add (partnerCounted epochID) PartnerInfo.Amount _ _
  · intro infors total h
    rw [← hbase]
    unfold CalEpochProbabilityStaker at h
    split at h
    · exact absurd h (by simp)
    · split at h
      · exact absurd h (by simp)
      · have hhead := clientLoop_head epochID staker.Clients
          [⟨staker.Address, totalPartnerProbability staker epochID⟩]
          (totalPartnerProbability staker epochID) (by simp)
        simp only at h
        split at h
        · injection h with h
          injection h with h1 _
          rw [← h1, hhead]
          rfl
        · injection h with h
          injection h with h1 _
          rw [← h1, hhead]
          rfl
  · intro p
    simp only [partnerCounted, u64Pred, u64Add, decide_eq_true_eq]
  · intro p h1 h2
    simp only [partnerCounted, u64Pred, u64Add, decide_eq_true_eq]
    unfold two64 at h2 ⊢
    constructor
    · constructor
      · intro h; omega
      · intro h; omega
    · constructor
      · intro h; omega
      · intro h; omega

/-- C26, amended, at `cappedStaker` and epoch 5: the partner of weight 5 is counted and the
lapsed partner of weight 1000 is not, so the baseline is 15. -/
theorem partner_counted_by_unsigned_test_witness :
    totalPartnerProbability cappedStaker 5 =
      cappedStaker.StakeAmount +
        ((cappedStaker.Partners.filter (partnerCounted 5)).map PartnerInfo.StakeAmount).sum ∧
      totalPartnerProbability cappedStaker 5 = 15 :=
  ⟨(partner_counted_by_unsigned_test exampleVm cappedStaker 5).2.1, by decide⟩


/-! ## The retry budget across epochs (C27) -/

/-- C27, failing run: from the start-up state with the retry budget 3, epoch 5 goes through
Init, Stage1 and Stage2 into Stage3, where the security message fails once at slot 40 and
the budget drops to 2; the first call of epoch 6 then leaves Stage3 through
`checkNewEpochStart` without resetting the budget, so the node is in Stage1 of epoch 6 with
the budget 2, and two calls later it enters Stage3 of epoch 6 with the budget 2. -/
theorem retry_budget_survives_new_epoch :
    freshNode.errorRetry = 3 ∧
      (∃ s, runLoop exampleStages exampleKey (interruptedEpoch.take 4) freshNode = .ok s ∧
        s.workStage = WorkStage.slotLeaderSelectionStage3 ∧ s.workingEpochID = 5 ∧
        s.errorRetry = 2) ∧
      (∃ s, runLoop exampleStages exampleKey interruptedEpoch freshNode = .ok s ∧
        s.workStage = WorkStage.slotLeaderSelectionStage1 ∧ s.workingEpochID = 6 ∧
        s.errorRetry = 2) ∧
      (∃ s, runLoop exampleStages exampleKey
          (interruptedEpoch ++ [(workingEnv, 6, 1), (workingEnv, 6, 25)]) freshNode = .ok s ∧
        s.workStage = WorkStage.slotLeaderSelectionStage3 ∧ s.workingEpochID = 6 ∧
        s.errorRetry = 2) :=
  ⟨rfl, ⟨_, rfl, rfl, rfl, rfl⟩, ⟨_, rfl, rfl, rfl, rfl⟩, ⟨_, rfl, rfl, rfl, rfl⟩⟩


/-! ## Stake-proportional selection (C29) -/

/-- Sums of longer prefixes of non-negative weights are larger. -/
theorem take_sum_mono :
    ∀ (w : List Int), (∀ x ∈ w, 0 ≤ x) → ∀ a b : Nat, a ≤ b →
      (w.take a).sum ≤ (w.take b).sum := by
  intro w
  induction w with
  | nil => intro _ a b _; simp
  | cons x w ih =>
    intro hnn a b hab
    have hw : ∀ y ∈ w, 0 ≤ y := fun y hy => hnn y (List.mem_cons_of_mem _ hy)
    cases a with
    | zero =>
      simp only [List.take_zero, List.sum_nil]
      apply List.sum_nonneg
      intro y hy
      exact hnn y (List.mem_of_mem_take hy)
    | succ a =>
      cases b with
      | zero => omega
      | succ b =>
        simp only [List.take_succ_cons, List.sum_cons]
        have := ih hw a b (by omega)
        omega

/-- The cumulative weight grows along the table. -/
theorem cumulativeBefore_mono (l : ProposerSorter) (hnn : ∀ p ∈ l, 0 ≤ p.Probabilities)
    (a b : Nat) (hab : a ≤ b) : cumulativeBefore l a ≤ cumulativeBefore l b := by
  unfold cumulativeBefore
  apply take_sum_mono _ _ a b hab
  intro x hx
  rw [List.mem_map] at hx
  obtain ⟨p, hp, rfl⟩ := hx
  exact hnn p hp

/-- The cumulative weight after entry `i` adds the individual weight of entry `i`. -/
theorem cumulativeBefore_succ (l : ProposerSorter) (i : Nat) (p : Proposer)
    (hp : l[i]? = some p) :
    cumulativeBefore l (i + 1) = cumulativeBefore l i + p.Probabilities := by
  unfold cumulativeBefore
  rw [List.take_succ, List.getElem?_map, hp]
  simp

/-- Entry `i` of the prefix-summed table holds the cumulative weight after entry `i`. -/
theorem prefixSum_cumulative (l : ProposerSorter) (i : Nat) (q : Proposer)
    (hq : (prefixSum l)[i]? = some q) : q.Probabilities = cumulativeBefore l (i + 1) := by
  rw [prefixSum_getElem?] at hq
  cases hl : l[i]? with
  | none => rw [hl] at hq; exact absurd hq (by simp)
  | some p =>
    rw [hl] at hq
    simp only [Option.map_some', Option.some.injEq] at hq
    rw [← hq]
    simp only [cumulativeBefore, List.map_take]

/-- The total weight of the prefix-summed table is the cumulative weight after the last
entry. -/
theorem total_cumulative (l : ProposerSorter) :
    totalProbabilityOf (prefixSum l) = cumulativeBefore l l.length := by
  rw [prefixSum_total]
  unfold cumulativeBefore
  rw [← List.length_map l Proposer.Probabilities, List.take_length]

/-- On a table built from non-negative weights, the draw of a target of `[0, T)` selects
entry `i` exactly when the target lies between the cumulative weights before and after
entry `i`. -/
theorem drawIdx_prefixSum_iff (l : ProposerSorter) (hnn : ∀ p ∈ l, 0 ≤ p.Probabilities)
    (t : Int) (ht0 : 0 ≤ t) (ht : t < totalProbabilityOf (prefixSum l)) (i : Nat)
    (hi : i < l.length) :
    drawIdx (prefixSum l) t = i ↔
      cumulativeBefore l i ≤ t ∧ t < cumulativeBefore l (i + 1) := by
  have hne : prefixSum l ≠ [] := by
    intro h
    have := prefixSum_length l
    rw [h] at this
    simp only [List.length_nil] at this
    omega
  have hsorted := prefixSum_sorted l hnn
  obtain ⟨q, hq, htq⟩ := drawIdx_hit (prefixSum l) t hne ht
  have hq1 := prefixSum_cumulative l _ q hq
  have hleast := drawIdx_least (prefixSum l) t hsorted
  have hlen := prefixSum_length l
  constructor
  · intro hd
    rw [hd] at hq1
    refine ⟨?_, by omega⟩
    cases i with
    | zero => simpa [cumulativeBefore] using ht0
    | succ j =>
      have hj : j < (prefixSum l).length := by omega
      have h1 := hleast j (prefixSum l)[j] (by omega) (List.getElem?_eq_getElem hj)
      have h2 := prefixSum_cumulative l j _ (List.getElem?_eq_getElem hj)
      omega
  · rintro ⟨hlo, hhi⟩
    rcases Nat.lt_trichotomy (drawIdx (prefixSum l) t) i with hlt | heq | hgt
    · have := cumulativeBefore_mono l hnn (drawIdx (prefixSum l) t + 1) i (by omega)
      omega
    · exact heq
    · have hi1 : i < (prefixSum l).length := by omega
      have h1 := hleast i (prefixSum l)[i] hgt (List.getElem?_eq_getElem hi1)
      have h2 := prefixSum_cumulative l i _ (List.getElem?_eq_getElem hi1)
      omega

/-- C29: on the table built by prefix-summing non-negative individual weights with total
`T`, for every entry `i` of individual weight `w_i` the number of targets `t` of `[0, T)`
for which the draw selects entry `i` is exactly `w_i`: the targets selecting `i` are those
from the cumulative weight before `i` up to the one after `i`. In particular an entry of
individual weight zero is selected by no target. (With a positive total there are targets;
with the total 0 the range `[0, T)` is empty and every count is 0.) -/
theorem selection_is_stake_proportional (l : ProposerSorter)
    (hnn : ∀ p ∈ l, 0 ≤ p.Probabilities) (i : Nat) (p : Proposer) (hp : l[i]? = some p) :
    targetsSelecting l i =
        Finset.Ico (cumulativeBefore l i) (cumulativeBefore l i + p.Probabilities) ∧
      ((targetsSelecting l i).card : Int) = p.Probabilities ∧
      (p.Probabilities = 0 → ∀ t : Int, 0 ≤ t → t < totalProbabilityOf (prefixSum l) →
        drawIdx (prefixSum l) t ≠ i) := by
  have hi : i < l.length := by
    by_contra hcon
    rw [List.getElem?_eq_none (by omega)] at hp
    exact absurd hp (by simp)
  have hsucc := cumulativeBefore_succ l i p hp
  have hp0 : 0 ≤ p.Probabilities := hnn p (List.mem_iff_getElem?.mpr ⟨i, hp⟩)
  have hlo : 0 ≤ cumulativeBefore l i := by
    have := cumulativeBefore_mono l hnn 0 i (Nat.zero_le _)
    simpa [cumulativeBefore] using this
  have hhi : cumulativeBefore l (i + 1) ≤ totalProbabilityOf (prefixSum l) := by
    rw [total_cumulative]
    exact cumulativeBefore_mono l hnn (i + 1) l.length (by omega)
  have hset : targetsSelecting l i =
      Finset.Ico (cumulativeBefore l i) (cumulativeBefore l i + p.Probabilities) := by
    ext t
    simp only [targetsSelecting, Finset.mem_filter, Finset.mem_Ico]
    constructor
    · rintro ⟨⟨h0, hT⟩, hd⟩
      have := (drawIdx_prefixSum_iff l hnn t h0 hT i hi).mp hd
      omega
    · rintro ⟨h1, h2⟩
      have h0 : 0 ≤ t := by omega
      have hT : t < totalProbabilityOf (prefixSum l) := by omega
      exact ⟨⟨h0, hT⟩, (drawIdx_prefixSum_iff l hnn t h0 hT i hi).mpr ⟨h1, by omega⟩⟩
  refine ⟨hset, ?_, ?_⟩
  · rw [hset, Int.card_Ico]
    have : cumulativeBefore l i + p.Probabilities - cumulativeBefore l i = p.Probabilities := by
      omega
    rw [this, Int.toNat_of_nonneg hp0]
  · intro hz t h0 hT hd
    have := (drawIdx_prefixSum_iff l hnn t h0 hT i hi).mp hd
    omega

/-- C29 on the individual weights 10, 20, 70 (the table A=10, B=30, C=100): entry 1 is
selected by the 20 targets 10..29. -/
theorem selection_is_stake_proportional_witness :
    targetsSelecting [⟨[65], [], 10⟩, ⟨[66], [], 20⟩, ⟨[67], [], 70⟩] 1 = Finset.Ico 10 30 ∧
      ((targetsSelecting [⟨[65], [], 10⟩, ⟨[66], [], 20⟩, ⟨[67], [], 70⟩] 1).card : Int) = 20 :=
  ⟨(selection_is_stake_proportional [⟨[65], [], 10⟩, ⟨[66], [], 20⟩, ⟨[67], [], 70⟩]
      (by decide) 1 ⟨[66], [], 20⟩ (by rfl)).1,
    (selection_is_stake_proportional [⟨[65], [], 10⟩, ⟨[66], [], 20⟩, ⟨[67], [], 70⟩]
      (by decide) 1 ⟨[66], [], 20⟩ (by rfl)).2.1⟩


/-! ## The frontier bucket and the reads of `Maxvalid` (C28) -/

/-- The conversion to `int64` gives a signed 64-bit value. -/
theorem toInt64_range (x : Nat) : -(two63 : Int) ≤ toInt64 x ∧ toInt64 x < (two63 : Int) := by
  unfold toInt64 two63 two64
  have h : x % 18446744073709551616 < 18446744073709551616 := Nat.mod_lt _ (by decide)
  split_ifs with h1 <;> constructor <;> omega

/-- A positive `int64` conversion of a `uint64` is the value itself, below `2^63`. -/
theorem toInt64_pos (x : Nat) (hx : x < two64) (hpos : 0 < toInt64 x) :
    toInt64 x = (x : Int) ∧ x < two63 := by
  unfold toInt64 two63 two64 at *
  have h : x % 18446744073709551616 = x := Nat.mod_eq_of_lt hx
  rw [h] at hpos ⊢
  split_ifs at hpos ⊢ with h1
  · exact ⟨rfl, h1⟩
  · omega

/-- A signed 64-bit subtraction of a non-zero 64-bit value changes the minuend. -/
theorem wrapInt64_sub_ne (m k : Int) (hk : k ≠ 0) (hk1 : -(two64 : Int) < k)
    (hk2 : k < (two64 : Int)) : wrapInt64 (m - k) ≠ m := by
  unfold wrapInt64 toInt64
  unfold two64 at hk1 hk2
  unfold two64 two63
  simp only [Nat.cast_ofNat]
  have hnn : 0 ≤ (m - k) % 18446744073709551616 := Int.emod_nonneg _ (by decide)
  have hlt : (m - k) % 18446744073709551616 < 18446744073709551616 :=
    Int.emod_lt_of_pos _ (by decide)
  have hmod : (((m - k) % 18446744073709551616).toNat % 18446744073709551616 : Nat) =
      ((m - k) % 18446744073709551616).toNat := Nat.mod_eq_of_lt (by omega)
  rw [hmod]
  split_ifs with h <;> omega

/-- `Push` of a block whose number fits 64 bits keeps the frontier invariant. -/
theorem FrontierHeld_push (f : ForkMemBlockChain) (b : Block) (hb : b.Number < two64)
    (hinv : FrontierHeld f) : FrontierHeld (PushState f b) := by
  obtain ⟨hlo, hhi, hbucket⟩ := hinv
  have hu : b.NumberU64 = b.Number := by
    unfold Block.NumberU64
    exact Nat.mod_eq_of_lt hb
  have hnew : ∀ g : ForkMemBlockChain, g.curMaxBlkNum = toInt64 b.NumberU64 →
      g.kBufferedChains =
        goMapSet f.kBufferedChains b.Number (bucketAt f (b.Number : Int) ++ [b.Hash]) →
      FrontierHeld g := by
    intro g hcur hch
    refine ⟨?_, ?_, ?_⟩
    · rw [hcur]; exact (toInt64_range _).1
    · rw [hcur]; exact (toInt64_range _).2
    · intro hpos
      rw [hcur] at hpos ⊢
      rw [hu] at hpos ⊢
      obtain ⟨heq, _⟩ := toInt64_pos b.Number hb hpos
      rw [heq, Int.toNat_ofNat, hch, goMapGet_set, if_pos rfl]
      exact ⟨_, rfl, by simp⟩
  have hold : ∀ g : ForkMemBlockChain, g.curMaxBlkNum = f.curMaxBlkNum →
      g.kBufferedChains =
        goMapSet f.kBufferedChains b.Number (bucketAt f (b.Number : Int) ++ [b.Hash]) →
      FrontierHeld g := by
    intro g hcur hch
    refine ⟨by rw [hcur]; exact hlo, by rw [hcur]; exact hhi, ?_⟩
    intro hpos
    rw [hcur] at hpos ⊢
    obtain ⟨hs, hget, hne⟩ := hbucket hpos
    rw [hch, goMapGet_set]
    by_cases hk : f.curMaxBlkNum.toNat = b.Number
    · rw [if_pos hk]
      exact ⟨_, rfl, by simp⟩
    · rw [if_neg hk]
      exact ⟨hs, hget, hne⟩
  by_cases h0 : f.curMaxBlkNum = 0
  · apply hnew
    · simp only [PushState, if_pos h0]
    · rfl
  · by_cases h1 : wrapInt64 (f.curMaxBlkNum + 1) = toInt64 b.NumberU64
    · apply hnew
      · simp only [PushState, if_neg h0, if_pos h1]
      · rfl
    · apply hold
      · simp only [PushState, if_neg h0, if_neg h1]
      · rfl

/-- `PopBack` with `1 ≤ K < 2^64` keeps the frontier invariant: the evicted height is never
`maxHeight`. -/
theorem FrontierHeld_popBack (cfg : PosConfig) (f : ForkMemBlockChain)
    (hK1 : 1 ≤ cfg.SlotCount) (hK2 : cfg.SlotCount < two64) (hinv : FrontierHeld f) :
    FrontierHeld (PopBack cfg f) := by
  unfold PopBack
  split
  · split
    · exact hinv
    · rename_i hneg
      obtain ⟨hlo, hhi, hbucket⟩ := hinv
      refine ⟨hlo, hhi, ?_⟩
      intro hpos
      simp only at hpos ⊢
      obtain ⟨hs, hget, hne⟩ := hbucket hpos
      have hk : toInt64 cfg.SlotCount ≠ 0 ∧ -(two64 : Int) < toInt64 cfg.SlotCount ∧
          toInt64 cfg.SlotCount < (two64 : Int) := by
        have hr := toInt64_range cfg.SlotCount
        refine ⟨?_, ?_, ?_⟩
        · unfold toInt64 two63 two64 at *
          have h : cfg.SlotCount % 18446744073709551616 = cfg.SlotCount :=
            Nat.mod_eq_of_lt hK2
          rw [h]
          split_ifs <;> omega
        · unfold two63 at hr
          unfold two64
          omega
        · unfold two63 at hr
          unfold two64
          omega
      have hne1 : blkNumBeforeK cfg f ≠ f.curMaxBlkNum :=
        wrapInt64_sub_ne f.curMaxBlkNum (toInt64 cfg.SlotCount) hk.1 hk.2.1 hk.2.2
      have hkey : ¬ f.curMaxBlkNum.toNat = (blkNumBeforeK cfg f).toNat := by
        intro hcon
        apply hne1
        omega
      rw [goMapGet_delete, if_neg hkey]
      exact ⟨hs, hget, hne⟩
  · exact hinv

/-- Every sequence of calls keeps the frontier invariant. -/
theorem FrontierHeld_runOps (cfg : PosConfig) (hK1 : 1 ≤ cfg.SlotCount)
    (hK2 : cfg.SlotCount < two64) :
    ∀ (ops : List BufferOp) (f : ForkMemBlockChain),
      (∀ b ∈ pushedBlocks ops, b.Number < two64) → FrontierHeld f →
      FrontierHeld (runOps cfg ops f) := by
  intro ops
  induction ops with
  | nil => intro f _ hinv; exact hinv
  | cons op rest ih =>
    intro f hnum hinv
    cases op with
    | push b =>
      have hb : b.Number < two64 := hnum b (by simp [pushedBlocks])
      have hrest : ∀ b1 ∈ pushedBlocks rest, b1.Number < two64 :=
        fun b1 h1 => hnum b1 (by simp [pushedBlocks, h1])
      exact ih (PushState f b) hrest (FrontierHeld_push f b hb hinv)
    | popBack =>
      have hrest : ∀ b1 ∈ pushedBlocks rest, b1.Number < two64 :=
        fun b1 h1 => hnum b1 (by simpa [pushedBlocks] using h1)
      exact ih (PopBack cfg f) hrest (FrontierHeld_popBack cfg f hK1 hK2 hinv)

/-- The epoch check panics only by a division by zero. -/
theorem epochCheck_fault (cfg : PosConfig) (b : Block) (e : Fault)
    (h : GetBlockEpochIdAndSlotId cfg b = .error e) : e = Fault.divisionByZero := by
  simp only [GetBlockEpochIdAndSlotId] at h
  cases hcal : calEpochSlotIDFromTime cfg (b.Time % two64) with
  | error err =>
    rw [hcal] at h
    simp only at h
    injection h with h
    subst h
    unfold calEpochSlotIDFromTime at hcal
    split at hcal
    · exact absurd hcal (by simp)
    · simp only at hcal
      split at hcal
      · injection hcal with hcal; exact hcal.symm
      · split at hcal
        · injection hcal with hcal; exact hcal.symm
        · split at hcal
          · injection hcal with hcal; exact hcal.symm
          · exact absurd hcal (by simp)
  | ok v =>
    obtain ⟨ce, cs⟩ := v
    rw [hcal] at h
    simp only at h
    split at h <;> exact absurd h (by simp)

/-- When every candidate resolves in the block map, the tie-break loop dereferences no nil
block: it panics only by the division by zero of the epoch check. -/
theorem tieBreakLoop_fault (cfg : PosConfig) (f : ForkMemBlockChain) :
    ∀ (l : List BlockHash) (st : Nat × Option Block) (e : Fault),
      (∀ h ∈ l, ∃ b, goMapGet f.kBufferedBlks h = some b) →
      tieBreakLoop cfg f l st = .error e → e = Fault.divisionByZero := by
  intro l
  induction l with
  | nil =>
    intro st e _ h
    simp only [tieBreakLoop] at h
    exact absurd h (by simp)
  | cons hs rest ih =>
    intro st e hheld h
    obtain ⟨minSid, mid⟩ := st
    obtain ⟨blk, hblk⟩ := hheld hs (List.mem_cons_self _ _)
    have hrest : ∀ h ∈ rest, ∃ b, goMapGet f.kBufferedBlks h = some b :=
      fun h hh => hheld h (List.mem_cons_of_mem _ hh)
    simp only [tieBreakLoop, hblk] at h
    cases hg : GetBlockEpochIdAndSlotId cfg blk with
    | error e1 =>
      rw [hg] at h
      simp only at h
      injection h with h
      subst h
      exact epochCheck_fault cfg blk e1 hg
    | ok r =>
      rw [hg] at h
      cases r with
      | error msg => exact ih _ e hrest h
      | ok v =>
        obtain ⟨ep, sid⟩ := v
        simp only at h
        split at h
        · exact ih _ e hrest h
        · exact ih _ e hrest h

/-- The first parent walk fails only by running out of the iteration bound. -/
theorem reduceLoop_fault (f : ForkMemBlockChain) (workBlkNum : Int) :
    ∀ (fuel : Nat) (mid : Option Block) (chain : List Block) (e : Fault),
      reduceLoop f workBlkNum fuel mid chain = .error e → e = Fault.outOfFuel := by
  intro fuel
  induction fuel with
  | zero =>
    intro mid chain e h
    cases mid with
    | none => simp only [reduceLoop] at h; exact absurd h (by simp)
    | some m =>
      simp only [reduceLoop] at h
      split at h
      · injection h with h; exact h.symm
      · exact absurd h (by simp)
  | succ fuel ih =>
    intro mid chain e h
    cases mid with
    | none => simp only [reduceLoop] at h; exact absurd h (by simp)
    | some m =>
      simp only [reduceLoop] at h
      split at h
      · exact ih _ _ e h
      · exact absurd h (by simp)

/-- The lockstep walk fails only by running out of the iteration bound. -/
theorem commonLoop_fault (f : ForkMemBlockChain) :
    ∀ (fuel : Nat) (mid work : Block) (chain : List Block) (e : Fault),
      commonLoop f fuel mid work chain = .error e → e = Fault.outOfFuel := by
  intro fuel
  induction fuel with
  | zero =>
    intro mid work chain e h
    simp only [commonLoop] at h
    injection h with h
    exact h.symm
  | succ fuel ih =>
    intro mid work chain e h
    simp only [commonLoop] at h
    split at h
    · exact absurd h (by simp)
    · cases hm : goMapGet f.kBufferedBlks mid.ParentHash with
      | none => rw [hm] at h; exact absurd h (by simp)
      | some mid1 =>
        rw [hm] at h
        simp only at h
        cases hw : goMapGet f.kBufferedBlks work.ParentHash with
        | none => rw [hw] at h; exact absurd h (by simp)
        | some work1 =>
          rw [hw] at h
          exact ih _ _ _ e h

/-- When the bucket at `maxHeight` is non-empty and its hashes resolve, `Maxvalid` on a tip
below the frontier reads the first candidate and dereferences every candidate without
panic: the only faults left are the division by zero of the epoch check and the bound on
the walks. -/
theorem Maxvalid_fault (cfg : PosConfig) (fuel : Nat) (f : ForkMemBlockChain) (work : Block)
    (e : Fault)
    (hbucket : toInt64 work.NumberU64 < f.curMaxBlkNum →
      bucketAt f f.curMaxBlkNum ≠ [] ∧
        ∀ h ∈ bucketAt f f.curMaxBlkNum, ∃ b, goMapGet f.kBufferedBlks h = some b)
    (h : Maxvalid cfg fuel f (some work) = .error e) :
    e = Fault.divisionByZero ∨ e = Fault.outOfFuel := by
  by_cases hge : toInt64 work.NumberU64 ≥ f.curMaxBlkNum
  · simp only [Maxvalid, if_pos hge] at h
    exact absurd h (by simp)
  · obtain ⟨hne, hres⟩ := hbucket (by omega)
    simp only [Maxvalid, if_neg hge] at h
    cases hb : bucketAt f f.curMaxBlkNum with
    | nil => exact absurd hb hne
    | cons h0 rest =>
      rw [hb] at h hres
      simp only at h
      have hwalks : ∀ midSidBlk : Option Block,
          (match reduceLoop f (toInt64 work.NumberU64) fuel midSidBlk [] with
            | .error e => .error e
            | .ok (none, chain) => .ok (sortBlocks chain, none)
            | .ok (some mid, chain) =>
              if mid.Hash ≠ work.Hash then
                match commonLoop f fuel mid work chain with
                | .error e => .error e
                | .ok (.error err) => .ok ([], some err)
                | .ok (.ok chain1) => .ok (sortBlocks chain1, none)
              else .ok (sortBlocks chain, none)) = (.error e : Except Fault (List Block × GoError)) →
          e = Fault.outOfFuel := by
        intro midSidBlk hw
        cases hr : reduceLoop f (toInt64 work.NumberU64) fuel midSidBlk [] with
        | error e1 =>
          rw [hr] at hw
          simp only at hw
          injection hw with hw
          subst hw
          exact reduceLoop_fault f _ fuel midSidBlk [] e1 hr
        | ok v =>
          rw [hr] at hw
          obtain ⟨m, chain⟩ := v
          cases m with
          | none => simp only at hw; exact absurd hw (by simp)
          | some mid =>
            simp only at hw
            split at hw
            · cases hc : commonLoop f fuel mid work chain with
              | error e1 =>
                rw [hc] at hw
                simp only at hw
                injection hw with hw
                subst hw
                exact commonLoop_fault f fuel mid work chain e1 hc
              | ok r =>
                rw [hc] at hw
                cases r with
                | error msg => simp only at hw; exact absurd hw (by simp)
                | ok c1 => simp only at hw; exact absurd hw (by simp)
            · exact absurd hw (by simp)
      by_cases hlen : (h0 :: rest).length > 1
      · simp only [if_pos hlen] at h
        cases ht : tieBreakLoop cfg f (h0 :: rest) (two64 - 1, goMapGet f.kBufferedBlks h0) with
        | error e1 =>
          rw [ht] at h
          simp only at h
          injection h with h
          subst h
          exact Or.inl (tieBreakLoop_fault cfg f _ _ e1 hres ht)
        | ok v =>
          rw [ht] at h
          obtain ⟨m, midSidBlk⟩ := v
          exact Or.inr (hwalks midSidBlk h)
      · simp only [if_neg hlen] at h
        exact Or.inr (hwalks _ h)


/-- What holds of the frontier bucket inside the range of 64-bit block numbers: in every
buffer reached from the new buffer by a sequence of `Push` and `PopBack` calls with
`1 ≤ K = SlotCount < 2^64`, the pushed blocks having numbers that fit 64 bits and hashes
that identify the height, a positive `maxHeight` has a non-empty bucket each of whose hashes
resolves in the block map to a block of that height. On such a buffer `Maxvalid`, for every
working tip when `maxHeight` is positive and for every working tip of height below `2^63`
otherwise, reads the first candidate at `maxHeight` and dereferences each candidate without
panic: the only faults it can raise are the division by zero of the epoch computation and
the bound that the embedding puts on the parent walks. -/
theorem frontier_bucket_resolves (cfg : PosConfig) (ctype : Nat) (ops : List BufferOp)
    (hK1 : 1 ≤ cfg.SlotCount) (hK2 : cfg.SlotCount < two64)
    (hnum : ∀ b ∈ pushedBlocks ops, b.Number < two64)
    (hhash : ∀ b1 ∈ pushedBlocks ops, ∀ b2 ∈ pushedBlocks ops,
      b1.Hash = b2.Hash → b1.Number = b2.Number) :
    (0 < (runOps cfg ops (NewForkMemBlockChain ctype)).curMaxBlkNum →
      bucketAt (runOps cfg ops (NewForkMemBlockChain ctype))
          (runOps cfg ops (NewForkMemBlockChain ctype)).curMaxBlkNum ≠ [] ∧
        ∀ h ∈ bucketAt (runOps cfg ops (NewForkMemBlockChain ctype))
            (runOps cfg ops (NewForkMemBlockChain ctype)).curMaxBlkNum,
          ∃ b, goMapGet (runOps cfg ops (NewForkMemBlockChain ctype)).kBufferedBlks h =
              some b ∧
            (b.Number : Int) = (runOps cfg ops (NewForkMemBlockChain ctype)).curMaxBlkNum) ∧
    (∀ (fuel : Nat) (work : Block) (e : Fault),
      (0 < (runOps cfg ops (NewForkMemBlockChain ctype)).curMaxBlkNum ∨
        work.NumberU64 < two63) →
      Maxvalid cfg fuel (runOps cfg ops (NewForkMemBlockChain ctype)) (some work) = .error e →
      e = Fault.divisionByZero ∨ e = Fault.outOfFuel) := by
  have hinit1 : FrontierHeld (NewForkMemBlockChain ctype) := by
    refine ⟨?_, ?_, ?_⟩
    · simp only [NewForkMemBlockChain]; unfold two63; omega
    · simp only [NewForkMemBlockChain]; unfold two63; omega
    · intro hpos
      simp only [NewForkMemBlockChain] at hpos
      omega
  have hinit2 : IndexResolves (fun b => b ∈ pushedBlocks ops) (NewForkMemBlockChain ctype) := by
    intro key hs h hget _
    simp [NewForkMemBlockChain, goMapGet] at hget
  have hfr := FrontierHeld_runOps cfg hK1 hK2 ops (NewForkMemBlockChain ctype) hnum hinit1
  have hidx := IndexResolves_runOps (fun b => b ∈ pushedBlocks ops) cfg
    (fun b1 b2 h1 h2 he => hhash b1 h1 b2 h2 he) ops (NewForkMemBlockChain ctype)
    (fun b hb => hb) hinit2
  generalize runOps cfg ops (NewForkMemBlockChain ctype) = F at hfr hidx ⊢
  obtain ⟨_, _, hbucket⟩ := hfr
  have hfirst : 0 < F.curMaxBlkNum →
      bucketAt F F.curMaxBlkNum ≠ [] ∧
        ∀ h ∈ bucketAt F F.curMaxBlkNum,
          ∃ b, goMapGet F.kBufferedBlks h = some b ∧ (b.Number : Int) = F.curMaxBlkNum := by
    intro hpos
    obtain ⟨hs, hget, hne⟩ := hbucket hpos
    have hnot : ¬ F.curMaxBlkNum < 0 := by omega
    have hb : bucketAt F F.curMaxBlkNum = hs := by
      simp only [bucketAt, if_neg hnot, hget]
    rw [hb]
    refine ⟨hne, ?_⟩
    intro h hmem
    obtain ⟨b, hb1, hnumb, _, _⟩ := hidx F.curMaxBlkNum.toNat hs h hget hmem
    refine ⟨b, hb1, ?_⟩
    rw [hnumb]
    exact Int.toNat_of_nonneg (by omega)
  refine ⟨hfirst, ?_⟩
  intro fuel work e hcase hrun
  apply Maxvalid_fault cfg fuel F work e _ hrun
  intro hlt
  have hpos : 0 < F.curMaxBlkNum := by
    rcases hcase with hpos | hw
    · exact hpos
    · have h1 := toInt64_of_lt work.NumberU64 hw
      omega
  obtain ⟨hne, hres⟩ := hfirst hpos
  exact ⟨hne, fun h hmem => (hres h hmem).imp (fun b hb => hb.1)⟩

/-- The frontier bucket after `exampleOps` with `K = 2`: `maxHeight` is 4, its bucket is
non-empty, and its hash 104 resolves to a block of height 4. -/
theorem frontier_bucket_resolves_witness :
    (runOps exampleCfg exampleOps (NewForkMemBlockChain 0)).curMaxBlkNum = 4 ∧
      bucketAt (runOps exampleCfg exampleOps (NewForkMemBlockChain 0)) 4 = [104] ∧
      (bucketAt (runOps exampleCfg exampleOps (NewForkMemBlockChain 0))
          (runOps exampleCfg exampleOps (NewForkMemBlockChain 0)).curMaxBlkNum ≠ [] ∧
        ∀ h ∈ bucketAt (runOps exampleCfg exampleOps (NewForkMemBlockChain 0))
            (runOps exampleCfg exampleOps (NewForkMemBlockChain 0)).curMaxBlkNum,
          ∃ b, goMapGet (runOps exampleCfg exampleOps (NewForkMemBlockChain 0)).kBufferedBlks
              h = some b ∧
            (b.Number : Int) =
              (runOps exampleCfg exampleOps (NewForkMemBlockChain 0)).curMaxBlkNum) :=
  ⟨by rfl, by rfl,
    (frontier_bucket_resolves exampleCfg 0 exampleOps (by decide) (by decide) (by decide)
      (by decide)).1 (by decide)⟩


/-- C28, failing input: the new buffer is reached by the empty sequence of calls and has
`maxHeight` 0 and no bucket. A working tip of number `2^63` converts to the height `-2^63`,
which is below `maxHeight`, so `Maxvalid` does not take the early return that its comment
promises for a tip in or above the highest buffered block; it reads the bucket at height 0,
which is empty, and the read of the first candidate `hashs[0]` panics with an index out of
range, for every bound on the walks and with `K = SlotCount = 2`. -/
theorem maxvalid_panics_on_new_buffer :
    1 ≤ exampleCfg.SlotCount ∧
      runOps exampleCfg [] (NewForkMemBlockChain 0) = NewForkMemBlockChain 0 ∧
      (NewForkMemBlockChain 0).curMaxBlkNum = 0 ∧
      tallTip.NumberU64 = 9223372036854775808 ∧
      toInt64 tallTip.NumberU64 = -9223372036854775808 ∧
      ¬ (toInt64 tallTip.NumberU64 ≥ (NewForkMemBlockChain 0).curMaxBlkNum) ∧
      bucketAt (NewForkMemBlockChain 0) (NewForkMemBlockChain 0).curMaxBlkNum = [] ∧
      ∀ fuel : Nat,
        Maxvalid exampleCfg fuel (runOps exampleCfg [] (NewForkMemBlockChain 0))
          (some tallTip) = .error Fault.indexOutOfRange := by
  refine ⟨by decide, rfl, rfl, by decide, by decide, by decide, rfl, ?_⟩
  intro fuel
  have hnot : ¬ (toInt64 tallTip.NumberU64 ≥ (NewForkMemBlockChain 0).curMaxBlkNum) := by
    decide
  have hrun : runOps exampleCfg [] (NewForkMemBlockChain 0) = NewForkMemBlockChain 0 := rfl
  have hb : bucketAt (NewForkMemBlockChain 0) (NewForkMemBlockChain 0).curMaxBlkNum = [] := rfl
  rw [hrun]
  simp only [Maxvalid, if_neg hnot, hb]

end GoWanchain
